import Mathlib

/-!
# Savitzky-Golay filter of Scan Tailor (`imageproc/SavGolFilter.cpp`)

A shallow embedding of `SavGolKernel` (construction, `QR`, `recalcForOrigin`,
`convolve`), of `savGolFilterGrayToGray` and of `savGolFilter`.

Conventions of the embedding.

* C++ `int` is `Int`; the window sizes and polynomial orders the filter is
  used with are far from the 32-bit range, and signed overflow is undefined
  in C++, so no wrap-around is modelled.
* `double` is an exact ordered field `K` (the theorems take `K = ℝ`), with the
  square root passed as a parameter.  A division by zero has no value in exact
  arithmetic: the functions that divide return `Option` and give `none` there.
* `std::vector<double>` and the pixel buffers are total maps from an index
  (an `Int` offset from the start of the buffer) to a value.
* `assert` is active unless the program is compiled with `NDEBUG`; the
  functions holding a constructor assertion take the flag `ndebug`.
* A `for` loop is a fold over the list of the values its counter takes; the
  variables a loop body updates are the state of the fold.
-/

namespace SavGol

/-! ## Loops -/

/-- The values taken by `i` in `for (int i = lo; i < hi; ++i)`. -/
def intRange (lo hi : Int) : List Int :=
  (List.range (hi - lo).toNat).map (fun (k : Nat) => lo + (k : Int))

/-- The loop `for (int i = lo; i < hi; ++i) s = body i s`. -/
def forLoop {σ : Type} (lo hi : Int) (body : Int → σ → σ) (s : σ) : σ :=
  (intRange lo hi).foldl (fun s i => body i s) s

/-- The loop `for (int i = lo; i < hi; ++i)` whose body may fail. -/
def forLoopM {σ : Type} (lo hi : Int) (body : Int → σ → Option σ) (s : σ) : Option σ :=
  (intRange lo hi).foldlM (fun s i => body i s) s

/-- The loop `for (int i = hi; i >= lo; --i)` whose body may fail. -/
def forDownM {σ : Type} (hi lo : Int) (body : Int → σ → Option σ) (s : σ) : Option σ :=
  (intRange lo (hi + 1)).reverse.foldlM (fun s i => body i s) s

/-! ## Qt value types -/

/-- Qt's `QSize`. -/
structure QSize where
  width : Int
  height : Int
deriving DecidableEq, Repr

/-- Qt's `QSize::isEmpty`: either dimension is less than or equal to zero. -/
def QSize.isEmpty (s : QSize) : Bool :=
  decide (s.width < 1) || decide (s.height < 1)

/-- Qt's `QPoint`. -/
structure QPoint where
  x : Int
  y : Int
deriving DecidableEq, Repr

/-- An 8-bit image: `bits` maps a byte offset from `bits()` to the byte there. -/
structure QImage where
  width : Int
  height : Int
  bytesPerLine : Int
  bits : Int → Nat

/-! ## SavGolKernel -/

/-- The nested `SavGolKernel::Rotation`. -/
structure Rotation (K : Type) where
  sin : K
  cos : K

/-- The data members of `SavGolKernel`. -/
structure SavGolKernel (K : Type) where
  m_equations : Int → K
  m_dataPoints : Int → K
  m_coeffs : Int → K
  m_rotations : List (Rotation K)
  m_kernel : Int → K
  m_order : Int
  m_width : Int
  m_height : Int
  m_numVars : Int
  m_numDataPoints : Int

section Kernel

variable {K : Type} [LinearOrderedField K]

/-- The call `v.push_back(x)` on a vector given by its contents and its size. -/
def push_back (v : (Int → K) × Int) (x : K) : (Int → K) × Int :=
  (Function.update v.1 v.2 x, v.2 + 1)

/-- The "Prepare equations" loops of the constructor: the rows of `m_equations`
in the order they are pushed. -/
def prepareEquations (order width height : Int) : (Int → K) × Int :=
  forLoop 1 (height + 1) (fun y eqs =>
    forLoop 1 (width + 1) (fun x eqs =>
      (forLoop 0 (order + 1) (fun _ (p : ((Int → K) × Int) × K) =>
        let pow1 := p.2
        let eqs := (forLoop 0 (order + 1) (fun _ (q : ((Int → K) × Int) × K) =>
          (push_back q.1 q.2, q.2 * (x : K))) (p.1, pow1)).1
        (eqs, pow1 * (y : K))) (eqs, 1)).1) eqs) ((fun _ => 0), 0)

/-- The innermost loop of `QR`: rotate columns `j+1 .. numVars-1` of rows `j` and `i`. -/
def rotateRows (numVars j : Int) (cos sin : K) (eqs : Int → K) (ij jj : Int) : Int → K :=
  (forLoop (j + 1) numVars (fun _ (p : (Int → K) × Int × Int) =>
    let eqs := p.1
    let ik := p.2.1
    let jk := p.2.2
    let temp := cos * eqs jk + sin * eqs ik
    let eqs := Function.update eqs ik (cos * eqs ik - sin * eqs jk)
    let eqs := Function.update eqs jk temp
    (eqs, ik + 1, jk + 1)) (eqs, ij + 1, jj + 1)).1

/-- One pass of the body of the `i` loop of `QR`: the Givens rotation of rows
`j` and `i`.  It has no value when the radius is zero (`a / radius`). -/
def givensStep (sqrt : K → K) (numVars j jj : Int)
    (s : ((Int → K) × List (Rotation K)) × Int) :
    Option (((Int → K) × List (Rotation K)) × Int) :=
  let eqs := s.1.1
  let ij := s.2
  let a := eqs jj
  let b := eqs ij
  let radius := sqrt (a * a + b * b)
  if radius = 0 then none
  else
    let cos := a / radius
    let sin := b / radius
    let rots := s.1.2 ++ [Rotation.mk sin cos]
    let eqs := Function.update eqs jj radius
    let eqs := Function.update eqs ij 0
    some ((rotateRows numVars j cos sin eqs ij jj, rots), ij + numVars)

/-- The loops of `SavGolKernel::QR` on `m_equations` and `m_rotations`. -/
def QRloops (sqrt : K → K) (numVars numDataPoints : Int) (eqs : Int → K) :
    Option ((Int → K) × List (Rotation K)) :=
  (forLoopM 0 numVars (fun j (s : ((Int → K) × List (Rotation K)) × Int) =>
    let jj := s.2
    let ij := jj + numVars
    (forLoopM (j + 1) numDataPoints (fun _ t => givensStep sqrt numVars j jj t)
      (s.1, ij)).map (fun t => (t.1, jj + (numVars + 1))))
    ((eqs, []), 0)).map Prod.fst

/-- The method `SavGolKernel::QR`. -/
def SavGolKernel.QR (sqrt : K → K) (k : SavGolKernel K) : Option (SavGolKernel K) :=
  (QRloops sqrt k.m_numVars k.m_numDataPoints k.m_equations).map
    (fun r => { k with m_equations := r.1, m_rotations := r.2 })

/-- The "Rotate data points" loops of `recalcForOrigin`; `rot` is the part of
`m_rotations` from the iterator on. -/
def rotateDataPoints (numVars numDataPoints : Int) (dp : Int → K) (rot : List (Rotation K)) :
    (Int → K) × List (Rotation K) :=
  forLoop 0 numVars (fun j s =>
    forLoop (j + 1) numDataPoints (fun i (s : (Int → K) × List (Rotation K)) =>
      match s.2 with
      | [] => s
      | r :: rest =>
        let dp := s.1
        let temp := r.cos * dp j + r.sin * dp i
        let dp := Function.update dp i (r.cos * dp i - r.sin * dp j)
        let dp := Function.update dp j temp
        (dp, rest)) s) (dp, rot)

/-- The back-substitution loops of `recalcForOrigin`.  A zero diagonal entry
fails the assertion `m_equations[ii] != 0.0` (and is a division by zero
without it). -/
def backSubstitute (numVars : Int) (eqs dp coeffs : Int → K) : Option (Int → K) :=
  (forDownM (numVars - 1) 0 (fun i (s : (Int → K) × Int) =>
    let coeffs := s.1
    let ii := s.2
    let sum := (forLoop (i + 1) numVars (fun k (p : K × Int) =>
      (p.1 - eqs p.2 * coeffs k, p.2 + 1)) (dp i, ii + 1)).1
    if eqs ii = 0 then none
    else some (Function.update coeffs i (sum / eqs ii), ii - (numVars + 1)))
    (coeffs, numVars * numVars - 1)).map Prod.fst

/-- The last loops of `recalcForOrigin`: the kernel weights from the
polynomial coefficients, in row-major order of the window. -/
def expandKernel (order width height : Int) (coeffs kernel : Int → K) : Int → K :=
  (forLoop 1 (height + 1) (fun y s =>
    forLoop 1 (width + 1) (fun x (s : (Int → K) × Int) =>
      let sum := (forLoop 0 (order + 1) (fun _ (p : (K × Int) × K) =>
        let pow1 := p.2
        let r := forLoop 0 (order + 1) (fun _ (q : (K × Int) × K) =>
          ((q.1.1 + q.2 * coeffs q.1.2, q.1.2 + 1), q.2 * (x : K))) (p.1, pow1)
        (r.1, pow1 * (y : K))) (((0 : K), (0 : Int)), (1 : K))).1.1
      (Function.update s.1 s.2 sum, s.2 + 1)) s) (kernel, 0)).1

/-- The method `SavGolKernel::recalcForOrigin`. -/
def SavGolKernel.recalcForOrigin (k : SavGolKernel K) (origin : QPoint) :
    Option (SavGolKernel K) :=
  let dp : Int → K := Function.update (fun _ => 0) (origin.y * k.m_width + origin.x) 1
  let dp := (rotateDataPoints k.m_numVars k.m_numDataPoints dp k.m_rotations).1
  (backSubstitute k.m_numVars k.m_equations dp k.m_coeffs).map (fun coeffs =>
    { k with
      m_dataPoints := dp
      m_coeffs := coeffs
      m_kernel := expandKernel k.m_order k.m_width k.m_height coeffs k.m_kernel })

/-- The constructor of `SavGolKernel` after its two assertions: the member
initialisers, the allocations, the equations, `QR()` and
`recalcForOrigin(origin)`. -/
def SavGolKernel.build (sqrt : K → K) (order : Int) (size : QSize) (origin : QPoint) :
    Option (SavGolKernel K) :=
  let k : SavGolKernel K :=
    { m_equations := (prepareEquations order size.width size.height).1
      m_dataPoints := fun _ => 0
      m_coeffs := fun _ => 0
      m_rotations := []
      m_kernel := fun _ => 0
      m_order := order
      m_width := size.width
      m_height := size.height
      m_numVars := (order + 1) * (order + 1)
      m_numDataPoints := size.width * size.height }
  (k.QR sqrt).bind (fun k => k.recalcForOrigin origin)

/-- The two assertions of the constructor: `order > 0` and
`m_numVars <= m_numDataPoints`. -/
def ctorAsserts (order : Int) (size : QSize) : Bool :=
  decide (order > 0) && decide ((order + 1) * (order + 1) ≤ size.width * size.height)

/-- The constructor `SavGolKernel::SavGolKernel(order, size, origin)`; with
`ndebug = false` a failed assertion ends the program. -/
def SavGolKernel.new (ndebug : Bool) (sqrt : K → K) (order : Int) (size : QSize)
    (origin : QPoint) : Option (SavGolKernel K) :=
  if ndebug || ctorAsserts order size then SavGolKernel.build sqrt order size origin
  else none

/-- The conversion `static_cast<int>(sum)`: truncation toward zero. -/
def truncToInt [FloorRing K] (x : K) : Int :=
  if 0 ≤ x then Int.floor x else Int.ceil x

/-- Qt's `qBound(min, val, max)`, which is `qMax(min, qMin(max, val))`. -/
def qBound (lo val hi : Int) : Int :=
  max lo (min hi val)

/-- The sum accumulated by the loops of `SavGolKernel::convolve`. -/
def convolveSum (k : SavGolKernel K) (src : Int → Nat) (src_top_left src_bpl : Int) : K :=
  (forLoop 0 k.m_height (fun _ (s : K × Int × Int) =>
    let p_src := s.2.1
    let r := forLoop 0 k.m_width (fun x (t : K × Int) =>
      (t.1 + (src (p_src + x) : K) * k.m_kernel t.2, t.2 + 1)) (s.1, s.2.2)
    (r.1, p_src + src_bpl, r.2)) ((0 : K), src_top_left, (0 : Int))).1

/-- The method `SavGolKernel::convolve`: the byte it stores to `*dst`. -/
def SavGolKernel.convolve [FloorRing K] (k : SavGolKernel K) (src : Int → Nat)
    (src_top_left src_bpl : Int) : Nat :=
  let val : Int := truncToInt (convolveSum k src src_top_left src_bpl)
  (qBound 0 val 255).toNat

end Kernel

/-! ## savGolFilterGrayToGray -/

/-- A call made on `kernel` by `savGolFilterGrayToGray`; `dst` and
`src_top_left` are the offsets of the two pointers from `dst_data` and
`src_data`. -/
inductive Cmd where
  | recalc (origin : QPoint)
  | convolve (dst : Int) (src_top_left : Int)
deriving DecidableEq, Repr

/-- The local variables the region loops of `savGolFilterGrayToGray` update,
and the calls made on `kernel` so far. -/
structure Cursor where
  origin : QPoint
  dst_line : Int
  src_line : Int
  cmds : List Cmd
deriving DecidableEq, Repr

/-- Record `kernel.recalcForOrigin(origin)`. -/
def Cursor.recalc (c : Cursor) : Cursor :=
  { c with cmds := c.cmds ++ [Cmd.recalc c.origin] }

/-- Record `kernel.convolve(dst, src_top_left, src_bpl)`. -/
def Cursor.convolve (c : Cursor) (dst src_top_left : Int) : Cursor :=
  { c with cmds := c.cmds ++ [Cmd.convolve dst src_top_left] }

/-- The sizes `savGolFilterGrayToGray` works with. -/
structure Geometry where
  width : Int
  height : Int
  kw : Int
  kh : Int
  src_bpl : Int
  dst_bpl : Int
deriving DecidableEq, Repr

/-- The local `k_top = kh / 2`. -/
def Geometry.k_top (g : Geometry) : Int := g.kh.tdiv 2
/-- The local `k_bottom = kh - k_top - 1`. -/
def Geometry.k_bottom (g : Geometry) : Int := g.kh - g.k_top - 1
/-- The local `k_left = kw / 2`. -/
def Geometry.k_left (g : Geometry) : Int := g.kw.tdiv 2
/-- The local `k_right = kw - k_left - 1`. -/
def Geometry.k_right (g : Geometry) : Int := g.kw - g.k_left - 1

/-- The loops under "Top-left corner" (the kernel is constructed just before). -/
def topLeftCorner (g : Geometry) (c : Cursor) : Cursor :=
  let c := { c with dst_line := 0 }
  forLoop 0 g.k_top (fun y c =>
    let c := { c with origin := { c.origin with y := y } }
    let c := forLoop 0 g.k_left (fun x c =>
      let c := { c with origin := { c.origin with x := x } }
      let c := c.recalc
      c.convolve (c.dst_line + x) 0) c
    { c with dst_line := c.dst_line + g.dst_bpl }) c

/-- The loops under "Top area between two corners". -/
def topArea (g : Geometry) (c : Cursor) : Cursor :=
  let c := { c with origin := { c.origin with x := g.kw.tdiv 2 } }
  let c := { c with dst_line := 0 }
  forLoop 0 g.k_top (fun y c =>
    let c := { c with origin := { c.origin with y := y } }
    let c := c.recalc
    let c := forLoop g.k_left (g.width - g.k_right) (fun x c =>
      c.convolve (c.dst_line + x) (0 - g.k_left + x)) c
    { c with dst_line := c.dst_line + g.dst_bpl }) c

/-- The loops under "Top-right corner". -/
def topRightCorner (g : Geometry) (c : Cursor) : Cursor :=
  let c := { c with origin := { c.origin with y := 0 } }
  let c := { c with dst_line := 0 }
  forLoop 0 g.k_top (fun _ c =>
    let c := { c with origin := { c.origin with x := g.kw - 1 } }
    let c := forLoop (g.width - g.k_right) g.width (fun x c =>
      let c := c.recalc
      let c := c.convolve (c.dst_line + x) (0 + g.width - g.kw)
      { c with origin := { c.origin with x := c.origin.x - 1 } }) c
    let c := { c with origin := { c.origin with y := c.origin.y + 1 } }
    { c with dst_line := c.dst_line + g.dst_bpl }) c

/-- The loops under "Central area". -/
def centralArea (g : Geometry) (c : Cursor) : Cursor :=
  let c := { c with origin := { c.origin with x := g.kw.tdiv 2 } }
  let c := { c with origin := { c.origin with y := g.kh.tdiv 2 } }
  let c := c.recalc
  let c := { c with src_line := 0 - g.k_left }
  let c := { c with dst_line := 0 + g.dst_bpl * g.k_top }
  forLoop g.k_top (g.height - g.k_bottom) (fun _ c =>
    let c := forLoop g.k_left (g.width - g.k_right) (fun x c =>
      c.convolve (c.dst_line + x) (c.src_line + x)) c
    let c := { c with src_line := c.src_line + g.src_bpl }
    { c with dst_line := c.dst_line + g.dst_bpl }) c

/-- The loops under "Left area between two corners". -/
def leftArea (g : Geometry) (c : Cursor) : Cursor :=
  let c := { c with origin := { c.origin with x := 0 } }
  let c := { c with origin := { c.origin with y := g.kh.tdiv 2 } }
  forLoop 0 g.k_left (fun x c =>
    let c := { c with src_line := 0 }
    let c := { c with dst_line := 0 + g.dst_bpl * g.k_top }
    let c := c.recalc
    let c := forLoop g.k_top (g.height - g.k_bottom) (fun _ c =>
      let c := c.convolve (c.dst_line + x) c.src_line
      let c := { c with src_line := c.src_line + g.src_bpl }
      { c with dst_line := c.dst_line + g.dst_bpl }) c
    { c with origin := { c.origin with x := c.origin.x + 1 } }) c

/-- The loops under "Right area between two corners". -/
def rightArea (g : Geometry) (c : Cursor) : Cursor :=
  let c := { c with origin := { c.origin with x := g.kw.tdiv 2 + 1 } }
  let c := { c with origin := { c.origin with y := g.kh.tdiv 2 } }
  forLoop (g.width - g.k_right) g.width (fun x c =>
    let c := { c with src_line := 0 + g.width - g.kw }
    let c := { c with dst_line := 0 + g.dst_bpl * g.k_top }
    let c := c.recalc
    let c := forLoop g.k_top (g.height - g.k_bottom) (fun _ c =>
      let c := c.convolve (c.dst_line + x) c.src_line
      let c := { c with src_line := c.src_line + g.src_bpl }
      { c with dst_line := c.dst_line + g.dst_bpl }) c
    { c with origin := { c.origin with x := c.origin.x + 1 } }) c

/-- The loops under "Bottom-left corner". -/
def bottomLeftCorner (g : Geometry) (c : Cursor) : Cursor :=
  let c := { c with origin := { c.origin with y := g.kh.tdiv 2 + 1 } }
  let c := { c with src_line := 0 + g.src_bpl * (g.height - g.kh) }
  let c := { c with dst_line := 0 + g.dst_bpl * (g.height - g.k_bottom) }
  forLoop (g.height - g.k_bottom) g.height (fun _ c =>
    let c := { c with origin := { c.origin with x := 0 } }
    let c := forLoop 0 g.k_left (fun x c =>
      let c := { c with origin := { c.origin with x := x } }
      let c := c.recalc
      let c := c.convolve (c.dst_line + x) c.src_line
      { c with origin := { c.origin with x := c.origin.x + 1 } }) c
    let c := { c with origin := { c.origin with y := c.origin.y + 1 } }
    { c with dst_line := c.dst_line + g.dst_bpl }) c

/-- The loops under "Bottom area between two corners". -/
def bottomArea (g : Geometry) (c : Cursor) : Cursor :=
  let c := { c with origin := { c.origin with x := g.kw.tdiv 2 } }
  let c := { c with origin := { c.origin with y := g.kh.tdiv 2 + 1 } }
  let c := { c with src_line := 0 + g.src_bpl * (g.height - g.kh) - c.origin.x }
  let c := { c with dst_line := 0 + g.dst_bpl * (g.height - g.k_bottom) }
  forLoop (g.height - g.k_bottom) g.height (fun _ c =>
    let c := c.recalc
    let c := forLoop g.k_left (g.width - g.k_right) (fun x c =>
      c.convolve (c.dst_line + x) (c.src_line + x)) c
    let c := { c with origin := { c.origin with y := c.origin.y + 1 } }
    { c with dst_line := c.dst_line + g.dst_bpl }) c

/-- The loops under "Bottom-right corner". -/
def bottomRightCorner (g : Geometry) (c : Cursor) : Cursor :=
  let c := { c with origin := { c.origin with y := g.kh.tdiv 2 + 1 } }
  let c := { c with src_line := 0 + g.src_bpl * (g.height - g.kh) + (g.width - g.kw) }
  let c := { c with dst_line := 0 + g.dst_bpl * (g.height - g.k_bottom) }
  forLoop (g.height - g.k_bottom) g.height (fun _ c =>
    let c := { c with origin := { c.origin with x := g.kw.tdiv 2 + 1 } }
    let c := forLoop (g.width - g.k_right) g.width (fun x c =>
      let c := c.recalc
      let c := c.convolve (c.dst_line + x) c.src_line
      { c with origin := { c.origin with x := c.origin.x + 1 } }) c
    let c := { c with origin := { c.origin with y := c.origin.y + 1 } }
    { c with dst_line := c.dst_line + g.dst_bpl }) c

/-- The nine region loops of `savGolFilterGrayToGray` in program order, from
the declaration `QPoint origin(0, 0)` to the last corner. -/
def regionLoops (g : Geometry) : Cursor :=
  let c : Cursor := { origin := QPoint.mk 0 0, dst_line := 0, src_line := 0, cmds := [] }
  bottomRightCorner g (bottomArea g (bottomLeftCorner g (rightArea g (leftArea g
    (centralArea g (topRightCorner g (topArea g (topLeftCorner g c))))))))

/-- A call of `convolve` together with the origin the kernel was last
recalculated for when the call is made. -/
structure ConvolveCall where
  dst : Int
  src_top_left : Int
  origin : QPoint
deriving DecidableEq, Repr

/-- The `convolve` calls among the recorded calls, each with the origin of
the latest `recalcForOrigin` before it (`origin` before the first one: the
origin given to the constructor). -/
def callsOf : QPoint → List Cmd → List ConvolveCall
  | _, [] => []
  | _, Cmd.recalc o :: rest => callsOf o rest
  | origin, Cmd.convolve dst src_top_left :: rest =>
    ConvolveCall.mk dst src_top_left origin :: callsOf origin rest

/-- The `convolve` calls of `savGolFilterGrayToGray`, in program order. -/
def convolveCalls (g : Geometry) : List ConvolveCall :=
  callsOf (QPoint.mk 0 0) (regionLoops g).cmds

section Filter

variable {K : Type} [LinearOrderedField K] [FloorRing K]

/-- Carry out one recorded call on `kernel`; a `convolve` stores its byte in
the destination buffer. -/
def runCmd (src : Int → Nat) (src_bpl : Int) (s : SavGolKernel K × (Int → Nat)) :
    Cmd → Option (SavGolKernel K × (Int → Nat))
  | Cmd.recalc origin => (s.1.recalcForOrigin origin).map (fun k => (k, s.2))
  | Cmd.convolve dst src_top_left =>
    some (s.1, Function.update s.2 dst (s.1.convolve src src_top_left src_bpl))

/-- Carry out the recorded calls in order. -/
def runCmds (src : Int → Nat) (src_bpl : Int) (cmds : List Cmd)
    (s : SavGolKernel K × (Int → Nat)) : Option (SavGolKernel K × (Int → Nat)) :=
  cmds.foldlM (runCmd src src_bpl) s

/-- Qt's `QImage(width, height, QImage::Format_Indexed8)`: scan lines are
32-bit aligned and the pixel data is not initialised (`uninit`). -/
def QImage.create (width height : Int) (uninit : Int → Nat) : QImage :=
  { width := width
    height := height
    bytesPerLine := (width * 8 + 31).tdiv 32 * 4
    bits := uninit }

/-- The function `savGolFilterGrayToGray`.  The result is `none` when the
run ends in a failed assertion or a division by zero. -/
def savGolFilterGrayToGray (ndebug : Bool) (sqrt : K → K) (uninit : Int → Nat)
    (src : QImage) (window_size : QSize) (order : Int) : Option QImage :=
  let width := src.width
  let height := src.height
  let kw := window_size.width
  let kh := window_size.height
  if kw > width ∨ kh > height then some src
  else
    let src_bpl := src.bytesPerLine
    let dst := QImage.create width height uninit
    let dst_bpl := dst.bytesPerLine
    let g : Geometry := Geometry.mk width height kw kh src_bpl dst_bpl
    (SavGolKernel.new ndebug sqrt order window_size (QPoint.mk 0 0)).bind (fun kernel =>
      (runCmds src.bits src_bpl (regionLoops g).cmds (kernel, dst.bits)).map
        (fun r => { dst with bits := r.2 }))

/-- The function `savGolFilter`; `Except.error` is the `std::invalid_argument`
it throws, and `toGrayscale` is the conversion of `Grayscale.h`. -/
def savGolFilter {Image : Type} (ndebug : Bool) (sqrt : K → K) (uninit : Int → Nat)
    (toGrayscale : Image → QImage) (src : Image) (window_size : QSize) (order : Int) :
    Except String (Option QImage) :=
  if window_size.isEmpty then
    Except.error "savGolFilter: invalid window size"
  else if (order + 1) * (order + 1) > window_size.width * window_size.height then
    Except.error "savGolFilter: order is too big for that window"
  else
    Except.ok (savGolFilterGrayToGray ndebug sqrt uninit (toGrayscale src) window_size order)

end Filter

/-! ## Notions used to state the properties of the kernel -/

section Notions

variable {K : Type} [LinearOrderedField K]

/-- The plane rotation with parameters `cos`, `sin` applied to the entries `j`
and `i` of a vector, as `QR` applies it to two rows and `recalcForOrigin` to
the data points. -/
def rotVec (j i : Int) (cos sin : K) (d : Int → K) : Int → K :=
  Function.update (Function.update d i (cos * d i - sin * d j)) j (cos * d j + sin * d i)

/-- The rotations of a list applied in order, each to its pair of rows. -/
def applyRots (tr : List ((Int × Int) × Rotation K)) (d : Int → K) : Int → K :=
  tr.foldl (fun d p => rotVec p.1.1 p.1.2 p.2.cos p.2.sin d) d

/-- The pairs `(j, i)` visited by the two outer loops of `QR` before the pass
`(j, i)`: all of the columns below `j`, and the rows `j+1 .. i-1` of column `j`. -/
def pairsBefore (numDataPoints j i : Int) : List (Int × Int) :=
  (intRange 0 j).flatMap (fun j' => (intRange (j' + 1) numDataPoints).map (fun i' => (j', i')))
    ++ (intRange (j + 1) i).map (fun i' => (j, i'))

/-- The scalar product of two vectors over the rows `0 .. n-1`. -/
def dot (n : Int) (u v : Int → K) : K :=
  ∑ r ∈ Finset.Ico 0 n, u r * v r

/-- The relation between the equation matrix `A` the constructor prepared and
the state of `QR` before the pass `(j, i)`: the rotations recorded so far are
rotations of the row pairs visited so far, every column of the matrix is the
column of `A` with these rotations applied, and the entries eliminated so far
are zero. -/
def QRInv (m n : Int) (A : Int → K) (j i : Int) (E : Int → K) (rots : List (Rotation K)) :
    Prop :=
  ∃ tr : List ((Int × Int) × Rotation K),
    rots = tr.map Prod.snd ∧ tr.map Prod.fst = pairsBefore n j i ∧
    (∀ p ∈ tr, 0 ≤ p.1.1 ∧ p.1.1 < p.1.2 ∧ p.1.2 < n ∧
      p.2.cos * p.2.cos + p.2.sin * p.2.sin = 1) ∧
    (∀ k, 0 ≤ k → k < m → ∀ r, E (r * m + k) = applyRots tr (fun r => A (r * m + k)) r) ∧
    (∀ k r, 0 ≤ k → k < m → k < r → r < n → (k < j ∨ (k = j ∧ r < i)) → E (r * m + k) = 0)

/-- The kernel `k` holds the `QR` factorization of the equations of the
window `size` and the order `order`. -/
def Factored (order : Int) (size : QSize) (k : SavGolKernel K) : Prop :=
  k.m_order = order ∧ k.m_width = size.width ∧ k.m_height = size.height ∧
  k.m_numVars = (order + 1) * (order + 1) ∧
  k.m_numDataPoints = size.width * size.height ∧
  QRInv k.m_numVars k.m_numDataPoints (prepareEquations order size.width size.height).1
    k.m_numVars (k.m_numVars + 1) k.m_equations k.m_rotations

/-- The kernel `k` is the least-squares kernel of its window for `origin`:
its coefficients `c` solve the normal equations `AᵀA c = Aᵀe_o`, where the
row of `A` for the window point `(x, y)` (coordinates from 1) holds the
monomials `y^i * x^j`; its weights are the values of the fitted polynomial at
the window points; and the weights reproduce every monomial at the origin. -/
def IsLeastSquaresKernel (order : Int) (size : QSize) (origin : QPoint)
    (k : SavGolKernel K) : Prop :=
  (∀ i j : Nat, (i : Int) ≤ order → (j : Int) ≤ order →
    ∑ i' ∈ Finset.range (order.toNat + 1), ∑ j' ∈ Finset.range (order.toNat + 1),
      (∑ y ∈ Finset.Icc 1 size.height, ∑ x ∈ Finset.Icc 1 size.width,
        ((y : K) ^ i * (x : K) ^ j) * ((y : K) ^ i' * (x : K) ^ j'))
        * k.m_coeffs ((i' : Int) * (order + 1) + (j' : Int))
      = ((origin.y + 1 : Int) : K) ^ i * ((origin.x + 1 : Int) : K) ^ j) ∧
  (∀ y x : Int, 1 ≤ y → y ≤ size.height → 1 ≤ x → x ≤ size.width →
    k.m_kernel ((y - 1) * size.width + (x - 1))
      = ∑ i' ∈ Finset.range (order.toNat + 1), ∑ j' ∈ Finset.range (order.toNat + 1),
          (y : K) ^ i' * (x : K) ^ j' * k.m_coeffs ((i' : Int) * (order + 1) + (j' : Int))) ∧
  (∀ i j : Nat, (i : Int) ≤ order → (j : Int) ≤ order →
    ∑ y ∈ Finset.Icc 1 size.height, ∑ x ∈ Finset.Icc 1 size.width,
      k.m_kernel ((y - 1) * size.width + (x - 1)) * ((y : K) ^ i * (x : K) ^ j)
      = ((origin.y + 1 : Int) : K) ^ i * ((origin.x + 1 : Int) : K) ^ j)

/-- The kernel as the constructor has it when it calls `QR()`: the members
initialised, the vectors allocated and the equations prepared. -/
def SavGolKernel.prepared (order : Int) (size : QSize) : SavGolKernel K :=
  { m_equations := (prepareEquations order size.width size.height).1
    m_dataPoints := fun _ => 0
    m_coeffs := fun _ => 0
    m_rotations := []
    m_kernel := fun _ => 0
    m_order := order
    m_width := size.width
    m_height := size.height
    m_numVars := (order + 1) * (order + 1)
    m_numDataPoints := size.width * size.height }

end Notions

/-! ## Notions used to state the properties of the region loops -/

/-- The origin in force after the recorded calls: the origin of the last
`recalcForOrigin` among them, or `origin` when there is none. -/
def lastOrigin : QPoint → List Cmd → QPoint
  | origin, [] => origin
  | _, Cmd.recalc o :: rest => lastOrigin o rest
  | origin, Cmd.convolve _ _ :: rest => lastOrigin origin rest

/-- The column of the left edge of the source window of the output column `x`:
`x - kw/2` clamped to `[0, width - kw]`. -/
def Geometry.left (g : Geometry) (x : Int) : Int :=
  max 0 (min (g.width - g.kw) (x - g.k_left))

/-- The line of the top edge of the source window of the output line `y`:
`y - kh/2` clamped to `[0, height - kh]`. -/
def Geometry.top (g : Geometry) (y : Int) : Int :=
  max 0 (min (g.height - g.kh) (y - g.k_top))

/-- The origin the region loops recalculate the kernel for before they
convolve the output pixel `(x, y)`: the place of the pixel in its source
window, except in the top-right corner, where the column of the origin runs
down from `kw - 1`. -/
def Geometry.originAt (g : Geometry) (x y : Int) : QPoint :=
  QPoint.mk
    (if y < g.k_top ∧ g.width - g.k_right ≤ x then g.kw - 1 - (x - (g.width - g.k_right))
     else x - g.left x)
    (y - g.top y)

/-- The `convolve` call made for the output pixel `p = (x, y)`. -/
def Geometry.callAt (g : Geometry) (p : Int × Int) : ConvolveCall :=
  ConvolveCall.mk (p.2 * g.dst_bpl + p.1) (g.top p.2 * g.src_bpl + g.left p.1)
    (g.originAt p.1 p.2)

/-- The pixels `(x, y)` with `x` in `xs` and `y` in `ys`, line by line. -/
def byLines (xs ys : List Int) : List (Int × Int) :=
  ys.flatMap (fun y => xs.map (fun x => (x, y)))

/-- The pixels `(x, y)` with `x` in `xs` and `y` in `ys`, column by column. -/
def byColumns (xs ys : List Int) : List (Int × Int) :=
  xs.flatMap (fun x => ys.map (fun y => (x, y)))

/-- The output pixels in the order the nine region loops convolve them. -/
def Geometry.pixelOrder (g : Geometry) : List (Int × Int) :=
  byLines (intRange 0 g.k_left) (intRange 0 g.k_top)
  ++ byLines (intRange g.k_left (g.width - g.k_right)) (intRange 0 g.k_top)
  ++ byLines (intRange (g.width - g.k_right) g.width) (intRange 0 g.k_top)
  ++ byLines (intRange g.k_left (g.width - g.k_right))
      (intRange g.k_top (g.height - g.k_bottom))
  ++ byColumns (intRange 0 g.k_left) (intRange g.k_top (g.height - g.k_bottom))
  ++ byColumns (intRange (g.width - g.k_right) g.width)
      (intRange g.k_top (g.height - g.k_bottom))
  ++ byLines (intRange 0 g.k_left) (intRange (g.height - g.k_bottom) g.height)
  ++ byLines (intRange g.k_left (g.width - g.k_right))
      (intRange (g.height - g.k_bottom) g.height)
  ++ byLines (intRange (g.width - g.k_right) g.width)
      (intRange (g.height - g.k_bottom) g.height)

/-- The byte `convolve` stores when all weights of a `kw` x `kh` kernel are
equal to `weight`. -/
def uniformConvolve {K : Type} [LinearOrderedField K] [FloorRing K] (weight : K)
    (kw kh : Int) (src : Int → Nat) (src_top_left src_bpl : Int) : Nat :=
  (qBound 0 (truncToInt (∑ y ∈ Finset.Ico 0 kh, ∑ x ∈ Finset.Ico 0 kw,
    weight * (src (src_top_left + y * src_bpl + x) : K))) 255).toNat

/-- The kernel `k` holds the factorization for order 0 and the window `size`,
and all its weights are `1 / (width * height)`. -/
def UniformKernel {K : Type} [LinearOrderedField K] (size : QSize) (k : SavGolKernel K) :
    Prop :=
  Factored 0 size k ∧ k.m_equations 0 ≠ 0 ∧
  ∀ p : Int, 0 ≤ p → p < size.width * size.height →
    k.m_kernel p = 1 / ((size.width : K) * (size.height : K))

/-! ## Lemmas on loops -/

theorem intRange_of_le {lo hi : Int} (h : hi ≤ lo) : intRange lo hi = [] := by
  have : (hi - lo).toNat = 0 := by omega
  simp [intRange, this]

theorem intRange_succ {lo hi : Int} (h : lo ≤ hi) :
    intRange lo (hi + 1) = intRange lo hi ++ [hi] := by
  have e : (hi + 1 - lo).toNat = (hi - lo).toNat + 1 := by omega
  have e2 : lo + ((hi - lo).toNat : Int) = hi := by omega
  simp only [intRange, e, List.range_succ, List.map_append, List.map_cons, List.map_nil, e2]

theorem mem_intRange {lo hi i : Int} : i ∈ intRange lo hi ↔ lo ≤ i ∧ i < hi := by
  simp only [intRange, List.mem_map, List.mem_range]
  constructor
  · rintro ⟨k, hk, rfl⟩
    omega
  · rintro ⟨h1, h2⟩
    exact ⟨(i - lo).toNat, by omega, by omega⟩

theorem intRange_cons {lo hi : Int} (h : lo < hi) :
    intRange lo hi = lo :: intRange (lo + 1) hi := by
  have e : (hi - lo).toNat = (hi - (lo + 1)).toNat + 1 := by omega
  simp only [intRange, e, List.range_succ_eq_map, List.map_cons, List.map_map]
  simp only [Nat.cast_zero, add_zero, List.cons.injEq, true_and]
  apply List.map_congr_left
  intro k _
  simp only [Function.comp, Nat.cast_succ]
  omega

theorem intRange_nodup (lo hi : Int) : (intRange lo hi).Nodup := by
  unfold intRange
  refine List.Nodup.map ?_ (List.nodup_range _)
  intro a b hab
  simpa using hab

theorem forLoop_of_le {σ : Type} {lo hi : Int} (h : hi ≤ lo) (body : Int → σ → σ) (s : σ) :
    forLoop lo hi body s = s := by
  simp [forLoop, intRange_of_le h]

theorem forLoop_succ {σ : Type} {lo hi : Int} (h : lo ≤ hi) (body : Int → σ → σ) (s : σ) :
    forLoop lo (hi + 1) body s = body hi (forLoop lo hi body s) := by
  simp [forLoop, intRange_succ h, List.foldl_append]

theorem forLoopM_of_le {σ : Type} {lo hi : Int} (h : hi ≤ lo) (body : Int → σ → Option σ)
    (s : σ) : forLoopM lo hi body s = some s := by
  simp [forLoopM, intRange_of_le h]

theorem forLoopM_succ {σ : Type} {lo hi : Int} (h : lo ≤ hi) (body : Int → σ → Option σ)
    (s : σ) : forLoopM lo (hi + 1) body s = (forLoopM lo hi body s).bind (body hi) := by
  simp only [forLoopM, intRange_succ h, List.foldlM_append]
  cases hx : List.foldlM (fun s i => body i s) s (intRange lo hi) <;> simp [List.foldlM]

/-- Induction along the values `lo, lo+1, ..., hi` of a loop counter. -/
theorem int_le_induction {P : Int → Prop} (lo : Int) (h0 : P lo)
    (hs : ∀ i, lo ≤ i → P i → P (i + 1)) : ∀ hi, lo ≤ hi → P hi := by
  intro hi hle
  obtain ⟨n, rfl⟩ : ∃ n : Nat, hi = lo + n := ⟨(hi - lo).toNat, by omega⟩
  clear hle
  induction n with
  | zero => simpa using h0
  | succ n ih =>
    have := hs (lo + n) (by omega) ih
    simpa [add_assoc] using this

/-- The invariant rule for `forLoop`. -/
theorem forLoop_inv {σ : Type} (P : Int → σ → Prop) {lo hi : Int} (hle : lo ≤ hi)
    (body : Int → σ → σ) (s : σ) (h0 : P lo s)
    (hstep : ∀ i t, lo ≤ i → i < hi → P i t → P (i + 1) (body i t)) :
    P hi (forLoop lo hi body s) := by
  have key : ∀ m, lo ≤ m → m ≤ hi → P m (forLoop lo m body s) := by
    intro m hm
    refine int_le_induction (P := fun m => m ≤ hi → P m (forLoop lo m body s)) lo ?_ ?_ m hm
    · intro _
      rw [forLoop_of_le (le_refl lo)]
      exact h0
    · intro i hi1 ih hi2
      rw [forLoop_succ hi1]
      exact hstep i _ hi1 (by omega) (ih (by omega))
  exact key hi hle (le_refl hi)

/-- The invariant rule for `forLoopM`: what holds of the result when there is one. -/
theorem forLoopM_inv {σ : Type} (P : Int → σ → Prop) {lo hi : Int} (hle : lo ≤ hi)
    (body : Int → σ → Option σ) (s : σ) (h0 : P lo s)
    (hstep : ∀ i t t', lo ≤ i → i < hi → P i t → body i t = some t' → P (i + 1) t') :
    ∀ r, forLoopM lo hi body s = some r → P hi r := by
  have key : ∀ m, lo ≤ m → m ≤ hi → ∀ r, forLoopM lo m body s = some r → P m r := by
    intro m hm
    refine int_le_induction
      (P := fun m => m ≤ hi → ∀ r, forLoopM lo m body s = some r → P m r) lo ?_ ?_ m hm
    · intro _ r hr
      rw [forLoopM_of_le (le_refl lo)] at hr
      cases hr
      exact h0
    · intro i hi1 ih hi2 r hr
      rw [forLoopM_succ hi1] at hr
      cases hx : forLoopM lo i body s with
      | none => simp [hx] at hr
      | some t =>
        rw [hx] at hr
        exact hstep i t r hi1 (by omega) (ih (by omega) t hx) hr
  exact key hi hle (le_refl hi)

/-- The invariant rule for `forLoopM` with termination: every pass has a result. -/
theorem forLoopM_total {σ : Type} (P : Int → σ → Prop) {lo hi : Int} (hle : lo ≤ hi)
    (body : Int → σ → Option σ) (s : σ) (h0 : P lo s)
    (hstep : ∀ i t, lo ≤ i → i < hi → P i t → ∃ t', body i t = some t' ∧ P (i + 1) t') :
    ∃ r, forLoopM lo hi body s = some r ∧ P hi r := by
  have key : ∀ m, lo ≤ m → m ≤ hi → ∃ r, forLoopM lo m body s = some r ∧ P m r := by
    intro m hm
    refine int_le_induction
      (P := fun m => m ≤ hi → ∃ r, forLoopM lo m body s = some r ∧ P m r) lo ?_ ?_ m hm
    · intro _
      exact ⟨s, forLoopM_of_le (le_refl lo) body s, h0⟩
    · intro i hi1 ih hi2
      obtain ⟨t, ht, hP⟩ := ih (by omega)
      obtain ⟨t', ht', hP'⟩ := hstep i t hi1 (by omega) hP
      exact ⟨t', by rw [forLoopM_succ hi1, ht]; exact ht', hP'⟩
  exact key hi hle (le_refl hi)

/-- The invariant rule for `forLoopM` showing a failure: every pass keeps the
invariant or fails, and the invariant cannot hold at the end. -/
theorem forLoopM_none {σ : Type} (P : Int → σ → Prop) {lo hi : Int} (hle : lo ≤ hi)
    (body : Int → σ → Option σ) (s : σ) (h0 : P lo s)
    (hstep : ∀ i t t', lo ≤ i → i < hi → P i t → body i t = some t' → P (i + 1) t')
    (hend : ∀ r, ¬ P hi r) : forLoopM lo hi body s = none := by
  cases hx : forLoopM lo hi body s with
  | none => rfl
  | some r => exact absurd (forLoopM_inv P hle body s h0 hstep r hx) (hend r)

/-! ## Sums accumulated by loops -/

theorem sum_Ico_succ {M : Type} [AddCommMonoid M] (f : Int → M) {lo i : Int} (h : lo ≤ i) :
    ∑ k ∈ Finset.Ico lo (i + 1), f k = ∑ k ∈ Finset.Ico lo i, f k + f i := by
  have e : Finset.Ico lo (i + 1) = insert i (Finset.Ico lo i) := by
    ext k
    simp only [Finset.mem_Ico, Finset.mem_insert]
    omega
  rw [e, Finset.sum_insert (by simp), add_comm]

theorem sum_Ico_of_le {M : Type} [AddCommMonoid M] (f : Int → M) {lo hi : Int} (h : hi ≤ lo) :
    ∑ k ∈ Finset.Ico lo hi, f k = 0 := by
  rw [Finset.Ico_eq_empty (by omega), Finset.sum_empty]

/-- A loop that adds `f i c` to an accumulator while stepping a counter `c`. -/
theorem forLoop_sum_counter {M : Type} [AddCommMonoid M] (f : Int → Int → M) (lo hi : Int)
    (h : lo ≤ hi) (a : M) (c0 : Int) :
    forLoop lo hi (fun i (t : M × Int) => (t.1 + f i t.2, t.2 + 1)) (a, c0)
      = (a + ∑ i ∈ Finset.Ico lo hi, f i (c0 + (i - lo)), c0 + (hi - lo)) := by
  refine forLoop_inv
    (fun m t => t = (a + ∑ i ∈ Finset.Ico lo m, f i (c0 + (i - lo)), c0 + (m - lo)))
    h _ _ ?_ ?_
  · simp
  · intro i t h1 _ ht
    subst ht
    simp only [sum_Ico_succ _ h1, Prod.mk.injEq]
    constructor
    · rw [add_assoc]
    · ring

/-! ## Loops that fill a vector block by block -/

/-- A loop whose pass `i` appends a block of `L` entries satisfying `Spec i`
to a vector (leaving the entries below untouched) appends the blocks one
after the other. -/
theorem forLoop_blocks (K σ : Type) (vec : σ → (Int → K) × Int) (Q : Int → σ → Prop)
    (Spec : Int → Int → (Int → K) → Prop) (L : Int) (hL : 0 ≤ L) {lo hi : Int}
    (hle : lo ≤ hi) (body : Int → σ → σ)
    (hstable : ∀ i s e e', (∀ idx, idx < s + L → e' idx = e idx) → Spec i s e → Spec i s e')
    (hbody : ∀ i t, lo ≤ i → i < hi → Q i t →
      (vec (body i t)).2 = (vec t).2 + L ∧
      (∀ idx, idx < (vec t).2 → (vec (body i t)).1 idx = (vec t).1 idx) ∧
      Spec i (vec t).2 (vec (body i t)).1 ∧ Q (i + 1) (body i t))
    (t0 : σ) (h0 : Q lo t0) :
    (vec (forLoop lo hi body t0)).2 = (vec t0).2 + (hi - lo) * L ∧
    (∀ idx, idx < (vec t0).2 → (vec (forLoop lo hi body t0)).1 idx = (vec t0).1 idx) ∧
    (∀ i, lo ≤ i → i < hi →
      Spec i ((vec t0).2 + (i - lo) * L) (vec (forLoop lo hi body t0)).1) ∧
    Q hi (forLoop lo hi body t0) := by
  refine forLoop_inv (fun m t =>
    (vec t).2 = (vec t0).2 + (m - lo) * L ∧
    (∀ idx, idx < (vec t0).2 → (vec t).1 idx = (vec t0).1 idx) ∧
    (∀ i, lo ≤ i → i < m → Spec i ((vec t0).2 + (i - lo) * L) (vec t).1) ∧
    Q m t) hle body t0 ?_ ?_
  · refine ⟨by simp, fun _ _ => rfl, ?_, h0⟩
    intro i h1 h2
    omega
  · rintro i t h1 h2 ⟨hs, hf, hv, hq⟩
    obtain ⟨bs, bf, bv, bq⟩ := hbody i t h1 h2 hq
    have hnn : 0 ≤ (i - lo) * L := mul_nonneg (by omega) hL
    refine ⟨by rw [bs, hs]; ring, ?_, ?_, bq⟩
    · intro idx hidx
      rw [bf idx (by rw [hs]; omega), hf idx hidx]
    · intro i' h1' h2'
      rcases eq_or_lt_of_le (show i' ≤ i by omega) with he | hlt
      · subst he
        rw [← hs]
        exact bv
      · refine hstable i' _ _ _ ?_ (hv i' h1' hlt)
        intro idx hidx
        apply bf
        rw [hs]
        have : (i' - lo) * L + L ≤ (i - lo) * L := by
          have h3 : (i' - lo + 1) * L ≤ (i - lo) * L :=
            mul_le_mul_of_nonneg_right (by omega) hL
          linarith
        omega


section KernelLemmas

variable {K : Type} [LinearOrderedField K]

/-- The double sum that `convolve` accumulates: weight `y*width + x` of the
kernel times the source byte `x` places right of and `y` lines below the
top-left pointer. -/
theorem convolveSum_eq (k : SavGolKernel K) (src : Int → Nat) (src_top_left src_bpl : Int) :
    convolveSum k src src_top_left src_bpl
      = ∑ y ∈ Finset.Ico 0 k.m_height, ∑ x ∈ Finset.Ico 0 k.m_width,
          k.m_kernel (y * k.m_width + x) * (src (src_top_left + y * src_bpl + x) : K) := by
  unfold convolveSum
  rcases le_or_lt 0 k.m_height with hh | hh
  swap
  · rw [forLoop_of_le (by omega), sum_Ico_of_le _ (by omega)]
  rcases le_or_lt 0 k.m_width with hw | hw
  swap
  · have he : ∀ y : Int, ∑ x ∈ Finset.Ico 0 k.m_width,
        k.m_kernel (y * k.m_width + x) * (src (src_top_left + y * src_bpl + x) : K) = 0 :=
      fun y => sum_Ico_of_le _ (by omega)
    simp only [he, Finset.sum_const_zero]
    have := forLoop_inv (fun (_ : Int) (t : K × Int × Int) => t.1 = 0) hh
      (fun _ (s : K × Int × Int) =>
        let p_src := s.2.1
        let r := forLoop 0 k.m_width (fun x (t : K × Int) =>
          (t.1 + (src (p_src + x) : K) * k.m_kernel t.2, t.2 + 1)) (s.1, s.2.2)
        (r.1, p_src + src_bpl, r.2)) ((0 : K), src_top_left, (0 : Int)) rfl
      (by
        intro i t _ _ ht
        simp only [forLoop_of_le (le_of_lt hw)]
        exact ht)
    exact this
  · have := forLoop_inv (fun (m : Int) (t : K × Int × Int) =>
        t = (∑ y ∈ Finset.Ico 0 m, ∑ x ∈ Finset.Ico 0 k.m_width,
          k.m_kernel (y * k.m_width + x) * (src (src_top_left + y * src_bpl + x) : K),
          src_top_left + m * src_bpl, m * k.m_width)) hh
      (fun _ (s : K × Int × Int) =>
        let p_src := s.2.1
        let r := forLoop 0 k.m_width (fun x (t : K × Int) =>
          (t.1 + (src (p_src + x) : K) * k.m_kernel t.2, t.2 + 1)) (s.1, s.2.2)
        (r.1, p_src + src_bpl, r.2)) ((0 : K), src_top_left, (0 : Int)) (by simp)
      (by
        intro i t h1 _ ht
        subst ht
        simp only
        rw [forLoop_sum_counter (fun x c => (src (src_top_left + i * src_bpl + x) : K)
          * k.m_kernel c) 0 k.m_width hw, sum_Ico_succ _ h1]
        simp only [Prod.mk.injEq]
        refine ⟨?_, by ring, by ring⟩
        congr 1
        apply Finset.sum_congr rfl
        intro x _
        rw [mul_comm]
        congr 2
        ring)
    rw [this]

theorem qBound_byte (val : Int) : 0 ≤ qBound 0 val 255 ∧ qBound 0 val 255 ≤ 255 := by
  unfold qBound
  omega

theorem toNat_succ_of_nonneg {i : Int} (h : 0 ≤ i) : (i + 1).toNat = i.toNat + 1 := by
  omega

/-- The equation matrix as stored by the constructor: the entry of row
`(y-1)*width + (x-1)` and column `i*(order+1) + j` is `y^i * x^j`. -/
theorem prepareEquations_spec (order width height : Int) (ho : 0 ≤ order + 1)
    (hw : 0 ≤ width) (hh : 0 ≤ height) (y x i j : Int)
    (hy1 : 1 ≤ y) (hy2 : y ≤ height) (hx1 : 1 ≤ x) (hx2 : x ≤ width)
    (hi1 : 0 ≤ i) (hi2 : i ≤ order) (hj1 : 0 ≤ j) (hj2 : j ≤ order) :
    (prepareEquations (K := K) order width height).1
        (((y - 1) * width + (x - 1)) * ((order + 1) * (order + 1)) + (i * (order + 1) + j))
      = (y : K) ^ i.toNat * (x : K) ^ j.toNat := by
  -- the `j` loop
  have hJ : ∀ (x : Int) (pow1 : K) (v : (Int → K) × Int),
      let r := forLoop 0 (order + 1) (fun _ (q : ((Int → K) × Int) × K) =>
          (push_back q.1 q.2, q.2 * (x : K))) (v, pow1)
      r.1.2 = v.2 + (order + 1) ∧ (∀ idx, idx < v.2 → r.1.1 idx = v.1 idx) ∧
      (∀ j, 0 ≤ j → j < order + 1 → r.1.1 (v.2 + j) = pow1 * (x : K) ^ j.toNat) := by
    intro x pow1 v
    have := forLoop_blocks K (((Int → K) × Int) × K) Prod.fst
      (fun j t => t.2 = pow1 * (x : K) ^ j.toNat)
      (fun j s e => e s = pow1 * (x : K) ^ j.toNat) 1 (by norm_num) ho
      (fun _ (q : ((Int → K) × Int) × K) => (push_back q.1 q.2, q.2 * (x : K)))
      (by
        intro j s e e' hag hsp
        rw [hag s (by omega)]
        exact hsp)
      (by
        intro j t h1 _ hq
        refine ⟨rfl, ?_, ?_, ?_⟩
        · intro idx hidx
          simp only [push_back]
          rw [Function.update_noteq (by omega)]
        · simp only [push_back, Function.update_same]
          exact hq
        · simp only [hq, toNat_succ_of_nonneg h1, pow_succ, mul_assoc])
      (v, pow1) (by simp)
    obtain ⟨a, b, c, _⟩ := this
    refine ⟨by simpa using a, b, ?_⟩
    intro j h1 h2
    simpa using c j h1 h2
  -- the `i` loop
  have hI : ∀ (y x : Int) (v : (Int → K) × Int),
      let r := forLoop 0 (order + 1) (fun _ (p : ((Int → K) × Int) × K) =>
          let pow1 := p.2
          let eqs := (forLoop 0 (order + 1) (fun _ (q : ((Int → K) × Int) × K) =>
            (push_back q.1 q.2, q.2 * (x : K))) (p.1, pow1)).1
          (eqs, pow1 * (y : K))) (v, (1 : K))
      r.1.2 = v.2 + (order + 1) * (order + 1) ∧ (∀ idx, idx < v.2 → r.1.1 idx = v.1 idx) ∧
      (∀ i j, 0 ≤ i → i < order + 1 → 0 ≤ j → j < order + 1 →
        r.1.1 (v.2 + (i * (order + 1) + j)) = (y : K) ^ i.toNat * (x : K) ^ j.toNat) := by
    intro y x v
    have := forLoop_blocks K (((Int → K) × Int) × K) Prod.fst
      (fun i t => t.2 = (y : K) ^ i.toNat)
      (fun i s e => ∀ j, 0 ≤ j → j < order + 1 →
        e (s + j) = (y : K) ^ i.toNat * (x : K) ^ j.toNat) (order + 1) ho ho
      (fun _ (p : ((Int → K) × Int) × K) =>
          let pow1 := p.2
          let eqs := (forLoop 0 (order + 1) (fun _ (q : ((Int → K) × Int) × K) =>
            (push_back q.1 q.2, q.2 * (x : K))) (p.1, pow1)).1
          (eqs, pow1 * (y : K)))
      (by
        intro i s e e' hag hsp j h1 h2
        rw [hag _ (by omega)]
        exact hsp j h1 h2)
      (by
        intro i t h1 _ hq
        obtain ⟨a, b, c⟩ := hJ x t.2 t.1
        refine ⟨a, b, ?_, ?_⟩
        · intro j hj1 hj2
          rw [← hq]
          exact c j hj1 hj2
        · simp only [hq, toNat_succ_of_nonneg h1, pow_succ])
      (v, (1 : K)) (by simp)
    obtain ⟨a, b, c, _⟩ := this
    refine ⟨by simpa using a, b, ?_⟩
    intro i j h1 h2 h3 h4
    have := c i h1 h2 j h3 h4
    simp only [sub_zero] at this
    rw [← this, add_assoc]
  -- the `x` loop
  have hX : ∀ (y : Int) (v : (Int → K) × Int),
      let r := forLoop 1 (width + 1) (fun x eqs =>
        (forLoop 0 (order + 1) (fun _ (p : ((Int → K) × Int) × K) =>
          let pow1 := p.2
          let eqs := (forLoop 0 (order + 1) (fun _ (q : ((Int → K) × Int) × K) =>
            (push_back q.1 q.2, q.2 * (x : K))) (p.1, pow1)).1
          (eqs, pow1 * (y : K))) (eqs, (1 : K))).1) v
      r.2 = v.2 + width * ((order + 1) * (order + 1)) ∧ (∀ idx, idx < v.2 → r.1 idx = v.1 idx) ∧
      (∀ x i j, 1 ≤ x → x < width + 1 → 0 ≤ i → i < order + 1 → 0 ≤ j → j < order + 1 →
        r.1 (v.2 + ((x - 1) * ((order + 1) * (order + 1)) + (i * (order + 1) + j)))
          = (y : K) ^ i.toNat * (x : K) ^ j.toNat) := by
    intro y v
    have hL : 0 ≤ (order + 1) * (order + 1) := mul_nonneg ho ho
    have := forLoop_blocks K ((Int → K) × Int) id (fun _ _ => True)
      (fun x s e => ∀ i j, 0 ≤ i → i < order + 1 → 0 ≤ j → j < order + 1 →
        e (s + (i * (order + 1) + j)) = (y : K) ^ i.toNat * (x : K) ^ j.toNat)
      ((order + 1) * (order + 1)) hL (show (1 : Int) ≤ width + 1 by omega)
      (fun x eqs =>
        (forLoop 0 (order + 1) (fun _ (p : ((Int → K) × Int) × K) =>
          let pow1 := p.2
          let eqs := (forLoop 0 (order + 1) (fun _ (q : ((Int → K) × Int) × K) =>
            (push_back q.1 q.2, q.2 * (x : K))) (p.1, pow1)).1
          (eqs, pow1 * (y : K))) (eqs, (1 : K))).1)
      (by
        intro x s e e' hag hsp i j h1 h2 h3 h4
        rw [hag _ ?_]
        · exact hsp i j h1 h2 h3 h4
        · have : i * (order + 1) + (order + 1) ≤ (order + 1) * (order + 1) := by
            have h5 : (i + 1) * (order + 1) ≤ (order + 1) * (order + 1) :=
              mul_le_mul_of_nonneg_right (by omega) ho
            linarith
          omega)
      (by
        intro x t _ _ _
        obtain ⟨a, b, c⟩ := hI y x t
        exact ⟨a, b, c, trivial⟩)
      v trivial
    obtain ⟨a, b, c, _⟩ := this
    refine ⟨?_, b, ?_⟩
    · simp only [id] at a
      rw [a]
      ring
    · intro x i j h1 h2 h3 h4 h5 h6
      have := c x h1 h2 i j h3 h4 h5 h6
      simp only [id] at this
      rw [← this, add_assoc]
  -- the `y` loop
  have hL : 0 ≤ width * ((order + 1) * (order + 1)) := mul_nonneg hw (mul_nonneg ho ho)
  have := forLoop_blocks K ((Int → K) × Int) id (fun _ _ => True)
    (fun y s e => ∀ x i j, 1 ≤ x → x < width + 1 → 0 ≤ i → i < order + 1 → 0 ≤ j →
      j < order + 1 →
      e (s + ((x - 1) * ((order + 1) * (order + 1)) + (i * (order + 1) + j)))
        = (y : K) ^ i.toNat * (x : K) ^ j.toNat)
    (width * ((order + 1) * (order + 1))) hL (show (1 : Int) ≤ height + 1 by omega)
    (fun y eqs =>
      forLoop 1 (width + 1) (fun x eqs =>
        (forLoop 0 (order + 1) (fun _ (p : ((Int → K) × Int) × K) =>
          let pow1 := p.2
          let eqs := (forLoop 0 (order + 1) (fun _ (q : ((Int → K) × Int) × K) =>
            (push_back q.1 q.2, q.2 * (x : K))) (p.1, pow1)).1
          (eqs, pow1 * (y : K))) (eqs, (1 : K))).1) eqs)
    (by
      intro y s e e' hag hsp x i j h1 h2 h3 h4 h5 h6
      rw [hag _ ?_]
      · exact hsp x i j h1 h2 h3 h4 h5 h6
      · have h7 : i * (order + 1) + (order + 1) ≤ (order + 1) * (order + 1) := by
          have h8 : (i + 1) * (order + 1) ≤ (order + 1) * (order + 1) :=
            mul_le_mul_of_nonneg_right (by omega) ho
          linarith
        have h9 : (x - 1) * ((order + 1) * (order + 1)) + (order + 1) * (order + 1)
            ≤ width * ((order + 1) * (order + 1)) := by
          have h10 : (x - 1 + 1) * ((order + 1) * (order + 1))
              ≤ width * ((order + 1) * (order + 1)) :=
            mul_le_mul_of_nonneg_right (by omega) (mul_nonneg ho ho)
          linarith
        omega)
    (by
      intro y t _ _ _
      obtain ⟨a, b, c⟩ := hX y t
      exact ⟨a, b, c, trivial⟩)
    ((fun _ => 0), 0) trivial
  obtain ⟨_, _, c, _⟩ := this
  have := c y hy1 (by omega) x i j hx1 (by omega) hi1 (by omega) hj1 (by omega)
  simp only [id, zero_add] at this
  have e : ((y - 1) * width + (x - 1)) * ((order + 1) * (order + 1)) + (i * (order + 1) + j)
      = (y - 1) * (width * ((order + 1) * (order + 1)))
        + ((x - 1) * ((order + 1) * (order + 1)) + (i * (order + 1) + j)) := by ring
  rw [e]
  exact this

/-- The value at `(x, y)` of the polynomial with coefficients `coeffs`, as
the `i` and `j` loops of `recalcForOrigin` accumulate it. -/
theorem expandKernel_inner (order : Int) (ho : 0 ≤ order + 1) (coeffs : Int → K) (x y : Int) :
    (forLoop 0 (order + 1) (fun _ (p : (K × Int) × K) =>
        let pow1 := p.2
        let r := forLoop 0 (order + 1) (fun _ (q : (K × Int) × K) =>
          ((q.1.1 + q.2 * coeffs q.1.2, q.1.2 + 1), q.2 * (x : K))) (p.1, pow1)
        (r.1, pow1 * (y : K))) (((0 : K), (0 : Int)), (1 : K))).1.1
      = ∑ i ∈ Finset.Ico 0 (order + 1), ∑ j ∈ Finset.Ico 0 (order + 1),
          (y : K) ^ i.toNat * (x : K) ^ j.toNat * coeffs (i * (order + 1) + j) := by
  have hJ : ∀ (s0 : K) (c0 : Int) (p0 : K),
      forLoop 0 (order + 1) (fun _ (q : (K × Int) × K) =>
          ((q.1.1 + q.2 * coeffs q.1.2, q.1.2 + 1), q.2 * (x : K))) ((s0, c0), p0)
        = ((s0 + ∑ j ∈ Finset.Ico 0 (order + 1), p0 * (x : K) ^ j.toNat * coeffs (c0 + j),
            c0 + (order + 1)), p0 * (x : K) ^ (order + 1).toNat) := by
    intro s0 c0 p0
    refine forLoop_inv (fun m (t : (K × Int) × K) =>
      t = ((s0 + ∑ j ∈ Finset.Ico 0 m, p0 * (x : K) ^ j.toNat * coeffs (c0 + j), c0 + m),
        p0 * (x : K) ^ m.toNat)) ho _ _ (by simp) ?_
    intro j t h1 _ ht
    subst ht
    simp only [sum_Ico_succ _ h1, toNat_succ_of_nonneg h1, pow_succ, Prod.mk.injEq]
    refine ⟨⟨by ring, by ring⟩, by ring⟩
  have := forLoop_inv (fun m (t : (K × Int) × K) =>
      t = ((∑ i ∈ Finset.Ico 0 m, ∑ j ∈ Finset.Ico 0 (order + 1),
          (y : K) ^ i.toNat * (x : K) ^ j.toNat * coeffs (i * (order + 1) + j),
          m * (order + 1)), (y : K) ^ m.toNat)) ho
      (fun _ (p : (K × Int) × K) =>
        let pow1 := p.2
        let r := forLoop 0 (order + 1) (fun _ (q : (K × Int) × K) =>
          ((q.1.1 + q.2 * coeffs q.1.2, q.1.2 + 1), q.2 * (x : K))) (p.1, pow1)
        (r.1, pow1 * (y : K))) (((0 : K), (0 : Int)), (1 : K)) (by simp)
      (by
        intro i t h1 _ ht
        subst ht
        simp only [hJ, sum_Ico_succ _ h1, toNat_succ_of_nonneg h1, pow_succ, Prod.mk.injEq]
        refine ⟨⟨trivial, by ring⟩, trivial⟩)
  rw [this]

/-- The kernel weights written by `recalcForOrigin`: weight `(y-1)*width + (x-1)`
is the value of the fitted polynomial at the window point `(x, y)`. -/
theorem expandKernel_spec (order width height : Int) (ho : 0 ≤ order + 1) (hw : 0 ≤ width)
    (hh : 0 ≤ height) (coeffs kernel : Int → K) (y x : Int)
    (hy1 : 1 ≤ y) (hy2 : y ≤ height) (hx1 : 1 ≤ x) (hx2 : x ≤ width) :
    expandKernel order width height coeffs kernel ((y - 1) * width + (x - 1))
      = ∑ i ∈ Finset.Ico 0 (order + 1), ∑ j ∈ Finset.Ico 0 (order + 1),
          (y : K) ^ i.toNat * (x : K) ^ j.toNat * coeffs (i * (order + 1) + j) := by
  have hX : ∀ (y : Int) (v : (Int → K) × Int),
      let r := forLoop 1 (width + 1) (fun x (s : (Int → K) × Int) =>
        let sum := (forLoop 0 (order + 1) (fun _ (p : (K × Int) × K) =>
          let pow1 := p.2
          let r := forLoop 0 (order + 1) (fun _ (q : (K × Int) × K) =>
            ((q.1.1 + q.2 * coeffs q.1.2, q.1.2 + 1), q.2 * (x : K))) (p.1, pow1)
          (r.1, pow1 * (y : K))) (((0 : K), (0 : Int)), (1 : K))).1.1
        (Function.update s.1 s.2 sum, s.2 + 1)) v
      r.2 = v.2 + width ∧ (∀ idx, idx < v.2 → r.1 idx = v.1 idx) ∧
      (∀ x, 1 ≤ x → x < width + 1 → r.1 (v.2 + (x - 1))
        = ∑ i ∈ Finset.Ico 0 (order + 1), ∑ j ∈ Finset.Ico 0 (order + 1),
          (y : K) ^ i.toNat * (x : K) ^ j.toNat * coeffs (i * (order + 1) + j)) := by
    intro y v
    have := forLoop_blocks K ((Int → K) × Int) id (fun _ _ => True)
      (fun x s e => e s = ∑ i ∈ Finset.Ico 0 (order + 1), ∑ j ∈ Finset.Ico 0 (order + 1),
          (y : K) ^ i.toNat * (x : K) ^ j.toNat * coeffs (i * (order + 1) + j))
      1 (by norm_num) (show (1 : Int) ≤ width + 1 by omega)
      (fun x (s : (Int → K) × Int) =>
        let sum := (forLoop 0 (order + 1) (fun _ (p : (K × Int) × K) =>
          let pow1 := p.2
          let r := forLoop 0 (order + 1) (fun _ (q : (K × Int) × K) =>
            ((q.1.1 + q.2 * coeffs q.1.2, q.1.2 + 1), q.2 * (x : K))) (p.1, pow1)
          (r.1, pow1 * (y : K))) (((0 : K), (0 : Int)), (1 : K))).1.1
        (Function.update s.1 s.2 sum, s.2 + 1))
      (by
        intro x s e e' hag hsp
        rw [hag s (by omega)]
        exact hsp)
      (by
        intro x t _ _ _
        refine ⟨rfl, ?_, ?_, trivial⟩
        · intro idx hidx
          simp only [id] at hidx ⊢
          rw [Function.update_noteq (by omega)]
        · simp only [id, Function.update_same]
          exact expandKernel_inner order ho coeffs x y)
      v trivial
    obtain ⟨a, b, c, _⟩ := this
    refine ⟨?_, b, ?_⟩
    · simp only [id] at a
      rw [a]
      ring
    · intro x h1 h2
      have := c x h1 h2
      simpa using this
  have := forLoop_blocks K ((Int → K) × Int) id (fun _ _ => True)
    (fun y s e => ∀ x, 1 ≤ x → x < width + 1 → e (s + (x - 1))
        = ∑ i ∈ Finset.Ico 0 (order + 1), ∑ j ∈ Finset.Ico 0 (order + 1),
          (y : K) ^ i.toNat * (x : K) ^ j.toNat * coeffs (i * (order + 1) + j))
    width hw (show (1 : Int) ≤ height + 1 by omega)
    (fun y s =>
      forLoop 1 (width + 1) (fun x (s : (Int → K) × Int) =>
        let sum := (forLoop 0 (order + 1) (fun _ (p : (K × Int) × K) =>
          let pow1 := p.2
          let r := forLoop 0 (order + 1) (fun _ (q : (K × Int) × K) =>
            ((q.1.1 + q.2 * coeffs q.1.2, q.1.2 + 1), q.2 * (x : K))) (p.1, pow1)
          (r.1, pow1 * (y : K))) (((0 : K), (0 : Int)), (1 : K))).1.1
        (Function.update s.1 s.2 sum, s.2 + 1)) s)
    (by
      intro y s e e' hag hsp x h1 h2
      rw [hag _ (by omega)]
      exact hsp x h1 h2)
    (by
      intro y t _ _ _
      obtain ⟨a, b, c⟩ := hX y t
      exact ⟨a, b, c, trivial⟩)
    (kernel, 0) trivial
  obtain ⟨_, _, c, _⟩ := this
  have := c y hy1 (by omega) x hx1 (by omega)
  simp only [id, zero_add] at this
  unfold expandKernel
  exact this

/-! ## The Givens rotation of two rows -/

/-- Entries of a lower row come after the entries of a higher row. -/
theorem row_lt (m j i k k' : Int) (hji : j < i) (hk : 0 ≤ k) (hk0 : 0 ≤ k') (hk' : k' < m) :
    j * m + k' < i * m + k := by
  have h1 : (j + 1) * m ≤ i * m := mul_le_mul_of_nonneg_right (by omega) (by omega)
  have h2 : (j + 1) * m = j * m + m := by ring
  omega

/-- The place of an entry in the row-by-row storage determines its row and column. -/
theorem flat_inj {m r r' k k' : Int} (hk1 : 0 ≤ k) (hk2 : k < m) (hk1' : 0 ≤ k')
    (hk2' : k' < m) (h : r * m + k = r' * m + k') : r = r' ∧ k = k' := by
  rcases lt_trichotomy r r' with hlt | heq | hgt
  · have := row_lt m _ _ (k') (k) hlt hk1' hk1 hk2
    omega
  · subst heq
    exact ⟨rfl, by omega⟩
  · have := row_lt m _ _ (k) (k') hgt hk1 hk1' hk2'
    omega

/-- The innermost loop of `QR` rotates the entries right of column `j` of the
rows `j` and `i` and leaves every other entry as it is. -/
theorem rotateRows_spec (m j i : Int) (cos sin : K) (E : Int → K) (hji : j < i) (hj : 0 ≤ j) :
    (∀ k, j < k → k < m →
      rotateRows m j cos sin E (i * m + j) (j * m + j) (j * m + k)
        = cos * E (j * m + k) + sin * E (i * m + k)) ∧
    (∀ k, j < k → k < m →
      rotateRows m j cos sin E (i * m + j) (j * m + j) (i * m + k)
        = cos * E (i * m + k) - sin * E (j * m + k)) ∧
    (∀ idx, (∀ k, j < k → k < m → idx ≠ j * m + k ∧ idx ≠ i * m + k) →
      rotateRows m j cos sin E (i * m + j) (j * m + j) idx = E idx) := by
  unfold rotateRows
  rcases le_or_lt (j + 1) m with hle | hlt
  swap
  · rw [forLoop_of_le (by omega)]
    refine ⟨fun k h1 h2 => by omega, fun k h1 h2 => by omega, fun _ _ => rfl⟩
  have := forLoop_inv (fun n (t : (Int → K) × Int × Int) =>
      t.2.1 = i * m + n ∧ t.2.2 = j * m + n ∧
      (∀ k, j < k → k < n → t.1 (j * m + k) = cos * E (j * m + k) + sin * E (i * m + k)) ∧
      (∀ k, j < k → k < n → t.1 (i * m + k) = cos * E (i * m + k) - sin * E (j * m + k)) ∧
      (∀ idx, (∀ k, j < k → k < n → idx ≠ j * m + k ∧ idx ≠ i * m + k) → t.1 idx = E idx))
    hle (fun _ (p : (Int → K) × Int × Int) =>
      let eqs := p.1
      let ik := p.2.1
      let jk := p.2.2
      let temp := cos * eqs jk + sin * eqs ik
      let eqs := Function.update eqs ik (cos * eqs ik - sin * eqs jk)
      let eqs := Function.update eqs jk temp
      (eqs, ik + 1, jk + 1)) (E, i * m + j + 1, j * m + j + 1)
    (by
      refine ⟨by ring, by ring, ?_, ?_, fun _ _ => rfl⟩
      · intro k h1 h2
        omega
      · intro k h1 h2
        omega)
    (by
      rintro n ⟨E', ik, jk⟩ h1 h2 ⟨hik, hjk, hJ, hI, hF⟩
      simp only at hik hjk hJ hI hF
      subst hik hjk
      have hne : i * m + n ≠ j * m + n := by
        have := row_lt m _ _ (n) (n) hji (by omega) (by omega) h2
        omega
      have fresh : ∀ k, j < k → k < n → i * m + n ≠ j * m + k ∧ i * m + n ≠ i * m + k ∧
          j * m + n ≠ j * m + k ∧ j * m + n ≠ i * m + k := by
        intro k hk1 hk2
        have a1 := row_lt m _ _ (n) (k) hji (by omega) (by omega) (by omega)
        have a2 := row_lt m _ _ (k) (n) hji (by omega) (by omega) (by omega)
        omega
      have ejk : E' (j * m + n) = E (j * m + n) :=
        hF _ (fun k hk1 hk2 => ⟨(fresh k hk1 hk2).2.2.1, (fresh k hk1 hk2).2.2.2⟩)
      have eik : E' (i * m + n) = E (i * m + n) :=
        hF _ (fun k hk1 hk2 => ⟨(fresh k hk1 hk2).1, (fresh k hk1 hk2).2.1⟩)
      simp only
      refine ⟨by ring, by ring, ?_, ?_, ?_⟩
      · intro k hk1 hk2
        rcases eq_or_lt_of_le (show k ≤ n by omega) with he | hlt
        · subst he
          rw [Function.update_same, ejk, eik]
        · rw [Function.update_noteq (fresh k hk1 hlt).2.2.1.symm,
            Function.update_noteq (fresh k hk1 hlt).1.symm]
          exact hJ k hk1 hlt
      · intro k hk1 hk2
        rcases eq_or_lt_of_le (show k ≤ n by omega) with he | hlt
        · subst he
          rw [Function.update_noteq hne, Function.update_same, ejk, eik]
        · rw [Function.update_noteq (fresh k hk1 hlt).2.2.2.symm,
            Function.update_noteq (fresh k hk1 hlt).2.1.symm]
          exact hI k hk1 hlt
      · intro idx hidx
        have h3 := hidx n (by omega) (by omega)
        rw [Function.update_noteq h3.1, Function.update_noteq h3.2]
        exact hF idx (fun k hk1 hk2 => hidx k hk1 (by omega)))
  obtain ⟨_, _, hJ, hI, hF⟩ := this
  exact ⟨hJ, hI, hF⟩

theorem rotVec_apply (j i : Int) (cos sin : K) (d : Int → K) (r : Int) (hji : j ≠ i) :
    rotVec j i cos sin d r
      = if r = j then cos * d j + sin * d i
        else if r = i then cos * d i - sin * d j else d r := by
  unfold rotVec
  by_cases h1 : r = j
  · subst h1
    simp
  · by_cases h2 : r = i
    · subst h2
      simp [h1]
    · simp [h1, h2]

/-- A pass of the `i` loop of `QR` that has a result: the radius is not zero,
the recorded rotation has `cos^2 + sin^2 = 1`, and every column of the matrix
is rotated in its rows `j` and `i` (the columns left of `j` hold zeros there). -/
theorem givensStep_spec (sqrt : K → K) (hsq : ∀ x : K, 0 ≤ x → sqrt x * sqrt x = x)
    (m j i : Int) (hj : 0 ≤ j) (hjm : j < m) (hji : j < i)
    (E : Int → K) (rots : List (Rotation K))
    (hz : ∀ k, 0 ≤ k → k < j → E (j * m + k) = 0 ∧ E (i * m + k) = 0)
    (t : ((Int → K) × List (Rotation K)) × Int)
    (h : givensStep sqrt m j (j * m + j) ((E, rots), i * m + j) = some t) :
    ∃ cos sin : K, cos * cos + sin * sin = 1 ∧
      sqrt (E (j * m + j) * E (j * m + j) + E (i * m + j) * E (i * m + j)) ≠ 0 ∧
      t.2 = (i + 1) * m + j ∧ t.1.2 = rots ++ [Rotation.mk sin cos] ∧
      t.1.1 (j * m + j)
        = sqrt (E (j * m + j) * E (j * m + j) + E (i * m + j) * E (i * m + j)) ∧
      t.1.1 (i * m + j) = 0 ∧
      ∀ k, 0 ≤ k → k < m → ∀ r,
        t.1.1 (r * m + k) = rotVec j i cos sin (fun r => E (r * m + k)) r := by
  unfold givensStep at h
  simp only at h
  split at h
  · cases h
  rename_i hrad
  cases h
  set a := E (j * m + j) with ha
  set b := E (i * m + j) with hb
  set rad := sqrt (a * a + b * b) with hr
  have hrr : rad * rad = a * a + b * b :=
    hsq _ (add_nonneg (mul_self_nonneg a) (mul_self_nonneg b))
  have hne : j ≠ i := by omega
  refine ⟨a / rad, b / rad, ?_, hrad, by ring, rfl, ?_, ?_, ?_⟩
  · field_simp
    rw [hrr]
  rotate_left
  · have hii : ∀ k, j < k → k < m → i * m + j ≠ j * m + k ∧ i * m + j ≠ i * m + k := by
      intro k hk1 hk2
      have := row_lt m _ _ (j) (k) hji hj (by omega) hk2
      omega
    simp only
    rw [(rotateRows_spec m j i _ _ _ hji hj).2.2 _ hii, Function.update_same]
  rotate_left
  · have hjj : ∀ k, j < k → k < m → j * m + j ≠ j * m + k ∧ j * m + j ≠ i * m + k := by
      intro k hk1 hk2
      have := row_lt m _ _ (k) (j) hji (by omega) hj hjm
      omega
    have hij : j * m + j ≠ i * m + j := by
      have := row_lt m _ _ (j) (j) hji hj hj hjm
      omega
    simp only
    rw [(rotateRows_spec m j i _ _ _ hji hj).2.2 _ hjj, Function.update_noteq hij,
      Function.update_same]
  · intro k hk1 hk2 r
    obtain ⟨sJ, sI, sF⟩ := rotateRows_spec m j i (a / rad) (b / rad)
      (Function.update (Function.update E (j * m + j) rad) (i * m + j) 0) hji hj
    have upd : ∀ r' k', 0 ≤ k' → k' < m → (r', k') ≠ (j, j) → (r', k') ≠ (i, j) →
        Function.update (Function.update E (j * m + j) rad) (i * m + j) 0 (r' * m + k')
          = E (r' * m + k') := by
      intro r' k' h1 h2 h3 h4
      rw [Function.update_noteq, Function.update_noteq]
      · intro he
        obtain ⟨e1, e2⟩ := flat_inj h1 h2 hj hjm he
        exact h3 (by rw [e1, e2])
      · intro he
        obtain ⟨e1, e2⟩ := flat_inj h1 h2 hj hjm he
        exact h4 (by rw [e1, e2])
    have frame : ∀ r' k', 0 ≤ k' → k' < m → (k' ≤ j ∨ (r' ≠ j ∧ r' ≠ i)) →
        ∀ k'', j < k'' → k'' < m → r' * m + k' ≠ j * m + k'' ∧ r' * m + k' ≠ i * m + k'' := by
      intro r' k' h1 h2 h3 k'' h4 h5
      constructor
      · intro he
        obtain ⟨e1, e2⟩ := flat_inj h1 h2 (by omega) h5 he
        omega
      · intro he
        obtain ⟨e1, e2⟩ := flat_inj h1 h2 (by omega) h5 he
        omega
    simp only
    rw [rotVec_apply _ _ _ _ _ _ hne]
    rcases lt_trichotomy k j with hlt | heq | hgt
    · -- a column left of `j`
      rw [sF _ (frame r k hk1 hk2 (Or.inl (by omega))),
        upd r k hk1 hk2 (by intro he; cases he; omega) (by intro he; cases he; omega)]
      obtain ⟨z1, z2⟩ := hz k hk1 hlt
      split_ifs with h1 h2
      · subst h1
        rw [z1, z2]
        ring
      · subst h2
        rw [z1, z2]
        ring
      · rfl
    · -- column `j`
      subst heq
      rw [sF _ (frame r k hk1 hk2 (Or.inl (le_refl k)))]
      split_ifs with h1 h2
      · subst h1
        have hij : r * m + r ≠ i * m + r := by
          have := row_lt m _ _ (r) (r) hji hj hj hjm
          omega
        rw [Function.update_noteq hij, Function.update_same, ← ha, ← hb]
        field_simp
        rw [hrr]
      · subst h2
        rw [Function.update_same, ← ha, ← hb]
        field_simp
        ring
      · exact upd r k hk1 hk2 (by intro he; cases he; exact h1 rfl)
          (by intro he; cases he; exact h2 rfl)
    · -- a column right of `j`
      have e1 := upd j k hk1 hk2 (by intro he; cases he; omega) (by intro he; cases he; omega)
      have e2 := upd i k hk1 hk2 (by intro he; cases he; omega) (by intro he; cases he; omega)
      split_ifs with h1 h2
      · subst h1
        rw [sJ k hgt hk2, e1, e2]
      · subst h2
        rw [sI k hgt hk2, e1, e2]
      · rw [sF _ (frame r k hk1 hk2 (Or.inr ⟨h1, h2⟩)),
          upd r k hk1 hk2 (by intro he; cases he; exact h1 rfl)
            (by intro he; cases he; exact h2 rfl)]

/-! ## The invariant of `QR` -/

theorem pairsBefore_succ_row (n j i : Int) (h : j + 1 ≤ i) :
    pairsBefore n j (i + 1) = pairsBefore n j i ++ [(j, i)] := by
  simp only [pairsBefore, intRange_succ h, List.map_append, List.map_cons, List.map_nil,
    List.append_assoc]

theorem pairsBefore_next_col (n j : Int) (hj : 0 ≤ j) :
    pairsBefore n (j + 1) (j + 1 + 1) = pairsBefore n j (max n (j + 1)) := by
  have e1 : intRange (j + 1 + 1) (j + 1 + 1) = [] := intRange_of_le (le_refl _)
  have e2 : intRange (j + 1) (max n (j + 1)) = intRange (j + 1) n := by
    rcases le_or_lt n (j + 1) with h | h
    · rw [max_eq_right h, intRange_of_le (le_refl _), intRange_of_le h]
    · rw [max_eq_left (le_of_lt h)]
  simp only [pairsBefore, e1, e2, intRange_succ hj, List.flatMap_append, List.map_nil,
    List.append_nil, List.flatMap_cons, List.flatMap_nil]

theorem applyRots_append (tr : List ((Int × Int) × Rotation K)) (p : (Int × Int) × Rotation K)
    (d : Int → K) :
    applyRots (tr ++ [p]) d = rotVec p.1.1 p.1.2 p.2.cos p.2.sin (applyRots tr d) := by
  simp [applyRots, List.foldl_append]

/-- The passes of the `i` loop of `QR` keep `QRInv`. -/
theorem givensStep_inv (sqrt : K → K) (hsq : ∀ x : K, 0 ≤ x → sqrt x * sqrt x = x)
    (m n : Int) (A : Int → K) (j i : Int) (hj : 0 ≤ j) (hjm : j < m) (hji : j + 1 ≤ i)
    (hin : i < n) (E : Int → K) (rots : List (Rotation K))
    (hinv : QRInv m n A j i E rots) (t : ((Int → K) × List (Rotation K)) × Int)
    (h : givensStep sqrt m j (j * m + j) ((E, rots), i * m + j) = some t) :
    t.2 = (i + 1) * m + j ∧ QRInv m n A j (i + 1) t.1.1 t.1.2 := by
  obtain ⟨tr, hr, hp, hv, hc, hzero⟩ := hinv
  have hz : ∀ k, 0 ≤ k → k < j → E (j * m + k) = 0 ∧ E (i * m + k) = 0 := by
    intro k hk1 hk2
    exact ⟨hzero k j hk1 (by omega) hk2 (by omega) (Or.inl hk2),
      hzero k i hk1 (by omega) (by omega) hin (Or.inl hk2)⟩
  obtain ⟨cos, sin, hcs, _, h2, hrots, _, hij0, hcol⟩ :=
    givensStep_spec sqrt hsq m j i hj hjm (by omega) E rots hz t h
  refine ⟨h2, tr ++ [((j, i), Rotation.mk sin cos)], ?_, ?_, ?_, ?_, ?_⟩
  · rw [hrots, hr, List.map_append]
    rfl
  · rw [List.map_append, hp, pairsBefore_succ_row n j i hji]
    rfl
  · intro p hp'
    rcases List.mem_append.1 hp' with h1 | h1
    · exact hv p h1
    · simp only [List.mem_singleton] at h1
      subst h1
      exact ⟨hj, show j < i by omega, hin, hcs⟩
  · intro k hk1 hk2 r
    rw [hcol k hk1 hk2 r, applyRots_append]
    have : (fun r => E (r * m + k)) = applyRots tr (fun r => A (r * m + k)) := by
      funext r'
      exact hc k hk1 hk2 r'
    rw [this]
  · intro k r hk1 hk2 hkr hrn hcase
    rcases hcase with hlt | ⟨heq, hri⟩
    · rw [hcol k hk1 hk2 r, rotVec_apply _ _ _ _ _ _ (by omega : j ≠ i)]
      obtain ⟨z1, z2⟩ := hz k hk1 hlt
      split_ifs with e1 e2
      · simp only [z1, z2]
        ring
      · simp only [z1, z2]
        ring
      · exact hzero k r hk1 hk2 hkr hrn (Or.inl hlt)
    · subst heq
      rcases eq_or_lt_of_le (show r ≤ i by omega) with e | e
      · subst e
        exact hij0
      · rw [hcol k hk1 hk2 r, rotVec_apply _ _ _ _ _ _ (by omega : k ≠ i),
          if_neg (by omega), if_neg (by omega)]
        exact hzero k r hk1 hk2 hkr hrn (Or.inr ⟨rfl, e⟩)

/-- When `QR` has a result, it is related to the prepared equations by `QRInv`
with all pairs of rows visited. -/
theorem QRloops_inv (sqrt : K → K) (hsq : ∀ x : K, 0 ≤ x → sqrt x * sqrt x = x)
    (m n : Int) (hm : 0 ≤ m) (A : Int → K) (res : (Int → K) × List (Rotation K))
    (h : QRloops sqrt m n A = some res) :
    QRInv m n A m (m + 1) res.1 res.2 := by
  unfold QRloops at h
  cases hx : forLoopM 0 m (fun j (s : ((Int → K) × List (Rotation K)) × Int) =>
      let jj := s.2
      let ij := jj + m
      (forLoopM (j + 1) n (fun _ t => givensStep sqrt m j jj t) (s.1, ij)).map
        (fun t => (t.1, jj + (m + 1)))) ((A, []), 0) with
  | none => rw [hx] at h; cases h
  | some fin =>
    rw [hx] at h
    simp only [Option.map_some', Option.some.injEq] at h
    subst h
    have := forLoopM_inv (fun j (t : ((Int → K) × List (Rotation K)) × Int) =>
        t.2 = j * m + j ∧ QRInv m n A j (j + 1) t.1.1 t.1.2) hm _ _ ?_ ?_ fin hx
    · exact this.2
    · refine ⟨by ring, [], rfl, ?_, ?_, ?_, ?_⟩
      · simp [pairsBefore, intRange_of_le]
      · intro p hp
        cases hp
      · intro k _ _ r
        rfl
      · intro k r h1 _ h3 _ h5
        omega
    · rintro j ⟨⟨E, rots⟩, jj⟩ t' hj1 hj2 ⟨hjj, hinv⟩ hbody
      simp only at hjj hinv hbody
      subst hjj
      cases hy : forLoopM (j + 1) n (fun _ t => givensStep sqrt m j (j * m + j) t)
          ((E, rots), j * m + j + m) with
      | none => rw [hy] at hbody; cases hbody
      | some u =>
        rw [hy] at hbody
        simp only [Option.map_some', Option.some.injEq] at hbody
        subst hbody
        have key : u.2 = (max n (j + 1)) * m + j ∧ QRInv m n A j (max n (j + 1)) u.1.1 u.1.2 := by
          rcases le_or_lt n (j + 1) with hle | hlt
          · rw [forLoopM_of_le hle] at hy
            cases hy
            rw [max_eq_right hle]
            exact ⟨by ring, hinv⟩
          · rw [max_eq_left (le_of_lt hlt)]
            refine forLoopM_inv (fun i (t : ((Int → K) × List (Rotation K)) × Int) =>
              t.2 = i * m + j ∧ QRInv m n A j i t.1.1 t.1.2) (le_of_lt hlt) _ _
              ⟨by ring, hinv⟩ ?_ u hy
            rintro i ⟨⟨E', rots'⟩, ij⟩ t'' hi1 hi2 ⟨hij, hinv'⟩ hstep
            simp only at hij hinv' hstep
            subst hij
            exact givensStep_inv sqrt hsq m n A j i hj1 hj2 hi1 hi2 E' rots' hinv' t'' hstep
        obtain ⟨_, tr, hr, hp, hv, hc, hzero⟩ := key
        refine ⟨by ring, tr, hr, ?_, hv, hc, ?_⟩
        · rw [hp, pairsBefore_next_col n j hj1]
        · intro k r h1 h2 h3 h4 h5
          apply hzero k r h1 h2 h3 h4
          rcases h5 with h5 | h5
          · rcases eq_or_lt_of_le (show k ≤ j by omega) with e | e
            · exact Or.inr ⟨e, lt_of_lt_of_le h4 (le_max_left _ _)⟩
            · exact Or.inl e
          · omega

/-! ## Rotations keep scalar products -/

theorem dot_rotVec (n j i : Int) (cos sin : K) (u v : Int → K) (hj : 0 ≤ j) (hji : j < i)
    (hin : i < n) (hcs : cos * cos + sin * sin = 1) :
    dot n (rotVec j i cos sin u) (rotVec j i cos sin v) = dot n u v := by
  unfold dot
  have hjm : j ∈ Finset.Ico 0 n := Finset.mem_Ico.2 ⟨hj, by omega⟩
  have him : i ∈ (Finset.Ico 0 n).erase j :=
    Finset.mem_erase.2 ⟨by omega, Finset.mem_Ico.2 ⟨by omega, hin⟩⟩
  have hne : j ≠ i := by omega
  rw [← Finset.add_sum_erase _ _ hjm, ← Finset.add_sum_erase _ _ him,
    ← Finset.add_sum_erase _ (fun r => u r * v r) hjm,
    ← Finset.add_sum_erase _ (fun r => u r * v r) him]
  have rest : ∑ r ∈ ((Finset.Ico 0 n).erase j).erase i,
      rotVec j i cos sin u r * rotVec j i cos sin v r
      = ∑ r ∈ ((Finset.Ico 0 n).erase j).erase i, u r * v r := by
    apply Finset.sum_congr rfl
    intro r hr
    have h1 : r ≠ i := (Finset.mem_erase.1 hr).1
    have h2 : r ≠ j := (Finset.mem_erase.1 (Finset.mem_erase.1 hr).2).1
    rw [rotVec_apply _ _ _ _ _ _ hne, rotVec_apply _ _ _ _ _ _ hne, if_neg h2, if_neg h1,
      if_neg h2, if_neg h1]
  rw [rest, rotVec_apply _ _ _ _ _ _ hne, rotVec_apply _ _ _ _ _ _ hne,
    rotVec_apply _ _ _ _ _ _ hne, rotVec_apply _ _ _ _ _ _ hne]
  simp only [if_true, if_neg hne.symm]
  linear_combination (u j * v j + u i * v i) * hcs

theorem dot_applyRots (n : Int) (tr : List ((Int × Int) × Rotation K))
    (hv : ∀ p ∈ tr, 0 ≤ p.1.1 ∧ p.1.1 < p.1.2 ∧ p.1.2 < n ∧
      p.2.cos * p.2.cos + p.2.sin * p.2.sin = 1) (u v : Int → K) :
    dot n (applyRots tr u) (applyRots tr v) = dot n u v := by
  induction tr generalizing u v with
  | nil => rfl
  | cons p tr ih =>
    have hp := hv p (List.mem_cons_self _ _)
    have ht : ∀ q ∈ tr, 0 ≤ q.1.1 ∧ q.1.1 < q.1.2 ∧ q.1.2 < n ∧
        q.2.cos * q.2.cos + q.2.sin * q.2.sin = 1 :=
      fun q hq => hv q (List.mem_cons_of_mem _ hq)
    simp only [applyRots, List.foldl_cons]
    have := ih ht (rotVec p.1.1 p.1.2 p.2.cos p.2.sin u) (rotVec p.1.1 p.1.2 p.2.cos p.2.sin v)
    simp only [applyRots] at this
    rw [this]
    exact dot_rotVec n _ _ _ _ u v hp.1 hp.2.1 hp.2.2.1 hp.2.2.2

/-! ## Replaying the rotations on the data points -/

theorem foldl_flatMap_map {α β γ σ : Type} (l : List α) (g : α → List β) (mk : α → β → γ)
    (f : σ → γ → σ) (s : σ) :
    (l.flatMap (fun a => (g a).map (mk a))).foldl f s
      = l.foldl (fun s a => (g a).foldl (fun s b => f s (mk a b)) s) s := by
  induction l generalizing s with
  | nil => rfl
  | cons a l ih =>
    simp only [List.flatMap_cons, List.foldl_append, List.foldl_cons, List.foldl_map]
    exact ih _

/-- The "Rotate data points" loops apply the recorded rotations, in the order
they were recorded, each to the pair of rows it was computed from. -/
theorem rotateDataPoints_eq (m n : Int) (dp : Int → K)
    (tr : List ((Int × Int) × Rotation K)) (hp : tr.map Prod.fst = pairsBefore n m (m + 1)) :
    rotateDataPoints m n dp (tr.map Prod.snd) = (applyRots tr dp, []) := by
  have hgen : ∀ (tr : List ((Int × Int) × Rotation K)) (dp : Int → K)
      (rest : List (Rotation K)),
      (tr.map Prod.fst).foldl (fun (s : (Int → K) × List (Rotation K)) (p : Int × Int) =>
        match s.2 with
        | [] => s
        | r :: rest =>
          let dp := s.1
          let temp := r.cos * dp p.1 + r.sin * dp p.2
          let dp := Function.update dp p.2 (r.cos * dp p.2 - r.sin * dp p.1)
          let dp := Function.update dp p.1 temp
          (dp, rest)) (dp, tr.map Prod.snd ++ rest) = (applyRots tr dp, rest) := by
    intro tr
    induction tr with
    | nil => intro dp rest; rfl
    | cons q tr ih =>
      intro dp rest
      simp only [List.map_cons, List.foldl_cons, List.cons_append, applyRots]
      exact ih _ rest
  have e : intRange (m + 1) (m + 1) = [] := intRange_of_le (le_refl _)
  have := hgen tr dp []
  rw [List.append_nil, hp] at this
  simp only [pairsBefore, e, List.map_nil, List.append_nil] at this
  rw [foldl_flatMap_map] at this
  exact this

/-! ## Back-substitution -/

theorem sum_Ico_pred {M : Type} [AddCommMonoid M] (f : Int → M) {i hi : Int} (h : i < hi) :
    ∑ k ∈ Finset.Ico i hi, f k = f i + ∑ k ∈ Finset.Ico (i + 1) hi, f k := by
  have e : Finset.Ico i hi = insert i (Finset.Ico (i + 1) hi) := by
    ext k
    simp only [Finset.mem_Ico, Finset.mem_insert]
    omega
  rw [e, Finset.sum_insert (by simp)]

/-- The `k` loop of the back-substitution. -/
theorem backSubstitute_inner (m i : Int) (eqs coeffs : Int → K) (d0 : K) (hle : i + 1 ≤ m) :
    (forLoop (i + 1) m (fun k (p : K × Int) =>
      (p.1 - eqs p.2 * coeffs k, p.2 + 1)) (d0, i * m + i + 1)).1
      = d0 - ∑ k ∈ Finset.Ico (i + 1) m, eqs (i * m + k) * coeffs k := by
  have := forLoop_inv (fun n (t : K × Int) =>
      t = (d0 - ∑ k ∈ Finset.Ico (i + 1) n, eqs (i * m + k) * coeffs k, i * m + n)) hle
    (fun k (p : K × Int) => (p.1 - eqs p.2 * coeffs k, p.2 + 1)) (d0, i * m + i + 1)
    (by simp; ring)
    (by
      intro k t h1 _ ht
      subst ht
      simp only [sum_Ico_succ _ h1, Prod.mk.injEq]
      refine ⟨by ring, by ring⟩)
  rw [this]

/-- What the back-substitution guarantees when it has a result: no diagonal
entry is zero and the coefficients solve the triangular system. -/
theorem backSubstitute_spec (m : Int) (hm : 0 ≤ m) (eqs dp coeffs0 c : Int → K)
    (h : backSubstitute m eqs dp coeffs0 = some c) :
    ∀ i, 0 ≤ i → i < m → eqs (i * m + i) ≠ 0 ∧
      ∑ k ∈ Finset.Ico i m, eqs (i * m + k) * c k = dp i := by
  unfold backSubstitute forDownM at h
  -- induction along the processed rows, from the last to the first
  have key : ∀ (d : Nat), (d : Int) ≤ m → ∀ (s : (Int → K) × Int),
      List.foldlM (fun (s : (Int → K) × Int) i =>
        let coeffs := s.1
        let ii := s.2
        let sum := (forLoop (i + 1) m (fun k (p : K × Int) =>
          (p.1 - eqs p.2 * coeffs k, p.2 + 1)) (dp i, ii + 1)).1
        if eqs ii = 0 then none
        else some (Function.update coeffs i (sum / eqs ii), ii - (m + 1)))
        (coeffs0, m * m - 1) (intRange (m - d) m).reverse = some s →
      s.2 = (m - d - 1) * m + (m - d - 1) ∧
      ∀ i, m - d ≤ i → i < m → eqs (i * m + i) ≠ 0 ∧
        ∑ k ∈ Finset.Ico i m, eqs (i * m + k) * s.1 k = dp i := by
    intro d
    induction d with
    | zero =>
      intro _ s hs
      simp only [Nat.cast_zero, sub_zero, intRange_of_le (le_refl m), List.reverse_nil,
        List.foldlM_nil] at hs
      cases hs
      refine ⟨by ring, ?_⟩
      intro i h1 h2
      simp only [Nat.cast_zero, sub_zero] at h1
      omega
    | succ d ih =>
      intro hd s hs
      have hlt : m - ((d : Nat) + 1 : Int) < m := by omega
      have e : (m - ((d + 1 : Nat) : Int)) + 1 = m - d := by push_cast; ring
      rw [show ((d + 1 : Nat) : Int) = (d : Int) + 1 by push_cast; rfl] at hs ⊢
      rw [intRange_cons hlt, List.reverse_cons, List.foldlM_append] at hs
      rw [show m - ((d : Int) + 1) + 1 = m - d by ring] at hs
      cases hprev : List.foldlM (fun (s : (Int → K) × Int) i =>
        let coeffs := s.1
        let ii := s.2
        let sum := (forLoop (i + 1) m (fun k (p : K × Int) =>
          (p.1 - eqs p.2 * coeffs k, p.2 + 1)) (dp i, ii + 1)).1
        if eqs ii = 0 then none
        else some (Function.update coeffs i (sum / eqs ii), ii - (m + 1)))
        (coeffs0, m * m - 1) (intRange (m - d) m).reverse with
      | none => rw [hprev] at hs; cases hs
      | some t =>
        rw [hprev] at hs
        obtain ⟨hii, hsol⟩ := ih (by push_cast at hd; omega) t hprev
        simp only [Option.bind_eq_bind, Option.some_bind, List.foldlM_cons,
          List.foldlM_nil] at hs
        obtain ⟨c', ii⟩ := t
        simp only at hii hsol hs
        subst hii
        split at hs
        · cases hs
        rename_i hdiag
        simp only [Option.some_bind, Option.pure_def, Option.some.injEq] at hs
        subst hs
        set i0 := m - (d : Int) - 1 with hi0
        have ei : m - ((d : Int) + 1) = i0 := by omega
        rw [ei]
        refine ⟨by ring, ?_⟩
        intro i h1 h2
        have hinner := backSubstitute_inner m i0 eqs c' (dp i0) (by omega)
        rcases eq_or_lt_of_le h1 with e1 | e1
        · subst e1
          refine ⟨hdiag, ?_⟩
          rw [sum_Ico_pred _ h2]
          simp only [Function.update_same]
          have hrest : ∑ k ∈ Finset.Ico (i0 + 1) m,
              eqs (i0 * m + k) * Function.update c' i0
                ((forLoop (i0 + 1) m (fun k (p : K × Int) =>
                  (p.1 - eqs p.2 * c' k, p.2 + 1)) (dp i0, i0 * m + i0 + 1)).1
                  / eqs (i0 * m + i0)) k
              = ∑ k ∈ Finset.Ico (i0 + 1) m, eqs (i0 * m + k) * c' k := by
            apply Finset.sum_congr rfl
            intro k hk
            rw [Function.update_noteq]
            have := (Finset.mem_Ico.1 hk).1
            omega
          rw [hrest, hinner]
          field_simp
        · obtain ⟨hd1, hd2⟩ := hsol i (by omega) h2
          refine ⟨hd1, ?_⟩
          rw [← hd2]
          apply Finset.sum_congr rfl
          intro k hk
          have hk' := (Finset.mem_Ico.1 hk).1
          have hne : k ≠ i0 := by omega
          simp only [Function.update_noteq hne]
  cases hx : List.foldlM (fun (s : (Int → K) × Int) i =>
        let coeffs := s.1
        let ii := s.2
        let sum := (forLoop (i + 1) m (fun k (p : K × Int) =>
          (p.1 - eqs p.2 * coeffs k, p.2 + 1)) (dp i, ii + 1)).1
        if eqs ii = 0 then none
        else some (Function.update coeffs i (sum / eqs ii), ii - (m + 1)))
        (coeffs0, m * m - 1) (intRange 0 (m - 1 + 1)).reverse with
  | none => rw [hx] at h; cases h
  | some s =>
    rw [hx] at h
    simp only [Option.map_some', Option.some.injEq] at h
    subst h
    have e0 : m - 1 + 1 = m - (m.toNat : Int) + (m.toNat : Int) := by omega
    have e1 : (0 : Int) = m - (m.toNat : Int) := by omega
    have hx' := hx
    rw [show m - 1 + 1 = m by ring] at hx'
    have := key m.toNat (by omega) s (by rw [← e1]; exact hx')
    intro i h1 h2
    exact this.2 i (by omega) h2

/-! ## The normal equations -/

/-- The kernel state after `QR` and after a `recalcForOrigin` that has a
result: the coefficients solve the normal equations of the prepared matrix `A`
with the unit vector of the origin as right-hand side. -/
theorem recalc_normal_equations (m n : Int) (hm : 0 ≤ m) (A R : Int → K)
    (rots : List (Rotation K)) (hinv : QRInv m n A m (m + 1) R rots)
    (po : Int) (hpo1 : 0 ≤ po) (hpo2 : po < n) (coeffs0 c : Int → K)
    (hc : backSubstitute m R
      (rotateDataPoints m n (Function.update (fun _ => 0) po 1) rots).1 coeffs0 = some c) :
    ∀ k, 0 ≤ k → k < m →
      ∑ l ∈ Finset.Ico 0 m, (∑ r ∈ Finset.Ico 0 n, A (r * m + k) * A (r * m + l)) * c l
        = A (po * m + k) := by
  obtain ⟨tr, hr, hp, hv, hcol, hzero⟩ := hinv
  rw [hr, rotateDataPoints_eq m n _ tr hp] at hc
  simp only at hc
  set d' := applyRots tr (Function.update (fun _ => (0 : K)) po 1) with hd'
  have hB := backSubstitute_spec m hm R d' coeffs0 c hc
  have hRcol : ∀ k, 0 ≤ k → k < m →
      (fun r => R (r * m + k)) = applyRots tr (fun r => A (r * m + k)) := by
    intro k h1 h2
    funext r
    exact hcol k h1 h2 r
  have hG : ∀ k l, 0 ≤ k → k < m → 0 ≤ l → l < m →
      ∑ r ∈ Finset.Ico 0 n, A (r * m + k) * A (r * m + l)
        = ∑ r ∈ Finset.Ico 0 n, R (r * m + k) * R (r * m + l) := by
    intro k l h1 h2 h3 h4
    have := dot_applyRots n tr hv (fun r => A (r * m + k)) (fun r => A (r * m + l))
    rw [← hRcol k h1 h2, ← hRcol l h3 h4] at this
    exact this.symm
  have hD : ∀ k, 0 ≤ k → k < m →
      ∑ r ∈ Finset.Ico 0 n, R (r * m + k) * d' r = A (po * m + k) := by
    intro k h1 h2
    have := dot_applyRots n tr hv (fun r => A (r * m + k))
      (Function.update (fun _ => (0 : K)) po 1)
    rw [← hRcol k h1 h2] at this
    unfold dot at this
    rw [this, Finset.sum_eq_single po]
    · simp
    · intro r _ hne
      rw [Function.update_noteq hne]
      simp
    · intro hnot
      exact absurd (Finset.mem_Ico.2 ⟨hpo1, hpo2⟩) hnot
  intro k hk1 hk2
  have step1 : ∑ l ∈ Finset.Ico 0 m,
      (∑ r ∈ Finset.Ico 0 n, A (r * m + k) * A (r * m + l)) * c l
      = ∑ r ∈ Finset.Ico 0 n, R (r * m + k) * ∑ l ∈ Finset.Ico 0 m, R (r * m + l) * c l := by
    have : ∀ l ∈ Finset.Ico (0 : Int) m,
        (∑ r ∈ Finset.Ico 0 n, A (r * m + k) * A (r * m + l)) * c l
        = ∑ r ∈ Finset.Ico 0 n, R (r * m + k) * (R (r * m + l) * c l) := by
      intro l hl
      obtain ⟨hl1, hl2⟩ := Finset.mem_Ico.1 hl
      rw [hG k l hk1 hk2 hl1 hl2, Finset.sum_mul]
      apply Finset.sum_congr rfl
      intro r _
      ring
    rw [Finset.sum_congr rfl this, Finset.sum_comm]
    apply Finset.sum_congr rfl
    intro r _
    rw [Finset.mul_sum]
  rw [step1, ← hD k hk1 hk2]
  apply Finset.sum_congr rfl
  intro r hr
  obtain ⟨hr1, hr2⟩ := Finset.mem_Ico.1 hr
  rcases lt_or_le r m with hrm | hrm
  · congr 1
    rw [← (hB r hr1 hrm).2]
    symm
    apply Finset.sum_subset
    · intro l hl
      rw [Finset.mem_Ico] at hl ⊢
      omega
    · intro l hl hnl
      rw [Finset.mem_Ico] at hl hnl
      rw [hzero l r hl.1 hl.2 (by omega) hr2 (Or.inl hl.2), zero_mul]
  · rw [hzero k r hk1 hk2 (by omega) hr2 (Or.inl hk2), zero_mul, zero_mul]

/-! ## Sums over the points of a window -/

theorem sum_Ico_shift {M : Type} [AddCommMonoid M] (f : Int → M) (c b : Int) (hb : 0 ≤ b) :
    ∑ p ∈ Finset.Ico c (c + b), f p = ∑ v ∈ Finset.Ico 0 b, f (c + v) := by
  refine int_le_induction
    (P := fun b => ∑ p ∈ Finset.Ico c (c + b), f p = ∑ v ∈ Finset.Ico 0 b, f (c + v))
    0 (by simp) ?_ b hb
  intro i hi ih
  rw [← add_assoc, sum_Ico_succ _ (by omega), sum_Ico_succ _ hi, ih]

theorem sum_Ico_add {M : Type} [AddCommMonoid M] (f : Int → M) (c b : Int) (hc : 0 ≤ c)
    (hb : 0 ≤ b) :
    ∑ p ∈ Finset.Ico 0 (c + b), f p
      = ∑ p ∈ Finset.Ico 0 c, f p + ∑ v ∈ Finset.Ico 0 b, f (c + v) := by
  refine int_le_induction
    (P := fun b => ∑ p ∈ Finset.Ico 0 (c + b), f p
      = ∑ p ∈ Finset.Ico 0 c, f p + ∑ v ∈ Finset.Ico 0 b, f (c + v))
    0 (by simp) ?_ b hb
  intro i hi ih
  rw [← add_assoc, sum_Ico_succ _ (by omega), sum_Ico_succ _ hi, ih, add_assoc]

/-- A sum over the places `0 .. a*b-1` of a row-by-row storage, as a sum over
the rows and the columns. -/
theorem sum_Ico_mul {M : Type} [AddCommMonoid M] (f : Int → M) (a b : Int) (ha : 0 ≤ a)
    (hb : 0 ≤ b) :
    ∑ p ∈ Finset.Ico 0 (a * b), f p
      = ∑ u ∈ Finset.Ico 0 a, ∑ v ∈ Finset.Ico 0 b, f (u * b + v) := by
  refine int_le_induction
    (P := fun a => ∑ p ∈ Finset.Ico 0 (a * b), f p
      = ∑ u ∈ Finset.Ico 0 a, ∑ v ∈ Finset.Ico 0 b, f (u * b + v))
    0 (by simp) ?_ a ha
  intro i hi ih
  rw [sum_Ico_succ _ hi, ← ih, show (i + 1) * b = i * b + b by ring,
    sum_Ico_add f (i * b) b (mul_nonneg hi hb) hb]

theorem sum_Icc_one {M : Type} [AddCommMonoid M] (f : Int → M) (n : Int) (hn : 0 ≤ n) :
    ∑ y ∈ Finset.Icc 1 n, f y = ∑ y ∈ Finset.Ico 0 n, f (y + 1) := by
  have e : Finset.Icc 1 n = Finset.Ico 1 (1 + n) := by
    ext k
    simp only [Finset.mem_Icc, Finset.mem_Ico]
    omega
  rw [e, sum_Ico_shift f 1 n hn]
  apply Finset.sum_congr rfl
  intro y _
  rw [add_comm]

theorem sum_range_eq_Ico {M : Type} [AddCommMonoid M] (f : Int → M) (n : Int) (hn : 0 ≤ n) :
    ∑ i ∈ Finset.range n.toNat, f (i : Int) = ∑ i ∈ Finset.Ico 0 n, f i := by
  refine int_le_induction
    (P := fun n => ∑ i ∈ Finset.range n.toNat, f (i : Int) = ∑ i ∈ Finset.Ico 0 n, f i)
    0 (by simp) ?_ n hn
  intro i hi ih
  rw [toNat_succ_of_nonneg hi, Finset.sum_range_succ, sum_Ico_succ _ hi, ih,
    Int.toNat_of_nonneg hi]

/-! ## The least-squares kernel -/

/-- A sum over the monomials `(i, j)` with `0 <= i, j <= order`, with natural
exponents. -/
theorem sum_monomials {M : Type} [AddCommMonoid M] (f : Int → Int → M) (order : Int)
    (ho : 0 ≤ order) :
    ∑ i ∈ Finset.Ico 0 (order + 1), ∑ j ∈ Finset.Ico 0 (order + 1), f i j
      = ∑ i ∈ Finset.range (order.toNat + 1), ∑ j ∈ Finset.range (order.toNat + 1),
          f (i : Int) (j : Int) := by
  have e : order.toNat + 1 = (order + 1).toNat := by omega
  rw [e, sum_range_eq_Ico (fun i => ∑ j ∈ Finset.range (order + 1).toNat, f i (j : Int))
    (order + 1) (by omega)]
  apply Finset.sum_congr rfl
  intro i _
  rw [sum_range_eq_Ico (fun j => f i j) (order + 1) (by omega)]

/-- A sum over the window points `(x, y)`, coordinates from 1, as a sum over
the rows of the equation matrix. -/
theorem sum_window {M : Type} [AddCommMonoid M] (f : Int → Int → M) (w h : Int) (hw : 0 ≤ w)
    (hh : 0 ≤ h) :
    ∑ y ∈ Finset.Icc 1 h, ∑ x ∈ Finset.Icc 1 w, f y x
      = ∑ r ∈ Finset.Ico 0 (w * h), f (r / w + 1) (r % w + 1) := by
  rw [mul_comm, sum_Ico_mul _ h w hh hw, sum_Icc_one _ h hh]
  apply Finset.sum_congr rfl
  intro y _
  rw [sum_Icc_one _ w hw]
  apply Finset.sum_congr rfl
  intro x hx
  obtain ⟨hx1, hx2⟩ := Finset.mem_Ico.1 hx
  have e1 : (y * w + x) / w = y := by
    rw [add_comm, Int.add_mul_ediv_right _ _ (by omega), Int.ediv_eq_zero_of_lt hx1 hx2,
      zero_add]
  have e2 : (y * w + x) % w = x := by
    rw [add_comm, Int.add_mul_emod_self, Int.emod_eq_of_lt hx1 hx2]
  rw [e1, e2]

/-- The entry of the prepared equation matrix in row `r` and column
`i*(order+1) + j`. -/
theorem prepareEquations_entry (order w h : Int) (ho : 0 ≤ order) (hw : 0 ≤ w) (hh : 0 ≤ h)
    (r : Int) (hr1 : 0 ≤ r) (hr2 : r < w * h) (i j : Int) (hi1 : 0 ≤ i) (hi2 : i ≤ order)
    (hj1 : 0 ≤ j) (hj2 : j ≤ order) :
    (prepareEquations (K := K) order w h).1
        (r * ((order + 1) * (order + 1)) + (i * (order + 1) + j))
      = ((r / w + 1 : Int) : K) ^ i.toNat * ((r % w + 1 : Int) : K) ^ j.toNat := by
  have hw0 : 0 < w := by
    rcases eq_or_lt_of_le hw with e | e
    · rw [← e, zero_mul] at hr2
      omega
    · exact e
  have hdiv : r / w < h := Int.ediv_lt_of_lt_mul hw0 (by rw [mul_comm]; exact hr2)
  have hdiv0 : 0 ≤ r / w := Int.ediv_nonneg hr1 hw
  have hmod := Int.emod_lt_of_pos r hw0
  have hmod0 := Int.emod_nonneg r (show w ≠ 0 by omega)
  have := prepareEquations_spec (K := K) order w h (by omega) hw hh (r / w + 1) (r % w + 1) i j
    (by omega) (by omega) (by omega) (by omega) hi1 hi2 hj1 hj2
  have e : (r / w + 1 - 1) * w + (r % w + 1 - 1) = r := by
    rw [add_sub_cancel_right, add_sub_cancel_right, mul_comm]
    exact Int.ediv_add_emod r w
  rw [e] at this
  exact this

theorem monomial_index_lt (order : Int) (i j : Int) (hi1 : 0 ≤ i) (hi2 : i ≤ order)
    (hj2 : j ≤ order) : i * (order + 1) + j < (order + 1) * (order + 1) := by
  have h1 : (i + 1) * (order + 1) ≤ (order + 1) * (order + 1) :=
    mul_le_mul_of_nonneg_right (by omega) (by omega)
  have h2 : (i + 1) * (order + 1) = i * (order + 1) + (order + 1) := by ring
  omega

/-- A `recalcForOrigin` that has a result, on a kernel holding the
factorization, keeps the factorization and leaves the least-squares kernel
for the origin. -/
theorem recalc_leastSquares (order : Int) (ho : 0 ≤ order) (size : QSize) (k k' : SavGolKernel K)
    (hF : Factored order size k) (origin : QPoint)
    (hx1 : 0 ≤ origin.x) (hx2 : origin.x < size.width)
    (hy1 : 0 ≤ origin.y) (hy2 : origin.y < size.height)
    (hre : k.recalcForOrigin origin = some k') :
    Factored order size k' ∧ IsLeastSquaresKernel order size origin k' := by
  obtain ⟨fo, fw, fh, fm, fn, finv⟩ := hF
  unfold SavGolKernel.recalcForOrigin at hre
  simp only at hre
  cases hb : backSubstitute k.m_numVars k.m_equations
      (rotateDataPoints k.m_numVars k.m_numDataPoints
        (Function.update (fun _ => 0) (origin.y * k.m_width + origin.x) 1) k.m_rotations).1
      k.m_coeffs with
  | none => rw [hb] at hre; cases hre
  | some c =>
    rw [hb] at hre
    simp only [Option.map_some', Option.some.injEq] at hre
    subst hre
    refine ⟨⟨fo, fw, fh, fm, fn, finv⟩, ?_⟩
    set w := size.width with hw
    set h := size.height with hh
    have hw0 : 0 < w := by omega
    have hh0 : 0 < h := by omega
    have hm0 : 0 ≤ k.m_numVars := by
      rw [fm]
      exact mul_nonneg (by omega) (by omega)
    have hpo1 : 0 ≤ origin.y * w + origin.x := add_nonneg (mul_nonneg hy1 (le_of_lt hw0)) hx1
    have hpo2 : origin.y * w + origin.x < w * h := by
      have h1 : (origin.y + 1) * w ≤ h * w := mul_le_mul_of_nonneg_right (by omega) (by omega)
      have h2 : (origin.y + 1) * w = origin.y * w + w := by ring
      have h3 : h * w = w * h := mul_comm _ _
      omega
    rw [fw] at hb
    have hN := recalc_normal_equations k.m_numVars k.m_numDataPoints hm0 _ _ _ finv
      (origin.y * w + origin.x) hpo1 (by rw [fn]; exact hpo2) _ c hb
    rw [fm, fn] at hN
    have hdivo : (origin.y * w + origin.x) / w = origin.y := by
      rw [add_comm, Int.add_mul_ediv_right _ _ (by omega), Int.ediv_eq_zero_of_lt hx1 hx2,
        zero_add]
    have hmodo : (origin.y * w + origin.x) % w = origin.x := by
      rw [add_comm, Int.add_mul_emod_self, Int.emod_eq_of_lt hx1 hx2]
    -- the normal equations, summed over monomials and window points
    have h1 : ∀ i j : Nat, (i : Int) ≤ order → (j : Int) ≤ order →
        ∑ i' ∈ Finset.range (order.toNat + 1), ∑ j' ∈ Finset.range (order.toNat + 1),
          (∑ y ∈ Finset.Icc 1 h, ∑ x ∈ Finset.Icc 1 w,
            ((y : K) ^ i * (x : K) ^ j) * ((y : K) ^ i' * (x : K) ^ j'))
            * c ((i' : Int) * (order + 1) + (j' : Int))
          = ((origin.y + 1 : Int) : K) ^ i * ((origin.x + 1 : Int) : K) ^ j := by
      intro i j hi hj
      have := hN ((i : Int) * (order + 1) + j) (by positivity)
        (monomial_index_lt order i j (by positivity) hi hj)
      rw [prepareEquations_entry order w h ho (le_of_lt hw0) (le_of_lt hh0) _ hpo1 hpo2 i j
        (by positivity) hi (by positivity) hj, hdivo, hmodo, Int.toNat_natCast,
        Int.toNat_natCast] at this
      rw [← this, sum_Ico_mul _ (order + 1) (order + 1) (by omega) (by omega),
        sum_monomials _ order ho]
      apply Finset.sum_congr rfl
      intro i' hi'
      apply Finset.sum_congr rfl
      intro j' hj'
      have hi'' : ((i' : Nat) : Int) ≤ order := by
        have := Finset.mem_range.1 hi'
        omega
      have hj'' : ((j' : Nat) : Int) ≤ order := by
        have := Finset.mem_range.1 hj'
        omega
      congr 1
      rw [sum_window _ w h (le_of_lt hw0) (le_of_lt hh0)]
      apply Finset.sum_congr rfl
      intro r hr
      obtain ⟨hr1, hr2⟩ := Finset.mem_Ico.1 hr
      rw [prepareEquations_entry order w h ho (le_of_lt hw0) (le_of_lt hh0) r hr1 hr2 i j
          (by positivity) hi (by positivity) hj,
        prepareEquations_entry order w h ho (le_of_lt hw0) (le_of_lt hh0) r hr1 hr2 i' j'
          (by positivity) hi'' (by positivity) hj'']
      simp only [Int.toNat_natCast]
    -- the weights are the values of the polynomial
    have h2 : ∀ y x : Int, 1 ≤ y → y ≤ h → 1 ≤ x → x ≤ w →
        expandKernel k.m_order k.m_width k.m_height c k.m_kernel ((y - 1) * w + (x - 1))
          = ∑ i' ∈ Finset.range (order.toNat + 1), ∑ j' ∈ Finset.range (order.toNat + 1),
              (y : K) ^ i' * (x : K) ^ j' * c ((i' : Int) * (order + 1) + (j' : Int)) := by
      intro y x hy1' hy2' hx1' hx2'
      rw [fo, fw, fh, expandKernel_spec order w h (by omega) (le_of_lt hw0) (le_of_lt hh0) c _
        y x hy1' hy2' hx1' hx2', sum_monomials _ order ho]
      simp only [Int.toNat_natCast]
    refine ⟨h1, h2, ?_⟩
    intro i j hi hj
    rw [← h1 i j hi hj]
    have e : ∀ y ∈ Finset.Icc 1 h, ∀ x ∈ Finset.Icc 1 w,
        expandKernel k.m_order k.m_width k.m_height c k.m_kernel ((y - 1) * w + (x - 1))
          * ((y : K) ^ i * (x : K) ^ j)
        = ∑ i' ∈ Finset.range (order.toNat + 1), ∑ j' ∈ Finset.range (order.toNat + 1),
            ((y : K) ^ i * (x : K) ^ j) * ((y : K) ^ i' * (x : K) ^ j')
              * c ((i' : Int) * (order + 1) + (j' : Int)) := by
      intro y hy x hx
      obtain ⟨a1, a2⟩ := Finset.mem_Icc.1 hy
      obtain ⟨b1, b2⟩ := Finset.mem_Icc.1 hx
      rw [h2 y x a1 a2 b1 b2, Finset.sum_mul]
      apply Finset.sum_congr rfl
      intro i' _
      rw [Finset.sum_mul]
      apply Finset.sum_congr rfl
      intro j' _
      ring
    rw [Finset.sum_congr rfl (fun y hy => Finset.sum_congr rfl (fun x hx => e y hy x hx))]
    -- exchange the sums over the window points and over the monomials
    rw [Finset.sum_congr rfl (fun y _ => Finset.sum_comm), Finset.sum_comm]
    apply Finset.sum_congr rfl
    intro i' _
    rw [Finset.sum_congr rfl (fun y _ => Finset.sum_comm), Finset.sum_comm]
    apply Finset.sum_congr rfl
    intro j' _
    rw [Finset.sum_mul]
    apply Finset.sum_congr rfl
    intro y _
    rw [Finset.sum_mul]

/-- When the constructor body has a result, its `QR` left the factorization
and its `recalcForOrigin` had a result. -/
theorem build_factored (sqrt : K → K) (hsq : ∀ x : K, 0 ≤ x → sqrt x * sqrt x = x)
    (order : Int) (size : QSize) (origin : QPoint) (k : SavGolKernel K)
    (h : SavGolKernel.build sqrt order size origin = some k) :
    ∃ kq : SavGolKernel K, Factored order size kq ∧ kq.recalcForOrigin origin = some k := by
  unfold SavGolKernel.build SavGolKernel.QR at h
  simp only at h
  cases hq : QRloops sqrt ((order + 1) * (order + 1)) (size.width * size.height)
      (prepareEquations order size.width size.height).1 with
  | none => rw [hq] at h; cases h
  | some res =>
    rw [hq] at h
    simp only [Option.map_some', Option.some_bind] at h
    refine ⟨_, ⟨rfl, rfl, rfl, rfl, rfl, ?_⟩, h⟩
    exact QRloops_inv sqrt hsq _ _ (mul_self_nonneg _) _ res hq

theorem new_eq_build (ndebug : Bool) (sqrt : K → K) (order : Int) (size : QSize)
    (origin : QPoint) (k : SavGolKernel K)
    (h : SavGolKernel.new ndebug sqrt order size origin = some k) :
    SavGolKernel.build sqrt order size origin = some k := by
  unfold SavGolKernel.new at h
  split at h
  · exact h
  · cases h

/-! ## Order 0 -/

theorem intRange_zero_one : intRange 0 1 = [0] := by
  rw [show (1 : Int) = 0 + 1 by norm_num, intRange_succ (le_refl 0), intRange_of_le (le_refl 0)]
  rfl

/-- With one variable (order 0), `QR` has a result whenever the first entry
of the column is not zero, and the diagonal entry it leaves is not zero. -/
theorem QRloops_one_var (sqrt : K → K) (hsq : ∀ x : K, 0 ≤ x → sqrt x * sqrt x = x)
    (n : Int) (A : Int → K) (hA : A 0 ≠ 0) :
    ∃ res, QRloops sqrt 1 n A = some res ∧ res.1 0 ≠ 0 := by
  have hinner : ∃ u, forLoopM (0 + 1) n (fun _ t => givensStep sqrt 1 0 0 t)
      ((A, ([] : List (Rotation K))), 0 + 1) = some u ∧ u.1.1 0 ≠ 0 := by
    rcases le_or_lt n (0 + 1) with hle | hlt
    · exact ⟨_, forLoopM_of_le hle _ _, hA⟩
    · obtain ⟨u, hu, hP⟩ := forLoopM_total
        (fun i (t : ((Int → K) × List (Rotation K)) × Int) => t.2 = i ∧ t.1.1 0 ≠ 0)
        (le_of_lt hlt) (fun _ t => givensStep sqrt 1 0 0 t)
        ((A, ([] : List (Rotation K))), 0 + 1) ⟨rfl, hA⟩
        (by
          rintro i ⟨⟨E, rots⟩, ij⟩ h1 h2 ⟨hij, hE⟩
          simp only at hij hE
          subst hij
          have hpos : 0 < E 0 * E 0 + E ij * E ij :=
            add_pos_of_pos_of_nonneg (mul_self_pos.2 hE) (mul_self_nonneg _)
          have hrad : sqrt (E 0 * E 0 + E ij * E ij) ≠ 0 := by
            intro h0
            have := hsq _ (le_of_lt hpos)
            rw [h0, zero_mul] at this
            exact absurd this (ne_of_lt hpos)
          have hs : givensStep sqrt 1 0 0 ((E, rots), ij)
              = some ((rotateRows 1 0 (E 0 / sqrt (E 0 * E 0 + E ij * E ij))
                  (E ij / sqrt (E 0 * E 0 + E ij * E ij))
                  (Function.update (Function.update E 0 (sqrt (E 0 * E 0 + E ij * E ij))) ij 0)
                  ij 0,
                rots ++ [Rotation.mk (E ij / sqrt (E 0 * E 0 + E ij * E ij))
                  (E 0 / sqrt (E 0 * E 0 + E ij * E ij))]), ij + 1) := by
            simp only [givensStep, if_neg hrad]
          refine ⟨_, hs, rfl, ?_⟩
          simp only [rotateRows]
          rw [forLoop_of_le (show (1 : Int) ≤ 0 + 1 by norm_num)]
          simp only
          rw [Function.update_noteq (by omega), Function.update_same]
          exact hrad)
      exact ⟨u, hu, hP.2⟩
  obtain ⟨u, hu, hP⟩ := hinner
  refine ⟨u.1, ?_, hP⟩
  unfold QRloops forLoopM
  rw [intRange_zero_one]
  simp only [List.foldlM_cons, List.foldlM_nil]
  unfold forLoopM at hu
  rw [hu]
  rfl

/-- With one variable (order 0), the back-substitution has a result whenever
the diagonal entry is not zero. -/
theorem backSubstitute_one_var (eqs dp coeffs : Int → K) (h : eqs 0 ≠ 0) :
    ∃ c, backSubstitute 1 eqs dp coeffs = some c := by
  unfold backSubstitute forDownM
  rw [show (1 : Int) - 1 + 1 = 1 by norm_num, intRange_zero_one]
  simp only [List.reverse_cons, List.reverse_nil, List.nil_append, List.foldlM_cons,
    List.foldlM_nil]
  rw [show (1 : Int) * 1 - 1 = 0 by norm_num]
  simp only [if_neg h]
  exact ⟨_, rfl⟩

theorem recalc_one_var (k : SavGolKernel K) (hm : k.m_numVars = 1) (hd : k.m_equations 0 ≠ 0)
    (origin : QPoint) :
    ∃ k', k.recalcForOrigin origin = some k' ∧ k'.m_numVars = 1 ∧ k'.m_equations 0 ≠ 0 := by
  unfold SavGolKernel.recalcForOrigin
  simp only [hm]
  obtain ⟨c, hc⟩ := backSubstitute_one_var k.m_equations
    (rotateDataPoints 1 k.m_numDataPoints
      (Function.update (fun _ => 0) (origin.y * k.m_width + origin.x) 1) k.m_rotations).1
    k.m_coeffs hd
  rw [hc]
  exact ⟨_, rfl, rfl, hd⟩

/-- For order 0 the constructor body has a result, for every window with at
least one point. -/
theorem build_order_zero (sqrt : K → K) (hsq : ∀ x : K, 0 ≤ x → sqrt x * sqrt x = x)
    (size : QSize) (hw : 0 < size.width) (hh : 0 < size.height) (origin : QPoint) :
    ∃ k, SavGolKernel.build sqrt 0 size origin = some k ∧ k.m_numVars = 1 ∧
      k.m_equations 0 ≠ 0 := by
  have hA : (prepareEquations (K := K) 0 size.width size.height).1 0 ≠ 0 := by
    have := prepareEquations_entry (K := K) 0 size.width size.height (le_refl 0) (le_of_lt hw)
      (le_of_lt hh) 0 (le_refl 0) (mul_pos hw hh) 0 0 (le_refl 0) (le_refl 0) (le_refl 0)
      (le_refl 0)
    simp only [zero_mul, zero_add, add_zero, Int.toNat_zero, pow_zero, mul_one] at this
    rw [this]
    exact one_ne_zero
  obtain ⟨res, hres, hd⟩ := QRloops_one_var sqrt hsq (size.width * size.height) _ hA
  unfold SavGolKernel.build SavGolKernel.QR
  simp only [zero_add, mul_one, hres, Option.map_some', Option.some_bind]
  exact recalc_one_var _ rfl hd origin

/-- The weights of a least-squares kernel of order 0 are all `1 / (w * h)`. -/
theorem leastSquares_order_zero (size : QSize) (hw : 0 < size.width) (hh : 0 < size.height)
    (origin : QPoint) (k : SavGolKernel K) (h : IsLeastSquaresKernel 0 size origin k)
    (p : Int) (hp1 : 0 ≤ p) (hp2 : p < size.width * size.height) :
    k.m_kernel p = 1 / ((size.width : K) * (size.height : K)) := by
  obtain ⟨_, h2, h3⟩ := h
  have hk : ∀ y x : Int, 1 ≤ y → y ≤ size.height → 1 ≤ x → x ≤ size.width →
      k.m_kernel ((y - 1) * size.width + (x - 1)) = k.m_coeffs 0 := by
    intro y x a1 a2 b1 b2
    rw [h2 y x a1 a2 b1 b2]
    simp
  have hsum := h3 0 0 (le_refl _) (le_refl _)
  simp only [pow_zero, mul_one] at hsum
  have e : ∑ y ∈ Finset.Icc 1 size.height, ∑ x ∈ Finset.Icc 1 size.width,
      k.m_kernel ((y - 1) * size.width + (x - 1))
      = ∑ _y ∈ Finset.Icc 1 size.height, ∑ _x ∈ Finset.Icc 1 size.width, k.m_coeffs 0 := by
    apply Finset.sum_congr rfl
    intro y hy
    apply Finset.sum_congr rfl
    intro x hx
    obtain ⟨a1, a2⟩ := Finset.mem_Icc.1 hy
    obtain ⟨b1, b2⟩ := Finset.mem_Icc.1 hx
    exact hk y x a1 a2 b1 b2
  rw [e] at hsum
  simp only [Finset.sum_const, Int.card_Icc, nsmul_eq_mul] at hsum
  have c1 : ((size.height + 1 - 1).toNat : K) = (size.height : K) := by
    rw [add_sub_cancel_right]
    exact_mod_cast Int.toNat_of_nonneg (le_of_lt hh)
  have c2 : ((size.width + 1 - 1).toNat : K) = (size.width : K) := by
    rw [add_sub_cancel_right]
    exact_mod_cast Int.toNat_of_nonneg (le_of_lt hw)
  rw [c1, c2] at hsum
  have hwK : (0 : K) < (size.width : K) := by exact_mod_cast hw
  have hhK : (0 : K) < (size.height : K) := by exact_mod_cast hh
  have hc0 : k.m_coeffs 0 = 1 / ((size.width : K) * (size.height : K)) := by
    field_simp
    linear_combination hsum
  have hdiv : p / size.width < size.height :=
    Int.ediv_lt_of_lt_mul hw (by rw [mul_comm]; exact hp2)
  have hdiv0 : 0 ≤ p / size.width := Int.ediv_nonneg hp1 (le_of_lt hw)
  have hmod := Int.emod_lt_of_pos p hw
  have hmod0 := Int.emod_nonneg p (show size.width ≠ 0 by omega)
  have := hk (p / size.width + 1) (p % size.width + 1) (by omega) (by omega) (by omega)
    (by omega)
  have e2 : (p / size.width + 1 - 1) * size.width + (p % size.width + 1 - 1) = p := by
    rw [add_sub_cancel_right, add_sub_cancel_right, mul_comm]
    exact Int.ediv_add_emod p size.width
  rw [e2] at this
  rw [this, hc0]

/-! ## A window of one column with order 1 -/

/-- For a window of width 1 and height 4 and order 1 (accepted by the
configuration check: 4 variables, 4 data points), the columns `1` and `x` of
the equations are equal, the second column is eliminated together with the
first and `QR` meets the radius `sqrt(0*0 + 0*0) = 0` in the pass `j = 1`,
`i = 2`: `QR` has no result. -/
theorem QRloops_1x4_order_1 (sqrt : K → K) (hsq : ∀ x : K, 0 ≤ x → sqrt x * sqrt x = x) :
    QRloops sqrt 4 4 (prepareEquations (K := K) 1 1 4).1 = none := by
  have hs0 : sqrt 0 = 0 := by
    have := hsq 0 (le_refl 0)
    exact mul_self_eq_zero.1 this
  set A : Int → K := (prepareEquations (K := K) 1 1 4).1 with hA
  have hcols : ∀ r : Int, 0 ≤ r → r < 4 → A (r * 4 + 1) = A (r * 4 + 0) := by
    intro r h1 h2
    have e0 := prepareEquations_entry (K := K) 1 1 4 (by norm_num) (by norm_num) (by norm_num)
      r h1 (by omega) 0 0 (le_refl 0) (by norm_num) (le_refl 0) (by norm_num)
    have e1 := prepareEquations_entry (K := K) 1 1 4 (by norm_num) (by norm_num) (by norm_num)
      r h1 (by omega) 0 1 (le_refl 0) (by norm_num) (by norm_num) (le_refl 1)
    norm_num at e0 e1
    rw [← hA] at e0 e1
    rw [add_zero, e0, e1]
  -- the column `j = 0`
  have sweep0 : ∀ u, forLoopM (0 + 1) 4 (fun _ t => givensStep sqrt 4 0 0 t)
      ((A, ([] : List (Rotation K))), 0 + 4) = some u →
      u.1.1 5 = 0 ∧ u.1.1 9 = 0 := by
    intro u hu
    have := forLoopM_inv (fun i (t : ((Int → K) × List (Rotation K)) × Int) =>
        t.2 = i * 4 + 0 ∧
        (∀ r : Int, 0 ≤ r → r < 4 → t.1.1 (r * 4 + 1) = t.1.1 (r * 4 + 0)) ∧
        (∀ r : Int, 1 ≤ r → r < i → t.1.1 (r * 4 + 0) = 0))
      (show (0 + 1 : Int) ≤ 4 by norm_num) (fun _ t => givensStep sqrt 4 0 0 t)
      ((A, ([] : List (Rotation K))), 0 + 4)
      ⟨by norm_num, hcols, fun r h1 h2 => by omega⟩
      (by
        rintro i ⟨⟨E, rots⟩, ij⟩ t' h1 h2 ⟨hij, hc, hz⟩ hstep
        simp only at hij hc hz hstep
        subst hij
        have hstep' : givensStep sqrt 4 0 (0 * 4 + 0) ((E, rots), i * 4 + 0) = some t' := by
          simpa using hstep
        obtain ⟨cos, sin, _, _, h2', _, _, hij0, hcol⟩ :=
          givensStep_spec sqrt hsq 4 0 i (le_refl 0) (by norm_num) (by omega) E rots
            (fun k hk1 hk2 => by omega) t' hstep'
        refine ⟨h2', ?_, ?_⟩
        · intro r hr1 hr2
          rw [hcol 1 (by norm_num) (by norm_num) r, hcol 0 (by norm_num) (by norm_num) r,
            rotVec_apply _ _ _ _ _ _ (by omega : (0 : Int) ≠ i),
            rotVec_apply _ _ _ _ _ _ (by omega : (0 : Int) ≠ i)]
          simp only [hc 0 (le_refl 0) (by norm_num), hc i (by omega) h2, hc r hr1 hr2]
        · intro r hr1 hr2
          rcases eq_or_lt_of_le (show r ≤ i by omega) with e | e
          · subst e
            exact hij0
          · rw [hcol 0 (by norm_num) (by norm_num) r,
              rotVec_apply _ _ _ _ _ _ (by omega : (0 : Int) ≠ i), if_neg (by omega),
              if_neg (by omega)]
            exact hz r hr1 e)
      u hu
    obtain ⟨_, hc, hz⟩ := this
    have a1 := hc 1 (by norm_num) (by norm_num)
    have a2 := hc 2 (by norm_num) (by norm_num)
    have b1 := hz 1 (le_refl 1) (by norm_num)
    have b2 := hz 2 (by norm_num) (by norm_num)
    norm_num at a1 a2 b1 b2
    exact ⟨by rw [a1, b1], by rw [a2, b2]⟩
  show QRloops sqrt 4 4 A = none
  unfold QRloops
  rw [forLoopM_none (fun j (t : ((Int → K) × List (Rotation K)) × Int) =>
      (j = 0 ∧ t = ((A, []), 0)) ∨ (j = 1 ∧ t.2 = 5 ∧ t.1.1 5 = 0 ∧ t.1.1 9 = 0))
    (show (0 : Int) ≤ 4 by norm_num) _ _ (Or.inl ⟨rfl, rfl⟩) ?_ ?_]
  · rfl
  · rintro j t t' h1 h2 (⟨hj, ht⟩ | ⟨hj, hjj, h5, h9⟩) hbody
    · subst hj ht
      simp only at hbody
      cases hu : forLoopM (0 + 1) 4 (fun _ t => givensStep sqrt 4 0 0 t)
          ((A, ([] : List (Rotation K))), 0 + 4) with
      | none => rw [hu] at hbody; cases hbody
      | some u =>
        rw [hu] at hbody
        simp only [Option.map_some', Option.some.injEq] at hbody
        subst hbody
        exact Or.inr ⟨by norm_num, by norm_num, sweep0 u hu⟩
    · subst hj
      exfalso
      obtain ⟨⟨E, rots⟩, jj⟩ := t
      simp only at hjj h5 h9 hbody
      subst hjj
      rw [show (1 : Int) + 1 = 2 by norm_num, show (5 : Int) + 4 = 9 by norm_num] at hbody
      unfold forLoopM at hbody
      rw [intRange_cons (show (2 : Int) < 4 by norm_num)] at hbody
      simp only [List.foldlM_cons, givensStep, h5, h9, mul_zero, add_zero, hs0, if_true,
        Option.none_bind, Option.map_none', Option.bind_eq_bind] at hbody
      cases hbody
  · rintro r (⟨hj, _⟩ | ⟨hj, _⟩) <;> omega

/-- The constructor has no result for the window (1, 4) and order 1. -/
theorem build_1x4_order_1 (sqrt : K → K) (hsq : ∀ x : K, 0 ≤ x → sqrt x * sqrt x = x)
    (origin : QPoint) :
    SavGolKernel.build sqrt 1 (QSize.mk 1 4) origin = none := by
  unfold SavGolKernel.build SavGolKernel.QR
  simp only
  rw [show ((1 : Int) + 1) * (1 + 1) = 4 by norm_num, show (1 : Int) * 4 = 4 by norm_num,
    QRloops_1x4_order_1 sqrt hsq]
  rfl

end KernelLemmas

/-! ## What `recalcForOrigin` reads and what it overwrites -/

theorem foldl_rel {α σ τ : Type} (R : σ → τ → Prop) (l : List α) (b1 : σ → α → σ)
    (b2 : τ → α → τ) (hstep : ∀ a ∈ l, ∀ s t, R s t → R (b1 s a) (b2 t a)) :
    ∀ s t, R s t → R (l.foldl b1 s) (l.foldl b2 t) := by
  induction l with
  | nil => intro s t h; exact h
  | cons a l ih =>
    intro s t h
    simp only [List.foldl_cons]
    exact ih (fun a' ha' => hstep a' (List.mem_cons_of_mem _ ha')) _ _
      (hstep a (List.mem_cons_self _ _) s t h)

/-- Two loops over the same range keep a relation their bodies keep. -/
theorem forLoop_rel {σ τ : Type} (R : σ → τ → Prop) (lo hi : Int) (b1 : Int → σ → σ)
    (b2 : Int → τ → τ) (hstep : ∀ i s t, lo ≤ i → i < hi → R s t → R (b1 i s) (b2 i t))
    (s : σ) (t : τ) (h0 : R s t) : R (forLoop lo hi b1 s) (forLoop lo hi b2 t) := by
  unfold forLoop
  apply foldl_rel R _ _ _ _ s t h0
  intro a ha s t h
  obtain ⟨h1, h2⟩ := mem_intRange.1 ha
  exact hstep a s t h1 h2 h

/-- A loop keeps a property its body keeps. -/
theorem forLoop_keeps {σ : Type} (P : σ → Prop) (lo hi : Int) (body : Int → σ → σ)
    (hstep : ∀ i s, lo ≤ i → i < hi → P s → P (body i s)) (s : σ) (h0 : P s) :
    P (forLoop lo hi body s) :=
  forLoop_rel (fun s (_ : Unit) => P s) lo hi body (fun _ u => u)
    (fun i s _ h1 h2 h => hstep i s h1 h2 h) s () h0

/-- Two nested loops that store one value per pass at consecutive places: the
place they end at does not depend on the values stored. -/
theorem fill_loops_end {K : Type} (f g : Int → Int → K) (lo hi lo2 hi2 : Int) (v w : Int → K)
    (p0 : Int) :
    (forLoop lo hi (fun y s => forLoop lo2 hi2 (fun x (s : (Int → K) × Int) =>
        (Function.update s.1 s.2 (f y x), s.2 + 1)) s) (v, p0)).2
      = (forLoop lo hi (fun y s => forLoop lo2 hi2 (fun x (s : (Int → K) × Int) =>
        (Function.update s.1 s.2 (g y x), s.2 + 1)) s) (w, p0)).2 := by
  apply forLoop_rel (fun (s t : (Int → K) × Int) => s.2 = t.2)
  · intro y s t _ _ h
    apply forLoop_rel (fun (s t : (Int → K) × Int) => s.2 = t.2)
    · intro x s t _ _ h
      show s.2 + 1 = t.2 + 1
      rw [h]
    · exact h
  · rfl

/-- Such loops change no entry before the place they start at or from the
place they end at on. -/
theorem fill_loops_frame {K : Type} (f : Int → Int → K) (lo hi lo2 hi2 : Int) (v : Int → K) (p0 : Int) :
    ∀ idx, idx < p0 ∨
        (forLoop lo hi (fun y s => forLoop lo2 hi2 (fun x (s : (Int → K) × Int) =>
          (Function.update s.1 s.2 (f y x), s.2 + 1)) s) (v, p0)).2 ≤ idx →
      (forLoop lo hi (fun y s => forLoop lo2 hi2 (fun x (s : (Int → K) × Int) =>
          (Function.update s.1 s.2 (f y x), s.2 + 1)) s) (v, p0)).1 idx = v idx := by
  have h := forLoop_keeps
    (fun (s : (Int → K) × Int) => p0 ≤ s.2 ∧ ∀ idx, idx < p0 ∨ s.2 ≤ idx → s.1 idx = v idx)
    lo hi (fun y s => forLoop lo2 hi2 (fun x (s : (Int → K) × Int) =>
        (Function.update s.1 s.2 (f y x), s.2 + 1)) s)
    (by
      intro y s _ _ hs
      apply forLoop_keeps
        (fun (s : (Int → K) × Int) => p0 ≤ s.2 ∧ ∀ idx, idx < p0 ∨ s.2 ≤ idx → s.1 idx = v idx)
      · intro x s _ _ hs
        refine ⟨by have := hs.1; show p0 ≤ s.2 + 1; omega, ?_⟩
        intro idx hidx
        have hne : idx ≠ s.2 := by
          have := hs.1
          rcases hidx with h | h
          · omega
          · have h' : s.2 + 1 ≤ idx := h
            omega
        show Function.update s.1 s.2 (f y x) idx = v idx
        rw [Function.update_noteq hne]
        apply hs.2
        rcases hidx with h | h
        · exact Or.inl h
        · have h' : s.2 + 1 ≤ idx := h
          exact Or.inr (by omega)
      · exact hs)
    (v, p0) ⟨le_refl _, fun idx _ => rfl⟩
  exact h.2

/-- Such loops overwrite every entry from the place they start at up to the
place they end at: started on two vectors, they leave vectors that differ
only where the two differed outside that range. -/
theorem fill_loops_congr {K : Type} (f : Int → Int → K) (lo hi lo2 hi2 : Int) (v w : Int → K) (p0 : Int) :
    ∀ idx, v idx = w idx ∨ (p0 ≤ idx ∧
        idx < (forLoop lo hi (fun y s => forLoop lo2 hi2 (fun x (s : (Int → K) × Int) =>
          (Function.update s.1 s.2 (f y x), s.2 + 1)) s) (v, p0)).2) →
      (forLoop lo hi (fun y s => forLoop lo2 hi2 (fun x (s : (Int → K) × Int) =>
          (Function.update s.1 s.2 (f y x), s.2 + 1)) s) (v, p0)).1 idx
        = (forLoop lo hi (fun y s => forLoop lo2 hi2 (fun x (s : (Int → K) × Int) =>
          (Function.update s.1 s.2 (f y x), s.2 + 1)) s) (w, p0)).1 idx := by
  have h := forLoop_rel
    (fun (s t : (Int → K) × Int) => s.2 = t.2 ∧
      ∀ idx, v idx = w idx ∨ (p0 ≤ idx ∧ idx < s.2) → s.1 idx = t.1 idx)
    lo hi
    (fun y s => forLoop lo2 hi2 (fun x (s : (Int → K) × Int) =>
        (Function.update s.1 s.2 (f y x), s.2 + 1)) s)
    (fun y s => forLoop lo2 hi2 (fun x (s : (Int → K) × Int) =>
        (Function.update s.1 s.2 (f y x), s.2 + 1)) s)
    (by
      intro y s t _ _ hst
      apply forLoop_rel
        (fun (s t : (Int → K) × Int) => s.2 = t.2 ∧
          ∀ idx, v idx = w idx ∨ (p0 ≤ idx ∧ idx < s.2) → s.1 idx = t.1 idx)
      · intro x s t _ _ hst
        refine ⟨by show s.2 + 1 = t.2 + 1; rw [hst.1], ?_⟩
        intro idx hidx
        show Function.update s.1 s.2 (f y x) idx = Function.update t.1 t.2 (f y x) idx
        rw [← hst.1]
        by_cases he : idx = s.2
        · rw [he, Function.update_same, Function.update_same]
        · rw [Function.update_noteq he, Function.update_noteq he]
          apply hst.2
          rcases hidx with h | h
          · exact Or.inl h
          · have h' : idx < s.2 + 1 := h.2
            exact Or.inr ⟨h.1, by omega⟩
      · exact hst)
    (v, p0) (w, p0) ⟨rfl, fun idx hidx => by
      rcases hidx with h | h
      · exact h
      · have : idx < p0 := h.2
        omega⟩
  exact h.2

section Recalc

variable {K : Type} [LinearOrderedField K]

/-- The weights `recalcForOrigin` leaves do not depend on the weights the
kernel held before. -/
theorem expandKernel_overwrites (order width height : Int) (coeffs coeffs' kernel : Int → K) :
    expandKernel order width height coeffs
        (expandKernel order width height coeffs' kernel)
      = expandKernel order width height coeffs kernel := by
  funext idx
  unfold expandKernel
  apply fill_loops_congr
  by_cases hin : 0 ≤ idx ∧ idx < (forLoop 1 (height + 1) (fun y s =>
      forLoop 1 (width + 1) (fun x (s : (Int → K) × Int) =>
        let sum := (forLoop 0 (order + 1) (fun _ (p : (K × Int) × K) =>
          let pow1 := p.2
          let r := forLoop 0 (order + 1) (fun _ (q : (K × Int) × K) =>
            ((q.1.1 + q.2 * coeffs' q.1.2, q.1.2 + 1), q.2 * (x : K))) (p.1, pow1)
          (r.1, pow1 * (y : K))) (((0 : K), (0 : Int)), (1 : K))).1.1
        (Function.update s.1 s.2 sum, s.2 + 1)) s) (kernel, 0)).2
  · right
    refine ⟨hin.1, ?_⟩
    rw [fill_loops_end _ (fun y x => (forLoop 0 (order + 1) (fun _ (p : (K × Int) × K) =>
          let pow1 := p.2
          let r := forLoop 0 (order + 1) (fun _ (q : (K × Int) × K) =>
            ((q.1.1 + q.2 * coeffs' q.1.2, q.1.2 + 1), q.2 * (x : K))) (p.1, pow1)
          (r.1, pow1 * (y : K))) (((0 : K), (0 : Int)), (1 : K))).1.1) _ _ _ _ _ kernel]
    exact hin.2
  · left
    apply fill_loops_frame
    by_cases h0 : 0 ≤ idx
    · right
      have := fun h => hin ⟨h0, h⟩
      exact not_lt.1 this
    · left
      omega

theorem intRange_pairwise (lo hi : Int) : (intRange lo hi).Pairwise (fun a b => a < b) := by
  unfold intRange
  rw [List.pairwise_map]
  refine List.Pairwise.imp ?_ (List.pairwise_lt_range _)
  intro a b hab
  omega

theorem forLoop_congr {σ : Type} (lo hi : Int) (b1 b2 : Int → σ → σ)
    (h : ∀ i s, lo ≤ i → i < hi → b1 i s = b2 i s) (s : σ) :
    forLoop lo hi b1 s = forLoop lo hi b2 s :=
  forLoop_rel (fun s t => s = t) lo hi b1 b2
    (fun i s t h1 h2 (e : s = t) => show b1 i s = b2 i t by rw [← e]; exact h i s h1 h2) s s rfl

/-- A descending loop whose pass `i` stores entry `i` of a vector, computed
from the entries above `i`: the result does not depend on the entries the
vector held at the places the loop visits. -/
theorem solveDown_congr (m : Int) (eqs : Int → K) (sumf : (Int → K) → Int → Int → K)
    (hsum : ∀ (c c' : Int → K) (i ii : Int), (∀ k, i < k → c k = c' k) →
      sumf c i ii = sumf c' i ii) :
    ∀ (l : List Int), l.Pairwise (fun a b => b < a) → ∀ (c c' : Int → K) (ii : Int),
      (∀ idx, idx ∉ l → c idx = c' idx) →
      (l.foldlM (fun (s : (Int → K) × Int) i =>
          if eqs s.2 = 0 then none
          else some (Function.update s.1 i (sumf s.1 i s.2 / eqs s.2), s.2 - (m + 1)))
        (c, ii)).map Prod.fst
      = (l.foldlM (fun (s : (Int → K) × Int) i =>
          if eqs s.2 = 0 then none
          else some (Function.update s.1 i (sumf s.1 i s.2 / eqs s.2), s.2 - (m + 1)))
        (c', ii)).map Prod.fst := by
  intro l
  induction l with
  | nil =>
    intro _ c c' ii h
    have : c = c' := funext (fun idx => h idx (List.not_mem_nil _))
    rw [this]
  | cons i rest ih =>
    intro hp c c' ii h
    rw [List.pairwise_cons] at hp
    simp only [List.foldlM_cons]
    by_cases hz : eqs ii = 0
    · simp [hz]
    · have hs : sumf c i ii = sumf c' i ii := by
        apply hsum
        intro k hk
        apply h
        intro hmem
        rcases List.mem_cons.1 hmem with e | e
        · omega
        · have := hp.1 k e
          omega
      simp only [hz, if_false, Option.some_bind, hs]
      apply ih hp.2
      intro idx hidx
      by_cases he : idx = i
      · rw [he, Function.update_same, Function.update_same]
      · rw [Function.update_noteq he, Function.update_noteq he]
        apply h
        intro hmem
        rcases List.mem_cons.1 hmem with e | e
        · exact he e
        · exact hidx e

/-- Such a loop changes only the entries at the places it visits. -/
theorem solveDown_frame (m : Int) (eqs : Int → K) (sumf : (Int → K) → Int → Int → K) :
    ∀ (l : List Int) (c : Int → K) (ii : Int) (r : (Int → K) × Int),
      l.foldlM (fun (s : (Int → K) × Int) i =>
          if eqs s.2 = 0 then none
          else some (Function.update s.1 i (sumf s.1 i s.2 / eqs s.2), s.2 - (m + 1)))
        (c, ii) = some r →
      ∀ idx, idx ∉ l → r.1 idx = c idx := by
  intro l
  induction l with
  | nil =>
    intro c ii r h idx _
    simp only [List.foldlM_nil] at h
    cases h
    rfl
  | cons i rest ih =>
    intro c ii r h idx hidx
    simp only [List.foldlM_cons] at h
    by_cases hz : eqs ii = 0
    · simp [hz] at h
    · simp only [hz, if_false, Option.some_bind] at h
      rw [ih _ _ r h idx (fun e => hidx (List.mem_cons_of_mem _ e))]
      apply Function.update_noteq
      intro e
      exact hidx (e ▸ List.mem_cons_self _ _)

/-- Whether such a loop ends in a division by zero depends on the divisors
only. -/
theorem solveDown_isSome (m : Int) (eqs : Int → K) (sumf sumf' : (Int → K) → Int → Int → K) :
    ∀ (l : List Int) (c c' : Int → K) (ii : Int),
      (l.foldlM (fun (s : (Int → K) × Int) i =>
          if eqs s.2 = 0 then none
          else some (Function.update s.1 i (sumf s.1 i s.2 / eqs s.2), s.2 - (m + 1)))
        (c, ii)).isSome
      = (l.foldlM (fun (s : (Int → K) × Int) i =>
          if eqs s.2 = 0 then none
          else some (Function.update s.1 i (sumf' s.1 i s.2 / eqs s.2), s.2 - (m + 1)))
        (c', ii)).isSome := by
  intro l
  induction l with
  | nil => intro c c' ii; rfl
  | cons i rest ih =>
    intro c c' ii
    simp only [List.foldlM_cons]
    by_cases hz : eqs ii = 0
    · simp [hz]
    · simp only [hz, if_false, Option.some_bind]
      apply ih

/-- The coefficients the back-substitution leaves do not depend on the
coefficients held before at the places `0 .. numVars-1`. -/
theorem backSubstitute_congr (m : Int) (eqs dp c c' : Int → K)
    (h : ∀ idx, ¬ (0 ≤ idx ∧ idx < m) → c idx = c' idx) :
    backSubstitute m eqs dp c = backSubstitute m eqs dp c' := by
  unfold backSubstitute forDownM
  refine solveDown_congr m eqs
    (fun coeffs i ii => (forLoop (i + 1) m (fun k (p : K × Int) =>
      (p.1 - eqs p.2 * coeffs k, p.2 + 1)) (dp i, ii + 1)).1) ?_
    (intRange 0 (m - 1 + 1)).reverse ?_ c c' (m * m - 1) ?_
  · intro c c' i ii hk
    show (forLoop (i + 1) m (fun k (p : K × Int) =>
        (p.1 - eqs p.2 * c k, p.2 + 1)) (dp i, ii + 1)).1
      = (forLoop (i + 1) m (fun k (p : K × Int) =>
        (p.1 - eqs p.2 * c' k, p.2 + 1)) (dp i, ii + 1)).1
    rw [forLoop_congr (i + 1) m _ (fun k (p : K × Int) => (p.1 - eqs p.2 * c' k, p.2 + 1))]
    intro k p hk1 _
    rw [hk k (by omega)]
  · rw [List.pairwise_reverse]
    exact intRange_pairwise _ _
  · intro idx hidx
    apply h
    intro hin
    apply hidx
    rw [List.mem_reverse, mem_intRange]
    omega

/-- The back-substitution changes only the coefficients `0 .. numVars-1`. -/
theorem backSubstitute_frame (m : Int) (eqs dp c r : Int → K)
    (h : backSubstitute m eqs dp c = some r) :
    ∀ idx, ¬ (0 ≤ idx ∧ idx < m) → r idx = c idx := by
  unfold backSubstitute forDownM at h
  intro idx hidx
  cases hf : (intRange 0 (m - 1 + 1)).reverse.foldlM (fun (s : (Int → K) × Int) i =>
      if eqs s.2 = 0 then none
      else some (Function.update s.1 i
        ((forLoop (i + 1) m (fun k (p : K × Int) =>
          (p.1 - eqs p.2 * s.1 k, p.2 + 1)) (dp i, s.2 + 1)).1 / eqs s.2), s.2 - (m + 1)))
      (c, m * m - 1) with
  | none =>
    exact absurd (show (none : Option ((Int → K) × Int)).map Prod.fst = some r from hf ▸ h)
      (by simp)
  | some t =>
    have ht : t.1 = r := by
      have := (show (some t : Option ((Int → K) × Int)).map Prod.fst = some r from hf ▸ h)
      simpa using this
    rw [← ht]
    refine solveDown_frame m eqs
      (fun coeffs i ii => (forLoop (i + 1) m (fun k (p : K × Int) =>
        (p.1 - eqs p.2 * coeffs k, p.2 + 1)) (dp i, ii + 1)).1) _ c (m * m - 1) t hf idx ?_
    rw [List.mem_reverse, mem_intRange]
    intro hin
    exact hidx ⟨hin.1, by omega⟩

/-- Whether the back-substitution has a result depends on the equations only. -/
theorem backSubstitute_isSome (m : Int) (eqs dp dp' c c' : Int → K) :
    (backSubstitute m eqs dp c).isSome = (backSubstitute m eqs dp' c').isSome := by
  unfold backSubstitute forDownM
  rw [Option.isSome_map', Option.isSome_map']
  exact solveDown_isSome m eqs
    (fun coeffs i ii => (forLoop (i + 1) m (fun k (p : K × Int) =>
      (p.1 - eqs p.2 * coeffs k, p.2 + 1)) (dp i, ii + 1)).1)
    (fun coeffs i ii => (forLoop (i + 1) m (fun k (p : K × Int) =>
      (p.1 - eqs p.2 * coeffs k, p.2 + 1)) (dp' i, ii + 1)).1)
    _ c c' (m * m - 1)

/-- The members `recalcForOrigin` leaves alone. -/
theorem recalc_frame (k k' : SavGolKernel K) (origin : QPoint)
    (h : k.recalcForOrigin origin = some k') :
    k'.m_equations = k.m_equations ∧ k'.m_rotations = k.m_rotations ∧
    k'.m_order = k.m_order ∧ k'.m_width = k.m_width ∧ k'.m_height = k.m_height ∧
    k'.m_numVars = k.m_numVars ∧ k'.m_numDataPoints = k.m_numDataPoints := by
  unfold SavGolKernel.recalcForOrigin at h
  simp only [Option.map_eq_some'] at h
  obtain ⟨c, _, rfl⟩ := h
  exact ⟨rfl, rfl, rfl, rfl, rfl, rfl, rfl⟩

/-- After a `recalcForOrigin`, the next one leaves what it would have left
without the first. -/
theorem recalc_forgets (k k1 : SavGolKernel K) (o' o : QPoint)
    (h : k.recalcForOrigin o' = some k1) :
    k1.recalcForOrigin o = k.recalcForOrigin o := by
  unfold SavGolKernel.recalcForOrigin at h
  simp only [Option.map_eq_some'] at h
  obtain ⟨c1, hc1, rfl⟩ := h
  unfold SavGolKernel.recalcForOrigin
  simp only
  rw [backSubstitute_congr k.m_numVars k.m_equations _ c1 k.m_coeffs
    (backSubstitute_frame _ _ _ _ _ hc1)]
  cases backSubstitute k.m_numVars k.m_equations
      (rotateDataPoints k.m_numVars k.m_numDataPoints
        (Function.update (fun _ => 0) (o.y * k.m_width + o.x) 1) k.m_rotations).1
      k.m_coeffs with
  | none => rfl
  | some c =>
    simp only [Option.map_some', Option.some.injEq]
    rw [expandKernel_overwrites]

/-- Whether `recalcForOrigin` has a result does not depend on the origin. -/
theorem recalc_isSome (k : SavGolKernel K) (o' o : QPoint) :
    (k.recalcForOrigin o).isSome = (k.recalcForOrigin o').isSome := by
  unfold SavGolKernel.recalcForOrigin
  simp only [Option.isSome_map']
  exact backSubstitute_isSome _ _ _ _ _ _

/-- A kernel the constructor made for one origin and a kernel it makes for
another differ by a `recalcForOrigin`. -/
theorem new_recalc (ndebug : Bool) (sqrt : K → K) (order : Int) (size : QSize)
    (o0 o : QPoint) (k : SavGolKernel K)
    (h : SavGolKernel.new ndebug sqrt order size o0 = some k) :
    SavGolKernel.new ndebug sqrt order size o = k.recalcForOrigin o := by
  unfold SavGolKernel.new at h ⊢
  by_cases hc : (ndebug || ctorAsserts order size) = true
  · rw [if_pos hc] at h ⊢
    unfold SavGolKernel.build at h ⊢
    simp only at h ⊢
    cases hq : SavGolKernel.QR sqrt
        { m_equations := (prepareEquations order size.width size.height).1
          m_dataPoints := fun _ => 0
          m_coeffs := fun _ => 0
          m_rotations := []
          m_kernel := fun _ => 0
          m_order := order
          m_width := size.width
          m_height := size.height
          m_numVars := (order + 1) * (order + 1)
          m_numDataPoints := size.width * size.height } with
    | none => rw [hq] at h; cases h
    | some kq =>
      rw [hq] at h
      simp only [Option.some_bind] at h ⊢
      exact (recalc_forgets kq k o0 o h).symm
  · rw [if_neg hc] at h
    cases h

end Recalc

/-! ## When `QR` and the back-substitution have a result -/

section Success

variable {K : Type} [LinearOrderedField K]

theorem radius_ne_zero (sqrt : K → K) (hsq : ∀ x : K, 0 ≤ x → sqrt x * sqrt x = x) (a b : K)
    (h : a ≠ 0 ∨ b ≠ 0) : sqrt (a * a + b * b) ≠ 0 := by
  have hpos : 0 < a * a + b * b := by
    rcases h with h | h
    · exact add_pos_of_pos_of_nonneg (mul_self_pos.2 h) (mul_self_nonneg _)
    · exact add_pos_of_nonneg_of_pos (mul_self_nonneg _) (mul_self_pos.2 h)
  intro h0
  have := hsq _ (le_of_lt hpos)
  rw [h0, zero_mul] at this
  exact absurd this (ne_of_lt hpos)

theorem givensStep_some (sqrt : K → K) (m j jj : Int) (E : Int → K)
    (rots : List (Rotation K)) (ij : Int)
    (hrad : sqrt (E jj * E jj + E ij * E ij) ≠ 0) :
    ∃ t, givensStep sqrt m j jj ((E, rots), ij) = some t := by
  simp only [givensStep, if_neg hrad]
  exact ⟨_, rfl⟩

/-- The passes of the `i` loop of `QR` for the column `j`: they all have a
result when the first of them does not meet a zero pair. -/
theorem QR_column_total (sqrt : K → K) (hsq : ∀ x : K, 0 ≤ x → sqrt x * sqrt x = x)
    (m n : Int) (A : Int → K) (j : Int) (hj : 0 ≤ j) (hjm : j < m)
    (E : Int → K) (rots : List (Rotation K)) (hinv : QRInv m n A j (j + 1) E rots)
    (hd : ∀ j', 0 ≤ j' → j' < j → j' + 1 < n → E (j' * m + j') ≠ 0)
    (hfirst : ∀ (E' : Int → K) (rots' : List (Rotation K)), j + 1 < n →
      QRInv m n A j (j + 1) E' rots' → E' (j * m + j) ≠ 0 ∨ E' ((j + 1) * m + j) ≠ 0) :
    ∃ u, forLoopM (j + 1) n (fun _ t => givensStep sqrt m j (j * m + j) t)
        ((E, rots), j * m + j + m) = some u ∧
      QRInv m n A j (max n (j + 1)) u.1.1 u.1.2 ∧
      (∀ j', 0 ≤ j' → j' < j → j' + 1 < n → u.1.1 (j' * m + j') ≠ 0) ∧
      (j + 1 < n → u.1.1 (j * m + j) ≠ 0) := by
  rcases le_or_lt n (j + 1) with hle | hlt
  · refine ⟨_, forLoopM_of_le hle _ _, ?_, hd, fun h => by omega⟩
    rw [max_eq_right hle]
    exact hinv
  · rw [max_eq_left (le_of_lt hlt)]
    obtain ⟨u, hu, _, h2, h3, h4⟩ := forLoopM_total
      (fun i (t : ((Int → K) × List (Rotation K)) × Int) =>
        t.2 = i * m + j ∧ QRInv m n A j i t.1.1 t.1.2 ∧
        (∀ j', 0 ≤ j' → j' < j → j' + 1 < n → t.1.1 (j' * m + j') ≠ 0) ∧
        (j + 1 < i → t.1.1 (j * m + j) ≠ 0))
      (le_of_lt hlt) (fun _ t => givensStep sqrt m j (j * m + j) t)
      ((E, rots), j * m + j + m) ⟨by ring, hinv, hd, fun h => by omega⟩
      (by
        rintro i ⟨⟨E', rots'⟩, ij⟩ hi1 hi2 ⟨hij, hinv', hd', hpiv⟩
        simp only at hij hinv' hd' hpiv
        subst hij
        have hpair : E' (j * m + j) ≠ 0 ∨ E' (i * m + j) ≠ 0 := by
          rcases eq_or_lt_of_le hi1 with e | e
          · subst e
            exact hfirst E' rots' hi2 hinv'
          · exact Or.inl (hpiv e)
        obtain ⟨t, ht⟩ := givensStep_some sqrt m j (j * m + j) E' rots' (i * m + j)
          (radius_ne_zero sqrt hsq _ _ hpair)
        obtain ⟨t2, tinv⟩ := givensStep_inv sqrt hsq m n A j i hj hjm hi1 hi2 E' rots' hinv' t ht
        obtain ⟨tr, _, _, _, _, hzero⟩ := hinv'
        have hz : ∀ k, 0 ≤ k → k < j → E' (j * m + k) = 0 ∧ E' (i * m + k) = 0 := by
          intro k hk1 hk2
          exact ⟨hzero k j hk1 (by omega) hk2 (by omega) (Or.inl hk2),
            hzero k i hk1 (by omega) (by omega) hi2 (Or.inl hk2)⟩
        obtain ⟨cos, sin, _, hrad, _, _, hjj, _, hcol⟩ :=
          givensStep_spec sqrt hsq m j i hj hjm (by omega) E' rots' hz t ht
        refine ⟨t, ht, t2, tinv, ?_, ?_⟩
        · intro j' h1 h2 h3
          rw [hcol j' h1 (by omega) j', rotVec_apply _ _ _ _ _ _ (by omega : j ≠ i),
            if_neg (by omega), if_neg (by omega)]
          exact hd' j' h1 h2 h3
        · intro _
          rw [hjj]
          exact hrad)
    exact ⟨u, hu, h2, h3, fun h => h4 h⟩


/-- The loops of `QR` have a result when no column starts with a zero pair;
the diagonal entries it has used as pivots are then not zero. -/
theorem QRloops_total (sqrt : K → K) (hsq : ∀ x : K, 0 ≤ x → sqrt x * sqrt x = x)
    (m n : Int) (hm : 0 ≤ m) (A : Int → K)
    (hfirst : ∀ (j : Int) (E : Int → K) (rots : List (Rotation K)), 0 ≤ j → j < m →
      j + 1 < n → QRInv m n A j (j + 1) E rots →
      E (j * m + j) ≠ 0 ∨ E ((j + 1) * m + j) ≠ 0) :
    ∃ res, QRloops sqrt m n A = some res ∧ QRInv m n A m (m + 1) res.1 res.2 ∧
      ∀ j, 0 ≤ j → j < m → j + 1 < n → res.1 (j * m + j) ≠ 0 := by
  unfold QRloops
  obtain ⟨fin, hfin, _, hP2, hP3⟩ := forLoopM_total
    (fun j (t : ((Int → K) × List (Rotation K)) × Int) =>
      t.2 = j * m + j ∧ QRInv m n A j (j + 1) t.1.1 t.1.2 ∧
      ∀ j', 0 ≤ j' → j' < j → j' + 1 < n → t.1.1 (j' * m + j') ≠ 0) hm
    (fun j (s : ((Int → K) × List (Rotation K)) × Int) =>
      let jj := s.2
      let ij := jj + m
      (forLoopM (j + 1) n (fun _ t => givensStep sqrt m j jj t) (s.1, ij)).map
        (fun t => (t.1, jj + (m + 1))))
    ((A, []), 0)
    (by
      refine ⟨by ring, ⟨[], rfl, ?_, ?_, ?_, ?_⟩, ?_⟩
      · simp [pairsBefore, intRange_of_le]
      · intro p hp
        cases hp
      · intro k _ _ r
        rfl
      · intro k r h1 _ h3 _ h5
        omega
      · intro j' h1 h2 _
        omega)
    (by
      rintro j ⟨⟨E, rots⟩, jj⟩ hj1 hj2 ⟨hjj, hinv, hd⟩
      simp only at hjj hinv hd
      subst hjj
      obtain ⟨u, hu, ⟨tr, hr, hp, hv, hc, hzero⟩, hd', hpiv⟩ :=
        QR_column_total sqrt hsq m n A j hj1 hj2 E rots hinv hd
          (fun E' rots' hjn hinv' => hfirst j E' rots' hj1 hj2 hjn hinv')
      refine ⟨(u.1, j * m + j + (m + 1)), ?_, by ring, ⟨tr, hr, ?_, hv, hc, ?_⟩, ?_⟩
      · simp only [hu, Option.map_some']
      · rw [hp, pairsBefore_next_col n j hj1]
      · intro k r h1 h2 h3 h4 h5
        apply hzero k r h1 h2 h3 h4
        rcases h5 with h5 | h5
        · rcases eq_or_lt_of_le (show k ≤ j by omega) with e | e
          · exact Or.inr ⟨e, lt_of_lt_of_le h4 (le_max_left _ _)⟩
          · exact Or.inl e
        · omega
      · intro j' h1 h2 h3
        rcases eq_or_lt_of_le (show j' ≤ j by omega) with e | e
        · subst e
          exact hpiv h3
        · exact hd' j' h1 e h3)
  exact ⟨fin.1, by rw [hfin]; rfl, hP2, hP3⟩

/-- A descending substitution loop has a result when none of the divisors it
meets is zero. -/
theorem solveDown_total (m : Int) (eqs : Int → K) (sumf : (Int → K) → Int → Int → K) :
    ∀ (l : List Int) (c : Int → K) (ii : Int),
      (∀ t : Nat, t < l.length → eqs (ii - (t : Int) * (m + 1)) ≠ 0) →
      (l.foldlM (fun (s : (Int → K) × Int) i =>
          if eqs s.2 = 0 then none
          else some (Function.update s.1 i (sumf s.1 i s.2 / eqs s.2), s.2 - (m + 1)))
        (c, ii)).isSome = true := by
  intro l
  induction l with
  | nil => intro c ii _; rfl
  | cons i rest ih =>
    intro c ii h
    have h0 : eqs ii ≠ 0 := by
      have := h 0 (by simp)
      simpa using this
    simp only [List.foldlM_cons, if_neg h0, Option.some_bind]
    apply ih
    intro t ht
    have := h (t + 1) (by simp only [List.length_cons]; omega)
    have e : ii - ((t + 1 : Nat) : Int) * (m + 1) = ii - (m + 1) - (t : Int) * (m + 1) := by
      push_cast
      ring
    rw [e] at this
    exact this

/-- The back-substitution has a result when no diagonal entry is zero. -/
theorem backSubstitute_total (m : Int) (hm : 0 ≤ m) (eqs dp c : Int → K)
    (hd : ∀ i, 0 ≤ i → i < m → eqs (i * m + i) ≠ 0) :
    ∃ r, backSubstitute m eqs dp c = some r := by
  apply Option.isSome_iff_exists.1
  unfold backSubstitute forDownM
  rw [Option.isSome_map']
  apply solveDown_total m eqs (fun coeffs i ii => (forLoop (i + 1) m (fun k (p : K × Int) =>
      (p.1 - eqs p.2 * coeffs k, p.2 + 1)) (dp i, ii + 1)).1)
  intro t ht
  have hlen : (t : Int) < m := by
    simp only [List.length_reverse, intRange, List.length_map, List.length_range] at ht
    omega
  have e : m * m - 1 - (t : Int) * (m + 1) = (m - 1 - t) * m + (m - 1 - t) := by ring
  rw [e]
  exact hd _ (by omega) (by omega)

/-- `recalcForOrigin` has a result when no diagonal entry of the factor is zero. -/
theorem recalc_total (k : SavGolKernel K) (hm : 0 ≤ k.m_numVars)
    (hd : ∀ i, 0 ≤ i → i < k.m_numVars → k.m_equations (i * k.m_numVars + i) ≠ 0)
    (origin : QPoint) : ∃ k', k.recalcForOrigin origin = some k' := by
  unfold SavGolKernel.recalcForOrigin
  simp only
  obtain ⟨c, hc⟩ := backSubstitute_total k.m_numVars hm k.m_equations
    (rotateDataPoints k.m_numVars k.m_numDataPoints
      (Function.update (fun _ => 0) (origin.y * k.m_width + origin.x) 1) k.m_rotations).1
    k.m_coeffs hd
  rw [hc]
  exact ⟨_, rfl⟩

end Success

/-! ## Windows at least `order + 3` wide -/

section WideWindow

variable {K : Type} [LinearOrderedField K]

/-- For an order `>= 1` and a window at least `order + 3` wide, the column `y`
of the equations (index `order + 1`) equals the column `1` on the rows of the
first line of the window.  The rotations of the columns before it keep the two
columns equal on those rows below the pivot, where the column `1` is
eliminated: the column `order + 1` starts with the pair `(0, 0)`, the radius is
`sqrt(0*0 + 0*0) = 0`, and `QR` has no result. -/
theorem QRloops_wide_window (sqrt : K → K) (hsq : ∀ x : K, 0 ≤ x → sqrt x * sqrt x = x)
    (order w h : Int) (ho : 1 ≤ order) (hw : order + 3 ≤ w) (hh : 1 ≤ h) :
    QRloops sqrt ((order + 1) * (order + 1)) (w * h) (prepareEquations (K := K) order w h).1
      = none := by
  have hs0 : sqrt 0 = 0 := mul_self_eq_zero.1 (hsq 0 (le_refl 0))
  have hcols0 : ∀ r, 0 ≤ r → r < w →
      (prepareEquations (K := K) order w h).1 (r * ((order + 1) * (order + 1)) + (order + 1))
        = (prepareEquations (K := K) order w h).1 (r * ((order + 1) * (order + 1)) + 0) := by
    intro r h1 h2
    have hrn : r < w * h := by nlinarith
    have e0 := prepareEquations_entry (K := K) order w h (by omega) (by omega) (by omega)
      r h1 hrn 0 0 (le_refl 0) (by omega) (le_refl 0) (by omega)
    have e1 := prepareEquations_entry (K := K) order w h (by omega) (by omega) (by omega)
      r h1 hrn 1 0 (by norm_num) ho (le_refl 0) (by omega)
    have hdiv : r / w = 0 := Int.ediv_eq_zero_of_lt h1 h2
    simp only [zero_mul, add_zero, one_mul, Int.toNat_zero, pow_zero, mul_one, hdiv, zero_add,
      Int.toNat_one, pow_one, Int.cast_one] at e0 e1
    rw [add_zero, e0, e1]
  obtain ⟨m, hm⟩ : ∃ m, m = (order + 1) * (order + 1) := ⟨_, rfl⟩
  obtain ⟨n, hn⟩ : ∃ n, n = w * h := ⟨_, rfl⟩
  obtain ⟨c, hc⟩ : ∃ c, c = order + 1 := ⟨_, rfl⟩
  rw [← hm, ← hc] at hcols0
  rw [← hm, ← hn]
  have hcm : c < m := by rw [hm, hc]; nlinarith
  have hwn : w ≤ n := by rw [hn]; nlinarith
  generalize (prepareEquations (K := K) order w h).1 = A at hcols0 ⊢
  unfold QRloops
  rw [forLoopM_none (fun j (t : ((Int → K) × List (Rotation K)) × Int) =>
      j ≤ c ∧ t.2 = j * m + j ∧ QRInv m n A j (j + 1) t.1.1 t.1.2 ∧
      ∀ r, j ≤ r → r < w → t.1.1 (r * m + c) = t.1.1 (r * m + 0))
    (show (0 : Int) ≤ m by omega) _ _ ?init ?step ?hend]
  · rfl
  case init =>
    refine ⟨by omega, by ring, ⟨[], rfl, ?_, ?_, ?_, ?_⟩, fun r h1 h2 => hcols0 r h1 h2⟩
    · simp [pairsBefore, intRange_of_le]
    · intro p hp
      cases hp
    · intro k _ _ r
      rfl
    · intro k r h1 _ h3 _ h5
      omega
  case hend =>
    rintro r ⟨h1, _⟩
    omega
  case step =>
    rintro j ⟨⟨E, rots⟩, jj⟩ t' hj1 hj2 ⟨hjc, hjj, hinv, hrows⟩ hbody
    simp only at hjj hinv hrows hbody
    subst hjj
    rcases eq_or_lt_of_le hjc with e | e
    · -- the column `order + 1`: the first pass meets the pair (0, 0)
      exfalso
      subst e
      obtain ⟨_, _, _, _, _, hzero⟩ := hinv
      have za : E (j * m + j) = 0 := by
        rw [hrows j (le_refl j) (by omega)]
        exact hzero 0 j (le_refl 0) (by omega) (by omega) (by omega) (Or.inl (by omega))
      have zb : E (j * m + j + m) = 0 := by
        rw [show j * m + j + m = (j + 1) * m + j by ring, hrows (j + 1) (by omega) (by omega)]
        exact hzero 0 (j + 1) (le_refl 0) (by omega) (by omega) (by omega) (Or.inl (by omega))
      unfold forLoopM at hbody
      rw [intRange_cons (show j + 1 < n by omega)] at hbody
      simp only [List.foldlM_cons, givensStep, za, zb, mul_zero, add_zero, hs0, if_true,
        Option.none_bind, Option.map_none', Option.bind_eq_bind] at hbody
      cases hbody
    · cases hy : forLoopM (j + 1) n (fun _ t => givensStep sqrt m j (j * m + j) t)
          ((E, rots), j * m + j + m) with
      | none => rw [hy] at hbody; cases hbody
      | some u =>
        rw [hy] at hbody
        simp only [Option.map_some', Option.some.injEq] at hbody
        subst hbody
        have key := forLoopM_inv (fun i (t : ((Int → K) × List (Rotation K)) × Int) =>
            t.2 = i * m + j ∧ QRInv m n A j i t.1.1 t.1.2 ∧
            (∀ r, j < r → r < w → t.1.1 (r * m + c) = t.1.1 (r * m + 0)) ∧
            (i ≤ w → t.1.1 (j * m + c) = t.1.1 (j * m + 0)))
          (show j + 1 ≤ n by omega) (fun _ t => givensStep sqrt m j (j * m + j) t)
          ((E, rots), j * m + j + m)
          ⟨by ring, hinv, fun r h1 h2 => hrows r (by omega) h2,
            fun _ => hrows j (le_refl j) (by omega)⟩
          (by
            rintro i ⟨⟨E', rots'⟩, ij⟩ t'' hi1 hi2 ⟨hij, hinv', hr', hrj⟩ hstep
            simp only at hij hinv' hr' hrj hstep
            subst hij
            obtain ⟨t2, tinv⟩ := givensStep_inv sqrt hsq m n A j i hj1 hj2 hi1 hi2 E' rots'
              hinv' t'' hstep
            obtain ⟨_, _, _, _, _, hzero⟩ := hinv'
            have hz : ∀ k, 0 ≤ k → k < j → E' (j * m + k) = 0 ∧ E' (i * m + k) = 0 := by
              intro k hk1 hk2
              exact ⟨hzero k j hk1 (by omega) hk2 (by omega) (Or.inl hk2),
                hzero k i hk1 (by omega) (by omega) hi2 (Or.inl hk2)⟩
            obtain ⟨cos, sin, _, _, _, _, _, _, hcol⟩ :=
              givensStep_spec sqrt hsq m j i hj1 hj2 (by omega) E' rots' hz t'' hstep
            refine ⟨t2, tinv, ?_, ?_⟩
            · intro r h1 h2
              rw [hcol c (by omega) hcm r, hcol 0 (le_refl 0) (by omega) r,
                rotVec_apply _ _ _ _ _ _ (by omega : j ≠ i),
                rotVec_apply _ _ _ _ _ _ (by omega : j ≠ i),
                if_neg (show ¬ r = j by omega), if_neg (show ¬ r = j by omega)]
              by_cases hri : r = i
              · simp only [if_pos hri]
                rw [hr' i (by omega) (by omega), hrj (by omega)]
              · simp only [if_neg hri]
                exact hr' r h1 h2
            · intro hle
              rw [hcol c (by omega) hcm j, hcol 0 (le_refl 0) (by omega) j,
                rotVec_apply _ _ _ _ _ _ (by omega : j ≠ i),
                rotVec_apply _ _ _ _ _ _ (by omega : j ≠ i)]
              simp only [if_true]
              rw [hr' i (by omega) (by omega), hrj (by omega)])
          u hy
        obtain ⟨_, ⟨tr, hr, hp, hv, hcc, hzero⟩, hrows', _⟩ := key
        refine ⟨by omega, by ring, ⟨tr, hr, ?_, hv, hcc, ?_⟩, ?_⟩
        · rw [hp, pairsBefore_next_col n j hj1, max_eq_left (by omega)]
        · intro k r h1 h2 h3 h4 h5
          apply hzero k r h1 h2 h3 h4
          rcases h5 with h5 | h5
          · rcases eq_or_lt_of_le (show k ≤ j by omega) with e' | e'
            · exact Or.inr ⟨e', h4⟩
            · exact Or.inl e'
          · omega
        · intro r h1 h2
          exact hrows' r (by omega) h2

end WideWindow

/-! ## The window 2x2 with order 1 -/

section Window2x2

variable {K : Type} [LinearOrderedField K]

theorem dot_four (u v : Int → K) :
    dot 4 u v = u 0 * v 0 + u 1 * v 1 + u 2 * v 2 + u 3 * v 3 := by
  unfold dot
  rw [show (4 : Int) = 0 + 1 + 1 + 1 + 1 by norm_num, sum_Ico_succ _ (by norm_num),
    sum_Ico_succ _ (by norm_num), sum_Ico_succ _ (by norm_num), sum_Ico_succ _ (by norm_num),
    sum_Ico_of_le _ (le_refl 0)]
  norm_num

/-- The scalar products of the columns are the same before and after the
rotations recorded so far. -/
theorem QRInv_gram (m n : Int) (A : Int → K) (j i : Int) (E : Int → K)
    (rots : List (Rotation K)) (hinv : QRInv m n A j i E rots) (a b : Int)
    (ha1 : 0 ≤ a) (ha2 : a < m) (hb1 : 0 ≤ b) (hb2 : b < m) :
    dot n (fun r => E (r * m + a)) (fun r => E (r * m + b))
      = dot n (fun r => A (r * m + a)) (fun r => A (r * m + b)) := by
  obtain ⟨tr, _, _, hv, hc, _⟩ := hinv
  rw [← dot_applyRots n tr hv (fun r => A (r * m + a)) (fun r => A (r * m + b))]
  congr 1
  · funext r
    exact hc a ha1 ha2 r
  · funext r
    exact hc b hb1 hb2 r

/-- The equations of the window 2x2 with order 1: the row of the window point
`(x, y)` is `1, x, y, x*y`. -/
theorem equations_2x2_order_1 :
    (prepareEquations (K := K) 1 2 2).1 0 = 1 ∧
    (prepareEquations (K := K) 1 2 2).1 1 = 1 ∧
    (prepareEquations (K := K) 1 2 2).1 2 = 1 ∧
    (prepareEquations (K := K) 1 2 2).1 3 = 1 ∧
    (prepareEquations (K := K) 1 2 2).1 4 = 1 ∧
    (prepareEquations (K := K) 1 2 2).1 5 = 2 ∧
    (prepareEquations (K := K) 1 2 2).1 6 = 1 ∧
    (prepareEquations (K := K) 1 2 2).1 7 = 2 ∧
    (prepareEquations (K := K) 1 2 2).1 8 = 1 ∧
    (prepareEquations (K := K) 1 2 2).1 9 = 1 ∧
    (prepareEquations (K := K) 1 2 2).1 10 = 2 ∧
    (prepareEquations (K := K) 1 2 2).1 11 = 2 ∧
    (prepareEquations (K := K) 1 2 2).1 12 = 1 ∧
    (prepareEquations (K := K) 1 2 2).1 13 = 2 ∧
    (prepareEquations (K := K) 1 2 2).1 14 = 2 ∧
    (prepareEquations (K := K) 1 2 2).1 15 = 4 := by
  have a0 := prepareEquations_entry (K := K) 1 2 2 (by norm_num) (by norm_num)
    (by norm_num) 0 (by norm_num) (by norm_num) 0 0 (by norm_num) (by norm_num) (by norm_num)
    (by norm_num)
  have a1 := prepareEquations_entry (K := K) 1 2 2 (by norm_num) (by norm_num)
    (by norm_num) 0 (by norm_num) (by norm_num) 0 1 (by norm_num) (by norm_num) (by norm_num)
    (by norm_num)
  have a2 := prepareEquations_entry (K := K) 1 2 2 (by norm_num) (by norm_num)
    (by norm_num) 0 (by norm_num) (by norm_num) 1 0 (by norm_num) (by norm_num) (by norm_num)
    (by norm_num)
  have a3 := prepareEquations_entry (K := K) 1 2 2 (by norm_num) (by norm_num)
    (by norm_num) 0 (by norm_num) (by norm_num) 1 1 (by norm_num) (by norm_num) (by norm_num)
    (by norm_num)
  have a4 := prepareEquations_entry (K := K) 1 2 2 (by norm_num) (by norm_num)
    (by norm_num) 1 (by norm_num) (by norm_num) 0 0 (by norm_num) (by norm_num) (by norm_num)
    (by norm_num)
  have a5 := prepareEquations_entry (K := K) 1 2 2 (by norm_num) (by norm_num)
    (by norm_num) 1 (by norm_num) (by norm_num) 0 1 (by norm_num) (by norm_num) (by norm_num)
    (by norm_num)
  have a6 := prepareEquations_entry (K := K) 1 2 2 (by norm_num) (by norm_num)
    (by norm_num) 1 (by norm_num) (by norm_num) 1 0 (by norm_num) (by norm_num) (by norm_num)
    (by norm_num)
  have a7 := prepareEquations_entry (K := K) 1 2 2 (by norm_num) (by norm_num)
    (by norm_num) 1 (by norm_num) (by norm_num) 1 1 (by norm_num) (by norm_num) (by norm_num)
    (by norm_num)
  have a8 := prepareEquations_entry (K := K) 1 2 2 (by norm_num) (by norm_num)
    (by norm_num) 2 (by norm_num) (by norm_num) 0 0 (by norm_num) (by norm_num) (by norm_num)
    (by norm_num)
  have a9 := prepareEquations_entry (K := K) 1 2 2 (by norm_num) (by norm_num)
    (by norm_num) 2 (by norm_num) (by norm_num) 0 1 (by norm_num) (by norm_num) (by norm_num)
    (by norm_num)
  have a10 := prepareEquations_entry (K := K) 1 2 2 (by norm_num) (by norm_num)
    (by norm_num) 2 (by norm_num) (by norm_num) 1 0 (by norm_num) (by norm_num) (by norm_num)
    (by norm_num)
  have a11 := prepareEquations_entry (K := K) 1 2 2 (by norm_num) (by norm_num)
    (by norm_num) 2 (by norm_num) (by norm_num) 1 1 (by norm_num) (by norm_num) (by norm_num)
    (by norm_num)
  have a12 := prepareEquations_entry (K := K) 1 2 2 (by norm_num) (by norm_num)
    (by norm_num) 3 (by norm_num) (by norm_num) 0 0 (by norm_num) (by norm_num) (by norm_num)
    (by norm_num)
  have a13 := prepareEquations_entry (K := K) 1 2 2 (by norm_num) (by norm_num)
    (by norm_num) 3 (by norm_num) (by norm_num) 0 1 (by norm_num) (by norm_num) (by norm_num)
    (by norm_num)
  have a14 := prepareEquations_entry (K := K) 1 2 2 (by norm_num) (by norm_num)
    (by norm_num) 3 (by norm_num) (by norm_num) 1 0 (by norm_num) (by norm_num) (by norm_num)
    (by norm_num)
  have a15 := prepareEquations_entry (K := K) 1 2 2 (by norm_num) (by norm_num)
    (by norm_num) 3 (by norm_num) (by norm_num) 1 1 (by norm_num) (by norm_num) (by norm_num)
    (by norm_num)
  norm_num at a0 a1 a2 a3 a4 a5 a6 a7 a8 a9 a10 a11 a12 a13 a14 a15
  exact ⟨a0, a1, a2, a3, a4, a5, a6, a7, a8, a9, a10, a11, a12, a13, a14, a15⟩

/-- The scalar products of the columns of a matrix obtained by rotations from
the equations of the window 2x2 with order 1. -/
theorem gram_2x2_order_1 (j i : Int) (E : Int → K) (rots : List (Rotation K))
    (hinv : QRInv 4 4 (prepareEquations (K := K) 1 2 2).1 j i E rots) :
    E 0 * E 0 + E 4 * E 4 + E 8 * E 8 + E 12 * E 12 = 4 ∧
    E 0 * E 1 + E 4 * E 5 + E 8 * E 9 + E 12 * E 13 = 6 ∧
    E 0 * E 2 + E 4 * E 6 + E 8 * E 10 + E 12 * E 14 = 6 ∧
    E 0 * E 3 + E 4 * E 7 + E 8 * E 11 + E 12 * E 15 = 9 ∧
    E 1 * E 1 + E 5 * E 5 + E 9 * E 9 + E 13 * E 13 = 10 ∧
    E 1 * E 2 + E 5 * E 6 + E 9 * E 10 + E 13 * E 14 = 9 ∧
    E 1 * E 3 + E 5 * E 7 + E 9 * E 11 + E 13 * E 15 = 15 ∧
    E 2 * E 2 + E 6 * E 6 + E 10 * E 10 + E 14 * E 14 = 10 ∧
    E 2 * E 3 + E 6 * E 7 + E 10 * E 11 + E 14 * E 15 = 15 ∧
    E 3 * E 3 + E 7 * E 7 + E 11 * E 11 + E 15 * E 15 = 25 := by
  obtain ⟨a0, a1, a2, a3, a4, a5, a6, a7, a8, a9, a10, a11, a12, a13, a14, a15⟩ := equations_2x2_order_1 (K := K)
  have g00 := QRInv_gram 4 4 _ j i E rots hinv 0 0 (by norm_num) (by norm_num)
    (by norm_num) (by norm_num)
  rw [dot_four, dot_four] at g00
  norm_num [a0, a1, a2, a3, a4, a5, a6, a7, a8, a9, a10, a11, a12, a13, a14, a15] at g00
  have g01 := QRInv_gram 4 4 _ j i E rots hinv 0 1 (by norm_num) (by norm_num)
    (by norm_num) (by norm_num)
  rw [dot_four, dot_four] at g01
  norm_num [a0, a1, a2, a3, a4, a5, a6, a7, a8, a9, a10, a11, a12, a13, a14, a15] at g01
  have g02 := QRInv_gram 4 4 _ j i E rots hinv 0 2 (by norm_num) (by norm_num)
    (by norm_num) (by norm_num)
  rw [dot_four, dot_four] at g02
  norm_num [a0, a1, a2, a3, a4, a5, a6, a7, a8, a9, a10, a11, a12, a13, a14, a15] at g02
  have g03 := QRInv_gram 4 4 _ j i E rots hinv 0 3 (by norm_num) (by norm_num)
    (by norm_num) (by norm_num)
  rw [dot_four, dot_four] at g03
  norm_num [a0, a1, a2, a3, a4, a5, a6, a7, a8, a9, a10, a11, a12, a13, a14, a15] at g03
  have g11 := QRInv_gram 4 4 _ j i E rots hinv 1 1 (by norm_num) (by norm_num)
    (by norm_num) (by norm_num)
  rw [dot_four, dot_four] at g11
  norm_num [a0, a1, a2, a3, a4, a5, a6, a7, a8, a9, a10, a11, a12, a13, a14, a15] at g11
  have g12 := QRInv_gram 4 4 _ j i E rots hinv 1 2 (by norm_num) (by norm_num)
    (by norm_num) (by norm_num)
  rw [dot_four, dot_four] at g12
  norm_num [a0, a1, a2, a3, a4, a5, a6, a7, a8, a9, a10, a11, a12, a13, a14, a15] at g12
  have g13 := QRInv_gram 4 4 _ j i E rots hinv 1 3 (by norm_num) (by norm_num)
    (by norm_num) (by norm_num)
  rw [dot_four, dot_four] at g13
  norm_num [a0, a1, a2, a3, a4, a5, a6, a7, a8, a9, a10, a11, a12, a13, a14, a15] at g13
  have g22 := QRInv_gram 4 4 _ j i E rots hinv 2 2 (by norm_num) (by norm_num)
    (by norm_num) (by norm_num)
  rw [dot_four, dot_four] at g22
  norm_num [a0, a1, a2, a3, a4, a5, a6, a7, a8, a9, a10, a11, a12, a13, a14, a15] at g22
  have g23 := QRInv_gram 4 4 _ j i E rots hinv 2 3 (by norm_num) (by norm_num)
    (by norm_num) (by norm_num)
  rw [dot_four, dot_four] at g23
  norm_num [a0, a1, a2, a3, a4, a5, a6, a7, a8, a9, a10, a11, a12, a13, a14, a15] at g23
  have g33 := QRInv_gram 4 4 _ j i E rots hinv 3 3 (by norm_num) (by norm_num)
    (by norm_num) (by norm_num)
  rw [dot_four, dot_four] at g33
  norm_num [a0, a1, a2, a3, a4, a5, a6, a7, a8, a9, a10, a11, a12, a13, a14, a15] at g33
  exact ⟨g00, g01, g02, g03, g11, g12, g13, g22, g23, g33⟩

theorem map_fst_three {α β : Type} (tr : List (α × β)) (a b c : α)
    (h : tr.map Prod.fst = [a, b, c]) : ∃ x y z, tr = [(a, x), (b, y), (c, z)] := by
  rcases tr with _ | ⟨p1, _ | ⟨p2, _ | ⟨p3, _ | ⟨p4, tl⟩⟩⟩⟩ <;>
    simp only [List.map_cons, List.map_nil, List.cons.injEq, and_true, reduceCtorEq,
      and_false] at h
  obtain ⟨rfl, rfl, rfl⟩ := h
  exact ⟨p1.2, p2.2, p3.2, rfl⟩

theorem pairsBefore_4_0_1 : pairsBefore 4 0 1 = [] := by decide

theorem pairsBefore_4_1_2 : pairsBefore 4 1 2 = [(0, 1), (0, 2), (0, 3)] := by decide

/-- For the window 2x2 with order 1, no column of `QR` starts with a zero
pair. -/
theorem first_pair_2x2_order_1 (j : Int) (E : Int → K) (rots : List (Rotation K))
    (hj1 : 0 ≤ j) (hj2 : j + 1 < 4)
    (hinv : QRInv 4 4 (prepareEquations (K := K) 1 2 2).1 j (j + 1) E rots) :
    E (j * 4 + j) ≠ 0 ∨ E ((j + 1) * 4 + j) ≠ 0 := by
  obtain ⟨a0, a1, _, _, a4, a5, _⟩ := equations_2x2_order_1 (K := K)
  obtain ⟨g00, g01, g02, _, g11, g12, _, g22, _, _⟩ := gram_2x2_order_1 j (j + 1) E rots hinv
  obtain ⟨tr, _, hp, hv, hc, hzero⟩ := hinv
  obtain rfl | rfl | rfl : j = 0 ∨ j = 1 ∨ j = 2 := by omega
  · left
    rw [show (0 : Int) + 1 = 1 by norm_num, pairsBefore_4_0_1, List.map_eq_nil_iff] at hp
    subst hp
    have := hc 0 (by norm_num) (by norm_num) 0
    simp only [applyRots, List.foldl_nil] at this
    rw [this]
    norm_num [a0]
  · left
    rw [show (1 : Int) + 1 = 2 by norm_num, pairsBefore_4_1_2] at hp
    obtain ⟨r1, r2, r3, rfl⟩ := map_fst_three tr _ _ _ hp
    have hcs := (hv ((0, 1), r1) (by simp)).2.2.2
    simp only at hcs
    have row1 : ∀ d : Int → K,
        applyRots [((0, 1), r1), ((0, 2), r2), ((0, 3), r3)] d 1 = r1.cos * d 1 - r1.sin * d 0 := by
      intro d
      simp only [applyRots, List.foldl_cons, List.foldl_nil]
      rw [rotVec_apply _ _ _ _ _ _ (by norm_num), if_neg (by norm_num), if_neg (by norm_num),
        rotVec_apply _ _ _ _ _ _ (by norm_num), if_neg (by norm_num), if_neg (by norm_num),
        rotVec_apply _ _ _ _ _ _ (by norm_num), if_neg (by norm_num), if_pos rfl]
    have e10 := hc 0 (by norm_num) (by norm_num) 1
    have e11 := hc 1 (by norm_num) (by norm_num) 1
    rw [row1] at e10 e11
    have z := hzero 0 1 (by norm_num) (by norm_num) (by norm_num) (by norm_num)
      (Or.inl (by norm_num))
    norm_num [a0, a1, a4, a5] at e10 e11 z
    rw [z] at e10
    norm_num
    rw [e11]
    intro h
    have hs : r1.sin = r1.cos := by linarith
    rw [hs] at hcs h
    have hc0 : r1.cos = 0 := by linarith
    rw [hc0] at hcs
    norm_num at hcs
  · by_contra hcon
    push_neg at hcon
    obtain ⟨z10, z14⟩ := hcon
    have z4 := hzero 0 1 (by norm_num) (by norm_num) (by norm_num) (by norm_num)
      (Or.inl (by norm_num))
    have z8 := hzero 0 2 (by norm_num) (by norm_num) (by norm_num) (by norm_num)
      (Or.inl (by norm_num))
    have z12 := hzero 0 3 (by norm_num) (by norm_num) (by norm_num) (by norm_num)
      (Or.inl (by norm_num))
    have z9 := hzero 1 2 (by norm_num) (by norm_num) (by norm_num) (by norm_num)
      (Or.inl (by norm_num))
    have z13 := hzero 1 3 (by norm_num) (by norm_num) (by norm_num) (by norm_num)
      (Or.inl (by norm_num))
    norm_num at z4 z8 z12 z9 z13 z10 z14
    simp only [z4, z8, z12, z9, z13, mul_zero, zero_mul, add_zero] at g00 g01 g02
    simp only [z9, z13, z10, z14, mul_zero, zero_mul, add_zero] at g11 g12 g22
    have e1 : E 1 * E 1 = 9 := by
      have h : (E 0 * E 0) * (E 1 * E 1) = (E 0 * E 1) * (E 0 * E 1) := by ring
      rw [g00, g01] at h
      linarith
    have e2 : E 2 * E 2 = 9 := by
      have h : (E 0 * E 0) * (E 2 * E 2) = (E 0 * E 2) * (E 0 * E 2) := by ring
      rw [g00, g02] at h
      linarith
    have e12 : E 1 * E 2 = 9 := by
      have h : (E 0 * E 0) * (E 1 * E 2) = (E 0 * E 1) * (E 0 * E 2) := by ring
      rw [g00, g01, g02] at h
      linarith
    have f5 : E 5 * E 5 = 1 := by linarith
    have f6 : E 6 * E 6 = 1 := by linarith
    have f56 : E 5 * E 6 = 0 := by linarith
    have h : (E 5 * E 5) * (E 6 * E 6) = (E 5 * E 6) * (E 5 * E 6) := by ring
    rw [f5, f6, f56] at h
    norm_num at h

/-- For the window 2x2 with order 1, `QR` has a result, and no diagonal entry
of the factor it leaves is zero. -/
theorem QRloops_2x2_order_1 (sqrt : K → K) (hsq : ∀ x : K, 0 ≤ x → sqrt x * sqrt x = x) :
    ∃ res, QRloops sqrt 4 4 (prepareEquations (K := K) 1 2 2).1 = some res ∧
      QRInv 4 4 (prepareEquations (K := K) 1 2 2).1 4 (4 + 1) res.1 res.2 ∧
      ∀ i, 0 ≤ i → i < 4 → res.1 (i * 4 + i) ≠ 0 := by
  obtain ⟨res, hres, hinv, hd⟩ := QRloops_total sqrt hsq 4 4 (by norm_num)
    (prepareEquations (K := K) 1 2 2).1
    (fun j E rots h1 _ h3 h4 => first_pair_2x2_order_1 j E rots h1 h3 h4)
  refine ⟨res, hres, hinv, ?_⟩
  intro i h1 h2
  rcases eq_or_lt_of_le (show i ≤ 3 by omega) with e | e
  · subst e
    obtain ⟨g00, g01, g02, g03, g11, g12, g13, g22, g23, g33⟩ :=
      gram_2x2_order_1 4 (4 + 1) res.1 res.2 hinv
    obtain ⟨_, _, _, _, _, hzero⟩ := hinv
    have z4 := hzero 0 1 (by norm_num) (by norm_num) (by norm_num) (by norm_num)
      (Or.inl (by norm_num))
    have z8 := hzero 0 2 (by norm_num) (by norm_num) (by norm_num) (by norm_num)
      (Or.inl (by norm_num))
    have z12 := hzero 0 3 (by norm_num) (by norm_num) (by norm_num) (by norm_num)
      (Or.inl (by norm_num))
    have z9 := hzero 1 2 (by norm_num) (by norm_num) (by norm_num) (by norm_num)
      (Or.inl (by norm_num))
    have z13 := hzero 1 3 (by norm_num) (by norm_num) (by norm_num) (by norm_num)
      (Or.inl (by norm_num))
    have z14 := hzero 2 3 (by norm_num) (by norm_num) (by norm_num) (by norm_num)
      (Or.inl (by norm_num))
    norm_num at z4 z8 z12 z9 z13 z14
    norm_num
    intro z15
    generalize res.1 = E at *
    simp only [z4, z8, z12, mul_zero, zero_mul, add_zero] at g00 g01 g02 g03
    simp only [z9, z13, mul_zero, zero_mul, add_zero] at g11 g12 g13
    simp only [z14, z15, mul_zero, zero_mul, add_zero] at g22 g23 g33
    have e1 : E 1 * E 1 = 9 := by
      have h : (E 0 * E 0) * (E 1 * E 1) = (E 0 * E 1) * (E 0 * E 1) := by ring
      rw [g00, g01] at h
      linarith
    have e2 : E 2 * E 2 = 9 := by
      have h : (E 0 * E 0) * (E 2 * E 2) = (E 0 * E 2) * (E 0 * E 2) := by ring
      rw [g00, g02] at h
      linarith
    have e3 : E 3 * E 3 = 81 / 4 := by
      have h : (E 0 * E 0) * (E 3 * E 3) = (E 0 * E 3) * (E 0 * E 3) := by ring
      rw [g00, g03] at h
      linarith
    have e12 : E 1 * E 2 = 9 := by
      have h : (E 0 * E 0) * (E 1 * E 2) = (E 0 * E 1) * (E 0 * E 2) := by ring
      rw [g00, g01, g02] at h
      linarith
    have e13 : E 1 * E 3 = 27 / 2 := by
      have h : (E 0 * E 0) * (E 1 * E 3) = (E 0 * E 1) * (E 0 * E 3) := by ring
      rw [g00, g01, g03] at h
      linarith
    have e23 : E 2 * E 3 = 27 / 2 := by
      have h : (E 0 * E 0) * (E 2 * E 3) = (E 0 * E 2) * (E 0 * E 3) := by ring
      rw [g00, g02, g03] at h
      linarith
    have f5 : E 5 * E 5 = 1 := by linarith
    have f56 : E 5 * E 6 = 0 := by linarith
    have f57 : E 5 * E 7 = 3 / 2 := by linarith
    have f6 : E 6 = 0 := by
      have h : (E 5 * E 5) * E 6 = E 5 * (E 5 * E 6) := by ring
      rw [f5, f56] at h
      linarith
    have f7 : E 7 * E 7 = 9 / 4 := by
      have h : (E 5 * E 5) * (E 7 * E 7) = (E 5 * E 7) * (E 5 * E 7) := by ring
      rw [f5, f57] at h
      linarith
    rw [f6] at g22 g23
    have f10 : E 10 * E 10 = 1 := by linarith
    have f1011 : E 10 * E 11 = 3 / 2 := by linarith
    have f11 : E 11 * E 11 = 9 / 4 := by
      have h : (E 10 * E 10) * (E 11 * E 11) = (E 10 * E 11) * (E 10 * E 11) := by ring
      rw [f10, f1011] at h
      linarith
    linarith
  · exact hd i h1 h2 (by omega)

/-- For the window 2x2 with order 1, the smallest configuration the
constructor's assertions admit, the constructor has a result in exact
arithmetic, for every origin. -/
theorem build_2x2_order_1 (sqrt : K → K) (hsq : ∀ x : K, 0 ≤ x → sqrt x * sqrt x = x)
    (ndebug : Bool) (origin : QPoint) :
    ∃ kq k : SavGolKernel K,
      (SavGolKernel.prepared 1 (QSize.mk 2 2)).QR sqrt = some kq ∧
      kq.recalcForOrigin origin = some k ∧
      SavGolKernel.new ndebug sqrt 1 (QSize.mk 2 2) origin = some k ∧
      SavGolKernel.build sqrt 1 (QSize.mk 2 2) origin
        = ((SavGolKernel.prepared 1 (QSize.mk 2 2)).QR sqrt).bind
            (fun k => k.recalcForOrigin origin) := by
  obtain ⟨res, hres, _, hd⟩ := QRloops_2x2_order_1 sqrt hsq
  have hq : SavGolKernel.QR sqrt
      { m_equations := (prepareEquations (K := K) 1 2 2).1
        m_dataPoints := fun _ => 0
        m_coeffs := fun _ => 0
        m_rotations := []
        m_kernel := fun _ => 0
        m_order := 1
        m_width := 2
        m_height := 2
        m_numVars := (1 + 1) * (1 + 1)
        m_numDataPoints := 2 * 2 }
      = some { m_equations := res.1
               m_dataPoints := fun _ => 0
               m_coeffs := fun _ => 0
               m_rotations := res.2
               m_kernel := fun _ => 0
               m_order := 1
               m_width := 2
               m_height := 2
               m_numVars := (1 + 1) * (1 + 1)
               m_numDataPoints := 2 * 2 } := by
    unfold SavGolKernel.QR
    simp only
    rw [show ((1 : Int) + 1) * (1 + 1) = 4 by norm_num, show (2 : Int) * 2 = 4 by norm_num, hres]
    rfl
  obtain ⟨k, hk⟩ := recalc_total
    ({ m_equations := res.1
       m_dataPoints := fun _ => 0
       m_coeffs := fun _ => 0
       m_rotations := res.2
       m_kernel := fun _ => 0
       m_order := 1
       m_width := 2
       m_height := 2
       m_numVars := (1 + 1) * (1 + 1)
       m_numDataPoints := 2 * 2 } : SavGolKernel K) (by norm_num)
    (by
      intro i h1 h2
      simp only at h2 ⊢
      rw [show ((1 : Int) + 1) * (1 + 1) = 4 by norm_num] at h2 ⊢
      exact hd i h1 h2) origin
  refine ⟨_, k, hq, hk, ?_, rfl⟩
  unfold SavGolKernel.new
  have ha : (ndebug || ctorAsserts 1 (QSize.mk 2 2)) = true := by
    have : ctorAsserts 1 (QSize.mk 2 2) = true := by decide
    rw [this, Bool.or_true]
  rw [if_pos ha]
  unfold SavGolKernel.build
  simp only
  rw [hq]
  exact hk

end Window2x2

/-! ## The calls recorded by the region loops -/

/-- A loop over cursors whose pass `i` records the calls `B i`. -/
theorem forLoop_emits (I : Int → Cursor → Prop) (B : Int → List Cmd) {lo hi : Int}
    (hle : lo ≤ hi) (body : Int → Cursor → Cursor) (c0 : Cursor) (h0 : I lo c0)
    (hbody : ∀ i c, lo ≤ i → i < hi → I i c →
      (body i c).cmds = c.cmds ++ B i ∧ I (i + 1) (body i c)) :
    (forLoop lo hi body c0).cmds = c0.cmds ++ (intRange lo hi).flatMap B ∧
      I hi (forLoop lo hi body c0) := by
  refine forLoop_inv (fun m c => c.cmds = c0.cmds ++ (intRange lo m).flatMap B ∧ I m c)
    hle body c0 ⟨by simp [intRange_of_le], h0⟩ ?_
  rintro i c h1 h2 ⟨hc, hI⟩
  obtain ⟨b1, b2⟩ := hbody i c h1 h2 hI
  refine ⟨?_, b2⟩
  rw [b1, hc, intRange_succ h1, List.flatMap_append, List.append_assoc]
  simp

/-- The bounds of the region loops for a window that is not empty and not
larger than the image. -/
theorem geometry_bounds (g : Geometry) (hkw : 1 ≤ g.kw) (hkh : 1 ≤ g.kh) :
    g.kw.tdiv 2 = g.k_left ∧ g.kh.tdiv 2 = g.k_top ∧
    0 ≤ g.k_left ∧ 0 ≤ g.k_right ∧ 0 ≤ g.k_top ∧ 0 ≤ g.k_bottom ∧
    g.k_left + g.k_right + 1 = g.kw ∧ g.k_top + g.k_bottom + 1 = g.kh ∧
    2 * g.k_left ≤ g.kw ∧ g.kw < 2 * g.k_left + 2 ∧
    2 * g.k_top ≤ g.kh ∧ g.kh < 2 * g.k_top + 2 := by
  have e1 : g.kw.tdiv 2 = g.kw / 2 := Int.tdiv_eq_ediv (by omega) (by norm_num)
  have e2 : g.kh.tdiv 2 = g.kh / 2 := Int.tdiv_eq_ediv (by omega) (by norm_num)
  refine ⟨rfl, rfl, ?_⟩
  simp only [Geometry.k_left, Geometry.k_right, Geometry.k_top, Geometry.k_bottom, e1, e2]
  omega

theorem topLeftCorner_cmds (g : Geometry) (hkl : 0 ≤ g.k_left) (hkt : 0 ≤ g.k_top)
    (c : Cursor) :
    (topLeftCorner g c).cmds = c.cmds ++ (intRange 0 g.k_top).flatMap (fun y =>
      (intRange 0 g.k_left).flatMap (fun x =>
        [Cmd.recalc (QPoint.mk x y), Cmd.convolve (y * g.dst_bpl + x) 0])) := by
  unfold topLeftCorner
  refine (forLoop_emits (fun y c => c.dst_line = y * g.dst_bpl) _ hkt _ _ (by simp) ?_).1
  intro y c h1 h2 hI
  have := forLoop_emits (fun _ c' => c'.dst_line = y * g.dst_bpl ∧ c'.origin.y = y)
    (fun x => [Cmd.recalc (QPoint.mk x y), Cmd.convolve (y * g.dst_bpl + x) 0]) hkl
    (fun x c =>
      let c := { c with origin := { c.origin with x := x } }
      let c := c.recalc
      c.convolve (c.dst_line + x) 0)
    { c with origin := { c.origin with y := y } } ⟨hI, rfl⟩
    (by
      rintro x c' _ _ ⟨hd, hy⟩
      refine ⟨?_, hd, hy⟩
      simp only [Cursor.recalc, Cursor.convolve, hd, hy, List.append_assoc, List.singleton_append])
  obtain ⟨a, b, _⟩ := this
  refine ⟨a, ?_⟩
  simp only [b]
  ring

theorem topArea_cmds (g : Geometry) (hx : g.k_left ≤ g.width - g.k_right) (hkt : 0 ≤ g.k_top)
    (c : Cursor) :
    (topArea g c).cmds = c.cmds ++ (intRange 0 g.k_top).flatMap (fun y =>
      Cmd.recalc (QPoint.mk g.k_left y) ::
        (intRange g.k_left (g.width - g.k_right)).flatMap (fun x =>
          [Cmd.convolve (y * g.dst_bpl + x) (0 - g.k_left + x)])) := by
  unfold topArea
  refine (forLoop_emits (fun y c => c.dst_line = y * g.dst_bpl ∧ c.origin.x = g.k_left) _ hkt
    _ _ ⟨by simp, rfl⟩ ?_).1
  rintro y c h1 h2 ⟨hd, ho⟩
  have := forLoop_emits (fun _ c' => c'.dst_line = y * g.dst_bpl ∧ c'.origin.x = g.k_left)
    (fun x => [Cmd.convolve (y * g.dst_bpl + x) (0 - g.k_left + x)]) hx
    (fun x c => c.convolve (c.dst_line + x) (0 - g.k_left + x))
    ({ c with origin := { c.origin with y := y } } : Cursor).recalc ⟨hd, ho⟩
    (by
      rintro x c' _ _ ⟨hd', ho'⟩
      refine ⟨?_, hd', ho'⟩
      simp only [Cursor.convolve, hd'])
  obtain ⟨a, b, b'⟩ := this
  refine ⟨a.trans ?_, ?_, b'⟩
  · simp only [Cursor.recalc, ho, List.append_assoc, List.singleton_append]
  · simp only [b]
    ring

theorem topRightCorner_cmds (g : Geometry) (hx : g.width - g.k_right ≤ g.width)
    (hkt : 0 ≤ g.k_top) (c : Cursor) :
    (topRightCorner g c).cmds = c.cmds ++ (intRange 0 g.k_top).flatMap (fun y =>
      (intRange (g.width - g.k_right) g.width).flatMap (fun x =>
        [Cmd.recalc (QPoint.mk (g.kw - 1 - (x - (g.width - g.k_right))) y),
          Cmd.convolve (y * g.dst_bpl + x) (0 + g.width - g.kw)])) := by
  unfold topRightCorner
  refine (forLoop_emits (fun y c => c.dst_line = y * g.dst_bpl ∧ c.origin.y = y) _ hkt
    _ _ ⟨by simp, rfl⟩ ?_).1
  rintro y c h1 h2 ⟨hd, ho⟩
  have := forLoop_emits
    (fun x c' => c'.dst_line = y * g.dst_bpl ∧
      c'.origin = QPoint.mk (g.kw - 1 - (x - (g.width - g.k_right))) y)
    (fun x => [Cmd.recalc (QPoint.mk (g.kw - 1 - (x - (g.width - g.k_right))) y),
      Cmd.convolve (y * g.dst_bpl + x) (0 + g.width - g.kw)]) hx
    (fun x c =>
      let c := c.recalc
      let c := c.convolve (c.dst_line + x) (0 + g.width - g.kw)
      { c with origin := { c.origin with x := c.origin.x - 1 } })
    { c with origin := { c.origin with x := g.kw - 1 } }
    ⟨hd, by simp only [ho, QPoint.mk.injEq, and_true]; omega⟩
    (by
      rintro x c' _ _ ⟨hd', ho'⟩
      refine ⟨?_, hd', ?_⟩
      · simp only [Cursor.recalc, Cursor.convolve, hd', ho', List.append_assoc,
          List.singleton_append]
      · simp only [Cursor.recalc, Cursor.convolve, ho', QPoint.mk.injEq, and_true]
        omega)
  obtain ⟨a, b, b'⟩ := this
  refine ⟨a, ?_, ?_⟩
  · simp only [b]
    ring
  · simp only [b']

theorem centralArea_cmds (g : Geometry) (hx : g.k_left ≤ g.width - g.k_right)
    (hy : g.k_top ≤ g.height - g.k_bottom) (c : Cursor) :
    (centralArea g c).cmds = c.cmds ++ Cmd.recalc (QPoint.mk g.k_left g.k_top) ::
      (intRange g.k_top (g.height - g.k_bottom)).flatMap (fun y =>
        (intRange g.k_left (g.width - g.k_right)).flatMap (fun x =>
          [Cmd.convolve (y * g.dst_bpl + x) ((y - g.k_top) * g.src_bpl - g.k_left + x)])) := by
  unfold centralArea
  have := forLoop_emits
    (fun y c => c.dst_line = y * g.dst_bpl ∧ c.src_line = (y - g.k_top) * g.src_bpl - g.k_left)
    (fun y => (intRange g.k_left (g.width - g.k_right)).flatMap (fun x =>
      [Cmd.convolve (y * g.dst_bpl + x) ((y - g.k_top) * g.src_bpl - g.k_left + x)])) hy
    (fun _ c =>
      let c := forLoop g.k_left (g.width - g.k_right) (fun x c =>
        c.convolve (c.dst_line + x) (c.src_line + x)) c
      let c := { c with src_line := c.src_line + g.src_bpl }
      { c with dst_line := c.dst_line + g.dst_bpl })
    { ({ ({ c with origin := { ({ c with origin := { c.origin with x := g.kw.tdiv 2 } } :
          Cursor).origin with y := g.kh.tdiv 2 } } : Cursor).recalc with
        src_line := 0 - g.k_left } : Cursor) with dst_line := 0 + g.dst_bpl * g.k_top }
    ⟨by simp only; ring, by simp only; ring⟩
    (by
      rintro y c' _ _ ⟨hd, hs⟩
      have := forLoop_emits
        (fun _ c'' => c''.dst_line = y * g.dst_bpl ∧
          c''.src_line = (y - g.k_top) * g.src_bpl - g.k_left)
        (fun x => [Cmd.convolve (y * g.dst_bpl + x)
          ((y - g.k_top) * g.src_bpl - g.k_left + x)]) hx
        (fun x c => c.convolve (c.dst_line + x) (c.src_line + x)) c' ⟨hd, hs⟩
        (by
          rintro x c'' _ _ ⟨hd', hs'⟩
          refine ⟨?_, hd', hs'⟩
          simp only [Cursor.convolve, hd', hs'])
      obtain ⟨a, b, b'⟩ := this
      refine ⟨a, ?_, ?_⟩
      · simp only [b]
        ring
      · simp only [b']
        ring)
  rw [this.1]
  simp only [Cursor.recalc, List.append_assoc, List.singleton_append]
  rfl

theorem leftArea_cmds (g : Geometry) (hkl : 0 ≤ g.k_left)
    (hy : g.k_top ≤ g.height - g.k_bottom) (c : Cursor) :
    (leftArea g c).cmds = c.cmds ++ (intRange 0 g.k_left).flatMap (fun x =>
      Cmd.recalc (QPoint.mk x g.k_top) ::
        (intRange g.k_top (g.height - g.k_bottom)).flatMap (fun y =>
          [Cmd.convolve (y * g.dst_bpl + x) ((y - g.k_top) * g.src_bpl)])) := by
  unfold leftArea
  refine (forLoop_emits (fun x c => c.origin = QPoint.mk x g.k_top) _ hkl _ _ rfl ?_).1
  intro x c h1 h2 ho
  have := forLoop_emits
    (fun y c' => c'.dst_line = y * g.dst_bpl ∧ c'.src_line = (y - g.k_top) * g.src_bpl ∧
      c'.origin = QPoint.mk x g.k_top)
    (fun y => [Cmd.convolve (y * g.dst_bpl + x) ((y - g.k_top) * g.src_bpl)]) hy
    (fun _ c =>
      let c := c.convolve (c.dst_line + x) c.src_line
      let c := { c with src_line := c.src_line + g.src_bpl }
      { c with dst_line := c.dst_line + g.dst_bpl })
    ({ ({ c with src_line := 0 } : Cursor) with dst_line := 0 + g.dst_bpl * g.k_top } :
      Cursor).recalc
    ⟨by simp only [Cursor.recalc]; ring, by simp only [Cursor.recalc]; ring, ho⟩
    (by
      rintro y c' _ _ ⟨hd, hs, ho'⟩
      refine ⟨?_, ?_, ?_, ho'⟩
      · simp only [Cursor.convolve, hd, hs]
      · simp only [Cursor.convolve, hd]
        ring
      · simp only [Cursor.convolve, hs]
        ring)
  obtain ⟨a, _, _, b⟩ := this
  refine ⟨a.trans ?_, ?_⟩
  · simp only [Cursor.recalc, ho, List.append_assoc, List.singleton_append]
  · simp only [b]

theorem rightArea_cmds (g : Geometry) (hx : g.width - g.k_right ≤ g.width)
    (hy : g.k_top ≤ g.height - g.k_bottom) (c : Cursor) :
    (rightArea g c).cmds = c.cmds ++ (intRange (g.width - g.k_right) g.width).flatMap (fun x =>
      Cmd.recalc (QPoint.mk (g.k_left + 1 + (x - (g.width - g.k_right))) g.k_top) ::
        (intRange g.k_top (g.height - g.k_bottom)).flatMap (fun y =>
          [Cmd.convolve (y * g.dst_bpl + x)
            ((y - g.k_top) * g.src_bpl + (g.width - g.kw))])) := by
  unfold rightArea
  refine (forLoop_emits
    (fun x c => c.origin = QPoint.mk (g.k_left + 1 + (x - (g.width - g.k_right))) g.k_top)
    _ hx _ _ ?_ ?_).1
  · simp only [QPoint.mk.injEq]
    exact ⟨by simp only [Geometry.k_left]; omega, rfl⟩
  intro x c h1 h2 ho
  have := forLoop_emits
    (fun y c' => c'.dst_line = y * g.dst_bpl ∧
      c'.src_line = (y - g.k_top) * g.src_bpl + (g.width - g.kw) ∧
      c'.origin = QPoint.mk (g.k_left + 1 + (x - (g.width - g.k_right))) g.k_top)
    (fun y => [Cmd.convolve (y * g.dst_bpl + x)
      ((y - g.k_top) * g.src_bpl + (g.width - g.kw))]) hy
    (fun _ c =>
      let c := c.convolve (c.dst_line + x) c.src_line
      let c := { c with src_line := c.src_line + g.src_bpl }
      { c with dst_line := c.dst_line + g.dst_bpl })
    ({ ({ c with src_line := 0 + g.width - g.kw } : Cursor) with
        dst_line := 0 + g.dst_bpl * g.k_top } : Cursor).recalc
    ⟨by simp only [Cursor.recalc]; ring, by simp only [Cursor.recalc]; ring, ho⟩
    (by
      rintro y c' _ _ ⟨hd, hs, ho'⟩
      refine ⟨?_, ?_, ?_, ho'⟩
      · simp only [Cursor.convolve, hd, hs]
      · simp only [Cursor.convolve, hd]
        ring
      · simp only [Cursor.convolve, hs]
        ring)
  obtain ⟨a, _, _, b⟩ := this
  refine ⟨a.trans ?_, ?_⟩
  · simp only [Cursor.recalc, ho, List.append_assoc, List.singleton_append]
  · simp only [b, QPoint.mk.injEq, and_true]
    ring

theorem bottomLeftCorner_cmds (g : Geometry) (hkl : 0 ≤ g.k_left)
    (hy : g.height - g.k_bottom ≤ g.height) (c : Cursor) :
    (bottomLeftCorner g c).cmds = c.cmds ++
      (intRange (g.height - g.k_bottom) g.height).flatMap (fun y =>
        (intRange 0 g.k_left).flatMap (fun x =>
          [Cmd.recalc (QPoint.mk x (g.k_top + 1 + (y - (g.height - g.k_bottom)))),
            Cmd.convolve (y * g.dst_bpl + x) (g.src_bpl * (g.height - g.kh))])) := by
  unfold bottomLeftCorner
  refine (forLoop_emits
    (fun y c => c.dst_line = y * g.dst_bpl ∧ c.src_line = g.src_bpl * (g.height - g.kh) ∧
      c.origin.y = g.k_top + 1 + (y - (g.height - g.k_bottom))) _ hy _ _ ?_ ?_).1
  · refine ⟨by simp only; ring, by simp only; ring, ?_⟩
    simp only [Geometry.k_top]
    omega
  rintro y c h1 h2 ⟨hd, hs, ho⟩
  have := forLoop_emits
    (fun _ c' => c'.dst_line = y * g.dst_bpl ∧ c'.src_line = g.src_bpl * (g.height - g.kh) ∧
      c'.origin.y = g.k_top + 1 + (y - (g.height - g.k_bottom)))
    (fun x => [Cmd.recalc (QPoint.mk x (g.k_top + 1 + (y - (g.height - g.k_bottom)))),
      Cmd.convolve (y * g.dst_bpl + x) (g.src_bpl * (g.height - g.kh))]) hkl
    (fun x c =>
      let c := { c with origin := { c.origin with x := x } }
      let c := c.recalc
      let c := c.convolve (c.dst_line + x) c.src_line
      { c with origin := { c.origin with x := c.origin.x + 1 } })
    { c with origin := { c.origin with x := 0 } } ⟨hd, hs, ho⟩
    (by
      rintro x c' _ _ ⟨hd', hs', ho'⟩
      refine ⟨?_, hd', hs', ho'⟩
      simp only [Cursor.recalc, Cursor.convolve, hd', hs', ho', List.append_assoc,
        List.singleton_append])
  obtain ⟨a, b, b', b''⟩ := this
  refine ⟨a, ?_, b', ?_⟩
  · simp only [b]
    ring
  · simp only [b'']
    ring

theorem bottomArea_cmds (g : Geometry) (hx : g.k_left ≤ g.width - g.k_right)
    (hy : g.height - g.k_bottom ≤ g.height) (c : Cursor) :
    (bottomArea g c).cmds = c.cmds ++
      (intRange (g.height - g.k_bottom) g.height).flatMap (fun y =>
        Cmd.recalc (QPoint.mk g.k_left (g.k_top + 1 + (y - (g.height - g.k_bottom)))) ::
          (intRange g.k_left (g.width - g.k_right)).flatMap (fun x =>
            [Cmd.convolve (y * g.dst_bpl + x)
              (g.src_bpl * (g.height - g.kh) - g.k_left + x)])) := by
  unfold bottomArea
  refine (forLoop_emits
    (fun y c => c.dst_line = y * g.dst_bpl ∧
      c.src_line = g.src_bpl * (g.height - g.kh) - g.k_left ∧
      c.origin = QPoint.mk g.k_left (g.k_top + 1 + (y - (g.height - g.k_bottom))))
    _ hy _ _ ?_ ?_).1
  · refine ⟨by simp only; ring, ?_, ?_⟩
    · simp only [Geometry.k_left]
      ring
    · simp only [Geometry.k_left, Geometry.k_top, QPoint.mk.injEq, true_and]
      omega
  rintro y c h1 h2 ⟨hd, hs, ho⟩
  have := forLoop_emits
    (fun _ c' => c'.dst_line = y * g.dst_bpl ∧
      c'.src_line = g.src_bpl * (g.height - g.kh) - g.k_left ∧
      c'.origin = QPoint.mk g.k_left (g.k_top + 1 + (y - (g.height - g.k_bottom))))
    (fun x => [Cmd.convolve (y * g.dst_bpl + x)
      (g.src_bpl * (g.height - g.kh) - g.k_left + x)]) hx
    (fun x c => c.convolve (c.dst_line + x) (c.src_line + x)) c.recalc ⟨hd, hs, ho⟩
    (by
      rintro x c' _ _ ⟨hd', hs', ho'⟩
      refine ⟨?_, hd', hs', ho'⟩
      simp only [Cursor.convolve, hd', hs'])
  obtain ⟨a, b, b', b''⟩ := this
  refine ⟨a.trans ?_, ?_, b', ?_⟩
  · simp only [Cursor.recalc, ho, List.append_assoc, List.singleton_append]
  · simp only [b]
    ring
  · simp only [b'', QPoint.mk.injEq, true_and]
    ring

theorem bottomRightCorner_cmds (g : Geometry) (hx : g.width - g.k_right ≤ g.width)
    (hy : g.height - g.k_bottom ≤ g.height) (c : Cursor) :
    (bottomRightCorner g c).cmds = c.cmds ++
      (intRange (g.height - g.k_bottom) g.height).flatMap (fun y =>
        (intRange (g.width - g.k_right) g.width).flatMap (fun x =>
          [Cmd.recalc (QPoint.mk (g.k_left + 1 + (x - (g.width - g.k_right)))
              (g.k_top + 1 + (y - (g.height - g.k_bottom)))),
            Cmd.convolve (y * g.dst_bpl + x)
              (g.src_bpl * (g.height - g.kh) + (g.width - g.kw))])) := by
  unfold bottomRightCorner
  refine (forLoop_emits
    (fun y c => c.dst_line = y * g.dst_bpl ∧
      c.src_line = g.src_bpl * (g.height - g.kh) + (g.width - g.kw) ∧
      c.origin.y = g.k_top + 1 + (y - (g.height - g.k_bottom))) _ hy _ _ ?_ ?_).1
  · refine ⟨by simp only; ring, by simp only; ring, ?_⟩
    simp only [Geometry.k_top]
    omega
  rintro y c h1 h2 ⟨hd, hs, ho⟩
  have := forLoop_emits
    (fun x c' => c'.dst_line = y * g.dst_bpl ∧
      c'.src_line = g.src_bpl * (g.height - g.kh) + (g.width - g.kw) ∧
      c'.origin = QPoint.mk (g.k_left + 1 + (x - (g.width - g.k_right)))
        (g.k_top + 1 + (y - (g.height - g.k_bottom))))
    (fun x => [Cmd.recalc (QPoint.mk (g.k_left + 1 + (x - (g.width - g.k_right)))
        (g.k_top + 1 + (y - (g.height - g.k_bottom)))),
      Cmd.convolve (y * g.dst_bpl + x)
        (g.src_bpl * (g.height - g.kh) + (g.width - g.kw))]) hx
    (fun x c =>
      let c := c.recalc
      let c := c.convolve (c.dst_line + x) c.src_line
      { c with origin := { c.origin with x := c.origin.x + 1 } })
    { c with origin := { c.origin with x := g.kw.tdiv 2 + 1 } }
    ⟨hd, hs, by simp only [ho, Geometry.k_left, QPoint.mk.injEq, and_true]; omega⟩
    (by
      rintro x c' _ _ ⟨hd', hs', ho'⟩
      refine ⟨?_, hd', hs', ?_⟩
      · simp only [Cursor.recalc, Cursor.convolve, hd', hs', ho', List.append_assoc,
          List.singleton_append]
      · simp only [Cursor.recalc, Cursor.convolve, ho', QPoint.mk.injEq, and_true]
        omega)
  obtain ⟨a, b, b', b''⟩ := this
  refine ⟨a, ?_, b', ?_⟩
  · simp only [b]
    ring
  · simp only [b'']
    ring

/-! ## The `convolve` calls among the recorded calls -/

theorem flatMap_singleton_eq_map {α β : Type} (l : List α) (f : α → β) :
    l.flatMap (fun x => [f x]) = l.map f := by
  induction l with
  | nil => rfl
  | cons x l ih =>
    rw [List.flatMap_cons, ih]
    rfl

theorem callsOf_append (o : QPoint) (a b : List Cmd) :
    callsOf o (a ++ b) = callsOf o a ++ callsOf (lastOrigin o a) b := by
  induction a generalizing o with
  | nil => rfl
  | cons cmd a ih =>
    cases cmd with
    | recalc o' =>
      show callsOf o' (a ++ b) = callsOf o' a ++ callsOf (lastOrigin o' a) b
      exact ih o'
    | convolve d s =>
      show ConvolveCall.mk d s o :: callsOf o (a ++ b)
        = ConvolveCall.mk d s o :: callsOf o a ++ callsOf (lastOrigin o a) b
      rw [ih o]
      rfl

/-- A list of calls whose `convolve` calls do not depend on the origin in
force before it. -/
theorem callsOf_append_closed (o : QPoint) (a b : List Cmd)
    (hb : ∀ o o', callsOf o b = callsOf o' b) :
    callsOf o (a ++ b) = callsOf o a ++ callsOf o b := by
  rw [callsOf_append, hb _ o]

theorem callsOf_flatMap_closed {α : Type} (l : List α) (B : α → List Cmd)
    (hB : ∀ x o o', callsOf o (B x) = callsOf o' (B x)) (o : QPoint) :
    callsOf o (l.flatMap B) = l.flatMap (fun x => callsOf o (B x)) ∧
    ∀ o', callsOf o (l.flatMap B) = callsOf o' (l.flatMap B) := by
  induction l generalizing o with
  | nil => exact ⟨rfl, fun _ => rfl⟩
  | cons x l ih =>
    have h1 : ∀ o, callsOf o ((x :: l).flatMap B)
        = callsOf o (B x) ++ l.flatMap (fun x => callsOf o (B x)) := by
      intro o
      rw [List.flatMap_cons, callsOf_append, (ih _).2 o, (ih o).1]
    refine ⟨by rw [h1]; rfl, ?_⟩
    intro o'
    rw [List.flatMap_cons, callsOf_append, callsOf_append, (ih _).2 o, (ih (lastOrigin o' (B x))).2 o,
      hB x o o']

theorem callsOf_convolves {α : Type} (o : QPoint) (l : List α) (d s : α → Int) :
    callsOf o (l.flatMap (fun x => [Cmd.convolve (d x) (s x)]))
      = l.map (fun x => ConvolveCall.mk (d x) (s x) o) ∧
    lastOrigin o (l.flatMap (fun x => [Cmd.convolve (d x) (s x)])) = o := by
  rw [flatMap_singleton_eq_map]
  induction l with
  | nil => exact ⟨rfl, rfl⟩
  | cons x l ih =>
    constructor
    · show ConvolveCall.mk (d x) (s x) o
          :: callsOf o (l.map (fun x => Cmd.convolve (d x) (s x))) = _
      rw [ih.1]
      rfl
    · show lastOrigin o (l.map (fun x => Cmd.convolve (d x) (s x))) = o
      exact ih.2

/-- The calls of a corner: a `recalcForOrigin` before every `convolve`. -/
theorem callsOf_corner (o : QPoint) (as bs : List Int) (O : Int → Int → QPoint)
    (d s : Int → Int → Int) :
    callsOf o (as.flatMap (fun a => bs.flatMap (fun b =>
        [Cmd.recalc (O a b), Cmd.convolve (d a b) (s a b)])))
      = as.flatMap (fun a => bs.map (fun b => ConvolveCall.mk (d a b) (s a b) (O a b))) ∧
    ∀ o', callsOf o (as.flatMap (fun a => bs.flatMap (fun b =>
        [Cmd.recalc (O a b), Cmd.convolve (d a b) (s a b)])))
      = callsOf o' (as.flatMap (fun a => bs.flatMap (fun b =>
        [Cmd.recalc (O a b), Cmd.convolve (d a b) (s a b)]))) := by
  have inner : ∀ a o, callsOf o (bs.flatMap (fun b =>
        [Cmd.recalc (O a b), Cmd.convolve (d a b) (s a b)]))
      = bs.map (fun b => ConvolveCall.mk (d a b) (s a b) (O a b)) ∧
      ∀ o', callsOf o (bs.flatMap (fun b =>
        [Cmd.recalc (O a b), Cmd.convolve (d a b) (s a b)]))
      = callsOf o' (bs.flatMap (fun b =>
        [Cmd.recalc (O a b), Cmd.convolve (d a b) (s a b)])) := by
    intro a o
    have := callsOf_flatMap_closed bs
      (fun b => [Cmd.recalc (O a b), Cmd.convolve (d a b) (s a b)])
      (fun _ _ _ => rfl) o
    refine ⟨?_, this.2⟩
    rw [this.1]
    simp only [callsOf]
    exact flatMap_singleton_eq_map bs _
  have := callsOf_flatMap_closed as
    (fun a => bs.flatMap (fun b => [Cmd.recalc (O a b), Cmd.convolve (d a b) (s a b)]))
    (fun a o o' => (inner a o).2 o') o
  refine ⟨?_, this.2⟩
  rw [this.1]
  simp only [(inner _ _).1]

/-- The calls of an edge: one `recalcForOrigin` for each line (column), then
the `convolve` calls of the line (column). -/
theorem callsOf_edge (o : QPoint) (as bs : List Int) (O : Int → QPoint)
    (d s : Int → Int → Int) :
    callsOf o (as.flatMap (fun a => Cmd.recalc (O a) ::
        bs.flatMap (fun b => [Cmd.convolve (d a b) (s a b)])))
      = as.flatMap (fun a => bs.map (fun b => ConvolveCall.mk (d a b) (s a b) (O a))) ∧
    ∀ o', callsOf o (as.flatMap (fun a => Cmd.recalc (O a) ::
        bs.flatMap (fun b => [Cmd.convolve (d a b) (s a b)])))
      = callsOf o' (as.flatMap (fun a => Cmd.recalc (O a) ::
        bs.flatMap (fun b => [Cmd.convolve (d a b) (s a b)]))) := by
  have := callsOf_flatMap_closed as
    (fun a => Cmd.recalc (O a) :: bs.flatMap (fun b => [Cmd.convolve (d a b) (s a b)]))
    (fun _ _ _ => rfl) o
  refine ⟨?_, this.2⟩
  rw [this.1]
  simp only [callsOf, (callsOf_convolves _ bs _ _).1]

/-- The calls of the central area: one `recalcForOrigin`, then the `convolve`
calls line by line. -/
theorem callsOf_central (o O : QPoint) (as bs : List Int) (d s : Int → Int → Int) :
    callsOf o (Cmd.recalc O :: as.flatMap (fun a =>
        bs.flatMap (fun b => [Cmd.convolve (d a b) (s a b)])))
      = as.flatMap (fun a => bs.map (fun b => ConvolveCall.mk (d a b) (s a b) O)) := by
  simp only [callsOf]
  induction as with
  | nil => rfl
  | cons a as ih =>
    rw [List.flatMap_cons, callsOf_append, (callsOf_convolves O bs _ _).1,
      (callsOf_convolves O bs _ _).2, ih, List.flatMap_cons]

theorem flatMap_map_congr {α β γ : Type} (as : List α) (bs : List β) (f h : α → β → γ)
    (hfh : ∀ a ∈ as, ∀ b ∈ bs, f a b = h a b) :
    as.flatMap (fun a => bs.map (f a)) = as.flatMap (fun a => bs.map (h a)) := by
  induction as with
  | nil => rfl
  | cons a as ih =>
    rw [List.flatMap_cons, List.flatMap_cons,
      ih (fun a' ha' => hfh a' (List.mem_cons_of_mem _ ha')),
      List.map_congr_left (fun b hb => hfh a (List.mem_cons_self _ _) b hb)]

theorem map_byLines {γ : Type} (xs ys : List Int) (f : Int × Int → γ) :
    (byLines xs ys).map f = ys.flatMap (fun y => xs.map (fun x => f (x, y))) := by
  simp only [byLines, List.map_flatMap, List.map_map, Function.comp_def]

theorem map_byColumns {γ : Type} (xs ys : List Int) (f : Int × Int → γ) :
    (byColumns xs ys).map f = xs.flatMap (fun x => ys.map (fun y => f (x, y))) := by
  simp only [byColumns, List.map_flatMap, List.map_map, Function.comp_def]

/-- The `convolve` calls of `savGolFilterGrayToGray`, for a window that is not
empty and not larger than the image: one call for each pixel of `pixelOrder`,
with the destination, the source window and the origin of `callAt`. -/
theorem convolveCalls_eq (g : Geometry) (hkw : 1 ≤ g.kw) (hw : g.kw ≤ g.width)
    (hkh : 1 ≤ g.kh) (hh : g.kh ≤ g.height) :
    convolveCalls g = g.pixelOrder.map g.callAt := by
  obtain ⟨_, _, b1, b2, b3, b4, b5, b6, _, _, _, _⟩ := geometry_bounds g hkw hkh
  have hx1 : g.k_left ≤ g.width - g.k_right := by omega
  have hx2 : g.width - g.k_right ≤ g.width := by omega
  have hy1 : g.k_top ≤ g.height - g.k_bottom := by omega
  have hy2 : g.height - g.k_bottom ≤ g.height := by omega
  unfold convolveCalls regionLoops
  simp only
  rw [bottomRightCorner_cmds g hx2 hy2, bottomArea_cmds g hx1 hy2,
    bottomLeftCorner_cmds g b1 hy2, rightArea_cmds g hx2 hy1, leftArea_cmds g b1 hy1,
    centralArea_cmds g hx1 hy1, topRightCorner_cmds g hx2 b3, topArea_cmds g hx1 b3,
    topLeftCorner_cmds g b1 b3, List.nil_append]
  -- the calls of each region
  have c1 := callsOf_corner (QPoint.mk 0 0) (intRange 0 g.k_top) (intRange 0 g.k_left)
    (fun y x => QPoint.mk x y) (fun y x => y * g.dst_bpl + x) (fun _ _ => 0)
  have c2 := callsOf_edge (QPoint.mk 0 0) (intRange 0 g.k_top)
    (intRange g.k_left (g.width - g.k_right)) (fun y => QPoint.mk g.k_left y)
    (fun y x => y * g.dst_bpl + x) (fun _ x => 0 - g.k_left + x)
  have c3 := callsOf_corner (QPoint.mk 0 0) (intRange 0 g.k_top)
    (intRange (g.width - g.k_right) g.width)
    (fun y x => QPoint.mk (g.kw - 1 - (x - (g.width - g.k_right))) y)
    (fun y x => y * g.dst_bpl + x) (fun _ _ => 0 + g.width - g.kw)
  have c4 := callsOf_central (QPoint.mk 0 0) (QPoint.mk g.k_left g.k_top)
    (intRange g.k_top (g.height - g.k_bottom)) (intRange g.k_left (g.width - g.k_right))
    (fun y x => y * g.dst_bpl + x) (fun y x => (y - g.k_top) * g.src_bpl - g.k_left + x)
  have c5 := callsOf_edge (QPoint.mk 0 0) (intRange 0 g.k_left)
    (intRange g.k_top (g.height - g.k_bottom)) (fun x => QPoint.mk x g.k_top)
    (fun x y => y * g.dst_bpl + x) (fun _ y => (y - g.k_top) * g.src_bpl)
  have c6 := callsOf_edge (QPoint.mk 0 0) (intRange (g.width - g.k_right) g.width)
    (intRange g.k_top (g.height - g.k_bottom))
    (fun x => QPoint.mk (g.k_left + 1 + (x - (g.width - g.k_right))) g.k_top)
    (fun x y => y * g.dst_bpl + x) (fun _ y => (y - g.k_top) * g.src_bpl + (g.width - g.kw))
  have c7 := callsOf_corner (QPoint.mk 0 0) (intRange (g.height - g.k_bottom) g.height)
    (intRange 0 g.k_left)
    (fun y x => QPoint.mk x (g.k_top + 1 + (y - (g.height - g.k_bottom))))
    (fun y x => y * g.dst_bpl + x) (fun _ _ => g.src_bpl * (g.height - g.kh))
  have c8 := callsOf_edge (QPoint.mk 0 0) (intRange (g.height - g.k_bottom) g.height)
    (intRange g.k_left (g.width - g.k_right))
    (fun y => QPoint.mk g.k_left (g.k_top + 1 + (y - (g.height - g.k_bottom))))
    (fun y x => y * g.dst_bpl + x) (fun _ x => g.src_bpl * (g.height - g.kh) - g.k_left + x)
  have c9 := callsOf_corner (QPoint.mk 0 0) (intRange (g.height - g.k_bottom) g.height)
    (intRange (g.width - g.k_right) g.width)
    (fun y x => QPoint.mk (g.k_left + 1 + (x - (g.width - g.k_right)))
      (g.k_top + 1 + (y - (g.height - g.k_bottom))))
    (fun y x => y * g.dst_bpl + x)
    (fun _ _ => g.src_bpl * (g.height - g.kh) + (g.width - g.kw))
  have hcorner : ∀ (as bs : List Int) (O : Int → Int → QPoint) (d s : Int → Int → Int)
      (o o' : QPoint),
      callsOf o (as.flatMap (fun a => bs.flatMap (fun b =>
        [Cmd.recalc (O a b), Cmd.convolve (d a b) (s a b)])))
      = callsOf o' (as.flatMap (fun a => bs.flatMap (fun b =>
        [Cmd.recalc (O a b), Cmd.convolve (d a b) (s a b)]))) :=
    fun as bs O d s o o' => (callsOf_corner o as bs O d s).2 o'
  have hedge : ∀ (as bs : List Int) (O : Int → QPoint) (d s : Int → Int → Int)
      (o o' : QPoint),
      callsOf o (as.flatMap (fun a => Cmd.recalc (O a) ::
        bs.flatMap (fun b => [Cmd.convolve (d a b) (s a b)])))
      = callsOf o' (as.flatMap (fun a => Cmd.recalc (O a) ::
        bs.flatMap (fun b => [Cmd.convolve (d a b) (s a b)]))) :=
    fun as bs O d s o o' => (callsOf_edge o as bs O d s).2 o'
  rw [callsOf_append_closed _ _ _ (hcorner _ _ (fun y x => QPoint.mk
        (g.k_left + 1 + (x - (g.width - g.k_right)))
        (g.k_top + 1 + (y - (g.height - g.k_bottom))))
        (fun y x => y * g.dst_bpl + x)
        (fun _ _ => g.src_bpl * (g.height - g.kh) + (g.width - g.kw))),
    callsOf_append_closed _ _ _ (hedge _ _
        (fun y => QPoint.mk g.k_left (g.k_top + 1 + (y - (g.height - g.k_bottom))))
        (fun y x => y * g.dst_bpl + x)
        (fun _ x => g.src_bpl * (g.height - g.kh) - g.k_left + x)),
    callsOf_append_closed _ _ _ (hcorner _ _
        (fun y x => QPoint.mk x (g.k_top + 1 + (y - (g.height - g.k_bottom))))
        (fun y x => y * g.dst_bpl + x) (fun _ _ => g.src_bpl * (g.height - g.kh))),
    callsOf_append_closed _ _ _ (hedge _ _
        (fun x => QPoint.mk (g.k_left + 1 + (x - (g.width - g.k_right))) g.k_top)
        (fun x y => y * g.dst_bpl + x)
        (fun _ y => (y - g.k_top) * g.src_bpl + (g.width - g.kw))),
    callsOf_append_closed _ _ _ (hedge _ _ (fun x => QPoint.mk x g.k_top)
        (fun x y => y * g.dst_bpl + x) (fun _ y => (y - g.k_top) * g.src_bpl)),
    callsOf_append_closed _ _ (Cmd.recalc (QPoint.mk g.k_left g.k_top) :: _)
        (fun _ _ => rfl),
    callsOf_append_closed _ _ _ (hcorner _ _
        (fun y x => QPoint.mk (g.kw - 1 - (x - (g.width - g.k_right))) y)
        (fun y x => y * g.dst_bpl + x) (fun _ _ => 0 + g.width - g.kw)),
    callsOf_append_closed _ _ _ (hedge _ _ (fun y => QPoint.mk g.k_left y)
        (fun y x => y * g.dst_bpl + x) (fun _ x => 0 - g.k_left + x))]
  simp only [Geometry.pixelOrder, List.map_append, map_byLines, map_byColumns]
  have mem := @mem_intRange
  have e1 := c1.1.trans (flatMap_map_congr _ _ _ (fun y x => g.callAt (x, y))
    (fun y hy x hx => by
      have hy' := mem.1 hy
      have hx' := mem.1 hx
      have hl : g.left x = 0 := by unfold Geometry.left; omega
      have ht : g.top y = 0 := by unfold Geometry.top; omega
      simp only [Geometry.callAt, Geometry.originAt, hl, ht, ConvolveCall.mk.injEq,
        QPoint.mk.injEq, true_and, sub_zero, zero_mul, add_zero, and_true]
      rw [if_neg (by omega)]))
  have e2 := c2.1.trans (flatMap_map_congr _ _ _ (fun y x => g.callAt (x, y))
    (fun y hy x hx => by
      have hy' := mem.1 hy
      have hx' := mem.1 hx
      have hl : g.left x = x - g.k_left := by unfold Geometry.left; omega
      have ht : g.top y = 0 := by unfold Geometry.top; omega
      simp only [Geometry.callAt, Geometry.originAt, hl, ht, ConvolveCall.mk.injEq,
        QPoint.mk.injEq, true_and, sub_zero, zero_mul, and_true]
      rw [if_neg (by omega)]
      constructor <;> ring))
  have e3 := c3.1.trans (flatMap_map_congr _ _ _ (fun y x => g.callAt (x, y))
    (fun y hy x hx => by
      have hy' := mem.1 hy
      have hx' := mem.1 hx
      have hl : g.left x = g.width - g.kw := by unfold Geometry.left; omega
      have ht : g.top y = 0 := by unfold Geometry.top; omega
      simp only [Geometry.callAt, Geometry.originAt, hl, ht, ConvolveCall.mk.injEq,
        QPoint.mk.injEq, true_and, sub_zero, zero_mul, and_true]
      rw [if_pos ⟨by omega, by omega⟩]
      constructor
      · ring
      · trivial))
  have e4 := c4.trans (flatMap_map_congr _ _ _ (fun y x => g.callAt (x, y))
    (fun y hy x hx => by
      have hy' := mem.1 hy
      have hx' := mem.1 hx
      have hl : g.left x = x - g.k_left := by unfold Geometry.left; omega
      have ht : g.top y = y - g.k_top := by unfold Geometry.top; omega
      simp only [Geometry.callAt, Geometry.originAt, hl, ht, ConvolveCall.mk.injEq,
        QPoint.mk.injEq, true_and]
      rw [if_neg (by omega)]
      refine ⟨by ring, by ring, by ring⟩))
  have e5 := c5.1.trans (flatMap_map_congr _ _ _ (fun x y => g.callAt (x, y))
    (fun x hx y hy => by
      have hy' := mem.1 hy
      have hx' := mem.1 hx
      have hl : g.left x = 0 := by unfold Geometry.left; omega
      have ht : g.top y = y - g.k_top := by unfold Geometry.top; omega
      simp only [Geometry.callAt, Geometry.originAt, hl, ht, ConvolveCall.mk.injEq,
        QPoint.mk.injEq, true_and, sub_zero, add_zero]
      rw [if_neg (by omega)]
      refine ⟨rfl, by ring⟩))
  have e6 := c6.1.trans (flatMap_map_congr _ _ _ (fun x y => g.callAt (x, y))
    (fun x hx y hy => by
      have hy' := mem.1 hy
      have hx' := mem.1 hx
      have hl : g.left x = g.width - g.kw := by unfold Geometry.left; omega
      have ht : g.top y = y - g.k_top := by unfold Geometry.top; omega
      simp only [Geometry.callAt, Geometry.originAt, hl, ht, ConvolveCall.mk.injEq,
        QPoint.mk.injEq, true_and]
      rw [if_neg (by omega)]
      refine ⟨by omega, by ring⟩))
  have e7 := c7.1.trans (flatMap_map_congr _ _ _ (fun y x => g.callAt (x, y))
    (fun y hy x hx => by
      have hy' := mem.1 hy
      have hx' := mem.1 hx
      have hl : g.left x = 0 := by unfold Geometry.left; omega
      have ht : g.top y = g.height - g.kh := by unfold Geometry.top; omega
      simp only [Geometry.callAt, Geometry.originAt, hl, ht, ConvolveCall.mk.injEq,
        QPoint.mk.injEq, true_and, sub_zero, add_zero]
      rw [if_neg (by omega)]
      refine ⟨by ring, rfl, by omega⟩))
  have e8 := c8.1.trans (flatMap_map_congr _ _ _ (fun y x => g.callAt (x, y))
    (fun y hy x hx => by
      have hy' := mem.1 hy
      have hx' := mem.1 hx
      have hl : g.left x = x - g.k_left := by unfold Geometry.left; omega
      have ht : g.top y = g.height - g.kh := by unfold Geometry.top; omega
      simp only [Geometry.callAt, Geometry.originAt, hl, ht, ConvolveCall.mk.injEq,
        QPoint.mk.injEq, true_and]
      rw [if_neg (by omega)]
      refine ⟨by ring, by ring, by omega⟩))
  have e9 := c9.1.trans (flatMap_map_congr _ _ _ (fun y x => g.callAt (x, y))
    (fun y hy x hx => by
      have hy' := mem.1 hy
      have hx' := mem.1 hx
      have hl : g.left x = g.width - g.kw := by unfold Geometry.left; omega
      have ht : g.top y = g.height - g.kh := by unfold Geometry.top; omega
      simp only [Geometry.callAt, Geometry.originAt, hl, ht, ConvolveCall.mk.injEq,
        QPoint.mk.injEq, true_and]
      rw [if_neg (by omega)]
      refine ⟨by ring, by omega, by omega⟩))
  simp only at e1 e2 e3 e4 e5 e6 e7 e8 e9
  rw [e1, e2, e3, e4, e5, e6, e7, e8, e9]

/-! ## Every pixel is convolved once -/

theorem count_intRange (lo hi i : Int) :
    (intRange lo hi).count i = if lo ≤ i ∧ i < hi then 1 else 0 := by
  split_ifs with h
  · exact List.count_eq_one_of_mem (intRange_nodup lo hi) (mem_intRange.2 h)
  · exact List.count_eq_zero_of_not_mem (fun hm => h (mem_intRange.1 hm))

theorem count_map_pair_left (xs : List Int) (x y : Int) :
    (xs.map (fun x' => (x', y))).count (x, y) = xs.count x := by
  induction xs with
  | nil => rfl
  | cons a xs ih =>
    rw [List.map_cons, List.count_cons, List.count_cons, ih]
    by_cases h : a = x
    · subst h
      simp
    · simp [h]

theorem count_map_pair_right (ys : List Int) (x y : Int) :
    (ys.map (fun y' => (x, y'))).count (x, y) = ys.count y := by
  induction ys with
  | nil => rfl
  | cons a ys ih =>
    rw [List.map_cons, List.count_cons, List.count_cons, ih]
    by_cases h : a = y
    · subst h
      simp
    · simp [h]

theorem count_byLines (xs ys : List Int) (x y : Int) :
    (byLines xs ys).count (x, y) = ys.count y * xs.count x := by
  induction ys with
  | nil => simp [byLines]
  | cons y' ys ih =>
    have e : byLines xs (y' :: ys) = xs.map (fun x' => (x', y')) ++ byLines xs ys := by
      simp [byLines, List.flatMap_cons]
    rw [e, List.count_append, ih, List.count_cons]
    by_cases hy : y' = y
    · subst hy
      rw [count_map_pair_left]
      simp
      ring
    · have : (xs.map (fun x' => (x', y'))).count (x, y) = 0 := by
        apply List.count_eq_zero_of_not_mem
        intro hm
        obtain ⟨x', _, he⟩ := List.mem_map.1 hm
        exact hy (by simpa using (congrArg Prod.snd he))
      rw [this]
      simp [hy]

theorem count_byColumns (xs ys : List Int) (x y : Int) :
    (byColumns xs ys).count (x, y) = ys.count y * xs.count x := by
  induction xs with
  | nil => simp [byColumns]
  | cons x' xs ih =>
    have e : byColumns (x' :: xs) ys = ys.map (fun y' => (x', y')) ++ byColumns xs ys := by
      simp [byColumns, List.flatMap_cons]
    rw [e, List.count_append, ih, List.count_cons]
    by_cases hx : x' = x
    · subst hx
      rw [count_map_pair_right]
      simp
      ring
    · have : (ys.map (fun y' => (x', y'))).count (x, y) = 0 := by
        apply List.count_eq_zero_of_not_mem
        intro hm
        obtain ⟨y', _, he⟩ := List.mem_map.1 hm
        exact hx (by simpa using (congrArg Prod.fst he))
      rw [this]
      simp [hx]

/-- The nine regions are disjoint and cover the image: a pixel occurs once in
`pixelOrder` when it is in the image and not at all otherwise. -/
theorem count_pixelOrder (g : Geometry) (hkw : 1 ≤ g.kw) (hw : g.kw ≤ g.width)
    (hkh : 1 ≤ g.kh) (hh : g.kh ≤ g.height) (x y : Int) :
    g.pixelOrder.count (x, y)
      = if 0 ≤ x ∧ x < g.width ∧ 0 ≤ y ∧ y < g.height then 1 else 0 := by
  obtain ⟨_, _, b1, b2, b3, b4, b5, b6, _, _, _, _⟩ := geometry_bounds g hkw hkh
  simp only [Geometry.pixelOrder, List.count_append, count_byLines, count_byColumns,
    count_intRange]
  split_ifs <;> omega

theorem pixelOrder_mem (g : Geometry) (hkw : 1 ≤ g.kw) (hw : g.kw ≤ g.width)
    (hkh : 1 ≤ g.kh) (hh : g.kh ≤ g.height) (p : Int × Int) (hp : p ∈ g.pixelOrder) :
    0 ≤ p.1 ∧ p.1 < g.width ∧ 0 ≤ p.2 ∧ p.2 < g.height := by
  by_contra hne
  have := count_pixelOrder g hkw hw hkh hh p.1 p.2
  rw [if_neg hne] at this
  exact (List.count_eq_zero.1 this) hp

theorem count_pair_inst (l : List (Int × Int)) (p : Int × Int) :
    @List.count (Int × Int) instBEqOfDecidableEq p l = List.count p l := by
  unfold List.count
  apply List.countP_congr
  intro a _
  simp only [beq_iff_eq]
  exact ⟨fun h => of_decide_eq_true h, fun h => decide_eq_true h⟩

theorem pixelOrder_nodup (g : Geometry) (hkw : 1 ≤ g.kw) (hw : g.kw ≤ g.width)
    (hkh : 1 ≤ g.kh) (hh : g.kh ≤ g.height) : g.pixelOrder.Nodup := by
  rw [List.nodup_iff_count_le_one]
  intro p
  have := count_pixelOrder g hkw hw hkh hh p.1 p.2
  have e : (p.1, p.2) = p := rfl
  rw [e] at this
  rw [count_pair_inst, this]
  split_ifs <;> omega

/-- The byte offset of a pixel determines the pixel, for lines of at least
`width` bytes. -/
theorem pixel_offset_inj (bpl w x y x' y' : Int) (hb : w ≤ bpl) (hx : 0 ≤ x ∧ x < w)
    (hx' : 0 ≤ x' ∧ x' < w) (h : y' * bpl + x' = y * bpl + x) : x' = x ∧ y' = y := by
  obtain ⟨a, b⟩ := flat_inj (m := bpl) hx'.1 (by omega) hx.1 (by omega) h
  exact ⟨b, a⟩

/-! ## The origins the kernel is recalculated for -/

theorem recalc_mem_convolves {α : Type} (o : QPoint) (l : List α) (d s : α → Int) :
    Cmd.recalc o ∉ l.flatMap (fun x => [Cmd.convolve (d x) (s x)]) := by
  intro h
  obtain ⟨x, _, hx⟩ := List.mem_flatMap.1 h
  simp at hx

theorem recalc_mem_corner (o : QPoint) (as bs : List Int) (O : Int → Int → QPoint)
    (d s : Int → Int → Int)
    (h : Cmd.recalc o ∈ as.flatMap (fun a => bs.flatMap (fun b =>
      [Cmd.recalc (O a b), Cmd.convolve (d a b) (s a b)]))) :
    ∃ a ∈ as, ∃ b ∈ bs, o = O a b := by
  obtain ⟨a, ha, h1⟩ := List.mem_flatMap.1 h
  obtain ⟨b, hb, h2⟩ := List.mem_flatMap.1 h1
  simp at h2
  exact ⟨a, ha, b, hb, h2⟩

theorem recalc_mem_edge (o : QPoint) (as bs : List Int) (O : Int → QPoint)
    (d s : Int → Int → Int)
    (h : Cmd.recalc o ∈ as.flatMap (fun a => Cmd.recalc (O a) ::
      bs.flatMap (fun b => [Cmd.convolve (d a b) (s a b)]))) :
    ∃ a ∈ as, o = O a := by
  obtain ⟨a, ha, h1⟩ := List.mem_flatMap.1 h
  rcases List.mem_cons.1 h1 with h2 | h2
  · exact ⟨a, ha, by simpa using h2⟩
  · exact absurd h2 (recalc_mem_convolves o bs _ _)

/-- Every origin the region loops pass to `recalcForOrigin` is a point of the
window. -/
theorem regionLoops_recalc_valid (g : Geometry) (hkw : 1 ≤ g.kw) (hw : g.kw ≤ g.width)
    (hkh : 1 ≤ g.kh) (hh : g.kh ≤ g.height) (o : QPoint)
    (ho : Cmd.recalc o ∈ (regionLoops g).cmds) :
    (0 ≤ o.x ∧ o.x < g.kw) ∧ (0 ≤ o.y ∧ o.y < g.kh) := by
  obtain ⟨_, _, b1, b2, b3, b4, b5, b6, _, _, _, _⟩ := geometry_bounds g hkw hkh
  have hx1 : g.k_left ≤ g.width - g.k_right := by omega
  have hx2 : g.width - g.k_right ≤ g.width := by omega
  have hy1 : g.k_top ≤ g.height - g.k_bottom := by omega
  have hy2 : g.height - g.k_bottom ≤ g.height := by omega
  unfold regionLoops at ho
  simp only at ho
  rw [bottomRightCorner_cmds g hx2 hy2, bottomArea_cmds g hx1 hy2,
    bottomLeftCorner_cmds g b1 hy2, rightArea_cmds g hx2 hy1, leftArea_cmds g b1 hy1,
    centralArea_cmds g hx1 hy1, topRightCorner_cmds g hx2 b3, topArea_cmds g hx1 b3,
    topLeftCorner_cmds g b1 b3, List.nil_append] at ho
  have mem := @mem_intRange
  rcases List.mem_append.1 ho with ho | ho
  rcases List.mem_append.1 ho with ho | ho
  rcases List.mem_append.1 ho with ho | ho
  rcases List.mem_append.1 ho with ho | ho
  rcases List.mem_append.1 ho with ho | ho
  rcases List.mem_append.1 ho with ho | ho
  rcases List.mem_append.1 ho with ho | ho
  rcases List.mem_append.1 ho with ho | ho
  · obtain ⟨y, hy, x, hx, rfl⟩ := recalc_mem_corner o _ _ (fun y x => QPoint.mk x y) _ _ ho
    have := mem.1 hy
    have := mem.1 hx
    simp only
    omega
  · obtain ⟨y, hy, rfl⟩ := recalc_mem_edge o _ _ (fun y => QPoint.mk g.k_left y) _ _ ho
    have := mem.1 hy
    simp only
    omega
  · obtain ⟨y, hy, x, hx, rfl⟩ := recalc_mem_corner o _ _
      (fun y x => QPoint.mk (g.kw - 1 - (x - (g.width - g.k_right))) y) _ _ ho
    have := mem.1 hy
    have := mem.1 hx
    simp only
    omega
  · rcases List.mem_cons.1 ho with h | h
    · have e : o = QPoint.mk g.k_left g.k_top := by simpa using h
      subst e
      simp only
      omega
    · exfalso
      obtain ⟨y, _, h1⟩ := List.mem_flatMap.1 h
      exact recalc_mem_convolves o _ _ _ h1
  · obtain ⟨x, hx, rfl⟩ := recalc_mem_edge o _ _ (fun x => QPoint.mk x g.k_top) _ _ ho
    have := mem.1 hx
    simp only
    omega
  · obtain ⟨x, hx, rfl⟩ := recalc_mem_edge o _ _
      (fun x => QPoint.mk (g.k_left + 1 + (x - (g.width - g.k_right))) g.k_top) _ _ ho
    have := mem.1 hx
    simp only
    omega
  · obtain ⟨y, hy, x, hx, rfl⟩ := recalc_mem_corner o _ _
      (fun y x => QPoint.mk x (g.k_top + 1 + (y - (g.height - g.k_bottom)))) _ _ ho
    have := mem.1 hy
    have := mem.1 hx
    simp only
    omega
  · obtain ⟨y, hy, rfl⟩ := recalc_mem_edge o _ _
      (fun y => QPoint.mk g.k_left (g.k_top + 1 + (y - (g.height - g.k_bottom)))) _ _ ho
    have := mem.1 hy
    simp only
    omega
  · obtain ⟨y, hy, x, hx, rfl⟩ := recalc_mem_corner o _ _
      (fun y x => QPoint.mk (g.k_left + 1 + (x - (g.width - g.k_right)))
        (g.k_top + 1 + (y - (g.height - g.k_bottom)))) _ _ ho
    have := mem.1 hy
    have := mem.1 hx
    simp only
    omega

/-! ## The filter of order 0 -/

theorem recalc_uniform {K : Type} [LinearOrderedField K] (size : QSize) (hw : 0 < size.width)
    (hh : 0 < size.height) (k : SavGolKernel K) (hk : UniformKernel size k) (origin : QPoint)
    (hx : 0 ≤ origin.x ∧ origin.x < size.width) (hy : 0 ≤ origin.y ∧ origin.y < size.height) :
    ∃ k', k.recalcForOrigin origin = some k' ∧ UniformKernel size k' := by
  obtain ⟨hF, hd, _⟩ := hk
  have hm : k.m_numVars = 1 := by
    rw [hF.2.2.2.1]
    norm_num
  obtain ⟨k', hk', _, hd'⟩ := recalc_one_var k hm hd origin
  obtain ⟨hF', hL⟩ := recalc_leastSquares 0 (le_refl 0) size k k' hF origin hx.1 hx.2 hy.1 hy.2
    hk'
  exact ⟨k', hk', hF', hd', fun p hp1 hp2 =>
    leastSquares_order_zero size hw hh origin k' hL p hp1 hp2⟩

section OrderZero

variable {K : Type} [LinearOrderedField K] [FloorRing K]

theorem convolve_uniform (k : SavGolKernel K) (c : K) (hw : 0 ≤ k.m_width)
    (hk : ∀ p : Int, 0 ≤ p → p < k.m_width * k.m_height → k.m_kernel p = c)
    (src : Int → Nat) (src_top_left src_bpl : Int) :
    k.convolve src src_top_left src_bpl
      = uniformConvolve c k.m_width k.m_height src src_top_left src_bpl := by
  unfold SavGolKernel.convolve uniformConvolve
  simp only
  rw [convolveSum_eq]
  congr 3
  apply Finset.sum_congr rfl
  intro y hy
  apply Finset.sum_congr rfl
  intro x hx
  obtain ⟨y1, y2⟩ := Finset.mem_Ico.1 hy
  obtain ⟨x1, x2⟩ := Finset.mem_Ico.1 hx
  rw [hk (y * k.m_width + x) (add_nonneg (mul_nonneg y1 hw) x1) ?_]
  have h1 : (y + 1) * k.m_width ≤ k.m_height * k.m_width :=
    mul_le_mul_of_nonneg_right (by omega) hw
  have h2 : (y + 1) * k.m_width = y * k.m_width + k.m_width := by ring
  have h3 : k.m_height * k.m_width = k.m_width * k.m_height := mul_comm _ _
  omega

/-- With a uniform kernel and origins inside the window, the recorded calls
have a result: every `convolve` stores the byte of the uniform kernel. -/
theorem runCmds_uniform (size : QSize) (hw : 0 < size.width) (hh : 0 < size.height)
    (src : Int → Nat) (src_bpl : Int) (cmds : List Cmd)
    (hvalid : ∀ o, Cmd.recalc o ∈ cmds →
      (0 ≤ o.x ∧ o.x < size.width) ∧ (0 ≤ o.y ∧ o.y < size.height)) :
    ∀ (k : SavGolKernel K) (dst : Int → Nat) (o0 : QPoint), UniformKernel size k →
      ∃ k', runCmds src src_bpl cmds (k, dst)
        = some (k', (callsOf o0 cmds).foldl (fun d c => Function.update d c.dst
            (uniformConvolve (1 / ((size.width : K) * (size.height : K))) size.width
              size.height src c.src_top_left src_bpl)) dst) ∧
        UniformKernel size k' := by
  induction cmds with
  | nil =>
    intro k dst o0 hk
    exact ⟨k, rfl, hk⟩
  | cons cmd cmds ih =>
    intro k dst o0 hk
    have hv' : ∀ o, Cmd.recalc o ∈ cmds →
        (0 ≤ o.x ∧ o.x < size.width) ∧ (0 ≤ o.y ∧ o.y < size.height) :=
      fun o ho => hvalid o (List.mem_cons_of_mem _ ho)
    cases cmd with
    | recalc o =>
      obtain ⟨hx, hy⟩ := hvalid o (List.mem_cons_self _ _)
      obtain ⟨k1, hk1, hu1⟩ := recalc_uniform size hw hh k hk o hx hy
      obtain ⟨k', hk', hu'⟩ := ih hv' k1 dst o hu1
      refine ⟨k', ?_, hu'⟩
      simp only [runCmds, List.foldlM_cons, runCmd, hk1, Option.map_some', Option.bind_eq_bind,
        Option.some_bind]
      exact hk'
    | convolve d s =>
      have hconv : k.convolve src s src_bpl
          = uniformConvolve (1 / ((size.width : K) * (size.height : K))) size.width
              size.height src s src_bpl := by
        obtain ⟨hF, _, hker⟩ := hk
        have e1 := hF.2.1
        have e2 := hF.2.2.1
        rw [← e1, ← e2]
        apply convolve_uniform k _ (by omega)
        intro p hp1 hp2
        rw [e1, e2] at hp2 ⊢
        exact hker p hp1 hp2
      obtain ⟨k', hk', hu'⟩ := ih hv' k (Function.update dst d (k.convolve src s src_bpl)) o0 hk
      refine ⟨k', ?_, hu'⟩
      simp only [runCmds, List.foldlM_cons, runCmd, Option.bind_eq_bind, Option.some_bind]
      rw [show callsOf o0 (Cmd.convolve d s :: cmds)
        = ConvolveCall.mk d s o0 :: callsOf o0 cmds from rfl, List.foldl_cons, ← hconv]
      exact hk'

end OrderZero

/-- Writes to distinct places: the place of a write holds the value written. -/
theorem foldl_update_nodup {α : Type} (l : List α) (key : α → Int) (val : α → Nat)
    (hn : (l.map key).Nodup) (d : Int → Nat) (c : α) (hc : c ∈ l) :
    (l.foldl (fun d c => Function.update d (key c) (val c)) d) (key c) = val c := by
  have frame : ∀ (l : List α) (d : Int → Nat) (i : Int), i ∉ l.map key →
      (l.foldl (fun d c => Function.update d (key c) (val c)) d) i = d i := by
    intro l
    induction l with
    | nil => intro d i _; rfl
    | cons a l ih =>
      intro d i hi
      rw [List.foldl_cons, ih _ i (fun h => hi (by simp [h])),
        Function.update_noteq (fun h => hi (by simp [h]))]
  induction l generalizing d with
  | nil => cases hc
  | cons a l ih =>
    rw [List.map_cons, List.nodup_cons] at hn
    rw [List.foldl_cons]
    rcases List.mem_cons.1 hc with h | h
    · subst h
      rw [frame l _ _ hn.1, Function.update_same]
    · exact ih hn.2 _ h

theorem create_bytesPerLine (width height : Int) (uninit : Int → Nat) (hw : 0 ≤ width) :
    width ≤ (QImage.create width height uninit).bytesPerLine := by
  unfold QImage.create
  simp only
  rw [Int.tdiv_eq_ediv (by omega) (by norm_num)]
  omega

section OrderZeroFilter

variable {K : Type} [LinearOrderedField K] [FloorRing K]

/-- For order 0 (assertions compiled out) and a window that is not empty and
not larger than the image, the filter has a result: the image in which every
pixel `(x, y)` is the truncated mean of the source window of its size whose
top-left corner is `(left x, top y)`. -/
theorem filter_order_zero (sqrt : K → K) (hsq : ∀ x : K, 0 ≤ x → sqrt x * sqrt x = x)
    (uninit : Int → Nat) (src : QImage) (ws : QSize)
    (hkw : 1 ≤ ws.width) (hw : ws.width ≤ src.width)
    (hkh : 1 ≤ ws.height) (hh : ws.height ≤ src.height) :
    ∃ dst : QImage, savGolFilterGrayToGray true sqrt uninit src ws 0 = some dst ∧
      dst.width = src.width ∧ dst.height = src.height ∧
      dst.bytesPerLine = (QImage.create src.width src.height uninit).bytesPerLine ∧
      ∀ x y : Int, 0 ≤ x → x < src.width → 0 ≤ y → y < src.height →
        dst.bits (y * dst.bytesPerLine + x)
          = uniformConvolve (1 / ((ws.width : K) * (ws.height : K))) ws.width ws.height
              src.bits
              ((Geometry.mk src.width src.height ws.width ws.height src.bytesPerLine
                  (QImage.create src.width src.height uninit).bytesPerLine).top y
                  * src.bytesPerLine
                + (Geometry.mk src.width src.height ws.width ws.height src.bytesPerLine
                  (QImage.create src.width src.height uninit).bytesPerLine).left x)
              src.bytesPerLine := by
  set g : Geometry := Geometry.mk src.width src.height ws.width ws.height src.bytesPerLine
    (QImage.create src.width src.height uninit).bytesPerLine with hg
  have gkw : 1 ≤ g.kw := hkw
  have gw : g.kw ≤ g.width := hw
  have gkh : 1 ≤ g.kh := hkh
  have gh : g.kh ≤ g.height := hh
  have hbpl : g.width ≤ g.dst_bpl := create_bytesPerLine src.width src.height uninit
    (by omega)
  -- the kernel of the constructor
  obtain ⟨k0, hk0, _, hd0⟩ := build_order_zero sqrt hsq ws (by omega) (by omega) (QPoint.mk 0 0)
  obtain ⟨kq, hFq, hre⟩ := build_factored sqrt hsq 0 ws (QPoint.mk 0 0) k0 hk0
  obtain ⟨hF0, hL0⟩ := recalc_leastSquares 0 (le_refl 0) ws kq k0 hFq (QPoint.mk 0 0)
    (le_refl 0) (by simp only; omega) (le_refl 0) (by simp only; omega) hre
  have hU0 : UniformKernel ws k0 := ⟨hF0, hd0, fun p hp1 hp2 =>
    leastSquares_order_zero ws (by omega) (by omega) (QPoint.mk 0 0) k0 hL0 p hp1 hp2⟩
  -- the recorded calls
  obtain ⟨k', hrun, _⟩ := runCmds_uniform ws (by omega) (by omega) src.bits src.bytesPerLine
    (regionLoops g).cmds (fun o ho => regionLoops_recalc_valid g gkw gw gkh gh o ho)
    k0 (QImage.create src.width src.height uninit).bits (QPoint.mk 0 0) hU0
  have hcalls : callsOf (QPoint.mk 0 0) (regionLoops g).cmds = g.pixelOrder.map g.callAt :=
    convolveCalls_eq g gkw gw gkh gh
  rw [hcalls] at hrun
  have hnew : SavGolKernel.new true sqrt 0 ws (QPoint.mk 0 0) = some k0 := by
    simpa [SavGolKernel.new] using hk0
  refine ⟨{ QImage.create src.width src.height uninit with
      bits := (g.pixelOrder.map g.callAt).foldl (fun d c => Function.update d c.dst
        (uniformConvolve (1 / ((ws.width : K) * (ws.height : K))) ws.width ws.height
          src.bits c.src_top_left src.bytesPerLine))
        (QImage.create src.width src.height uninit).bits }, ?_, rfl, rfl, rfl, ?_⟩
  · unfold savGolFilterGrayToGray
    simp only
    rw [if_neg (by omega), hnew, Option.some_bind, ← hg, hrun]
    rfl
  · intro x y hx1 hx2 hy1 hy2
    have hmem : (x, y) ∈ g.pixelOrder := by
      have hc := count_pixelOrder g gkw gw gkh gh x y
      rw [if_pos ⟨hx1, hx2, hy1, hy2⟩] at hc
      exact List.count_pos_iff.1 (by omega)
    have hnodup : ((g.pixelOrder.map g.callAt).map ConvolveCall.dst).Nodup := by
      rw [List.map_map]
      refine List.Nodup.map_on ?_ (pixelOrder_nodup g gkw gw gkh gh)
      intro p hp q hq hpq
      obtain ⟨p1, p2, _, _⟩ := pixelOrder_mem g gkw gw gkh gh p hp
      obtain ⟨q1, q2, _, _⟩ := pixelOrder_mem g gkw gw gkh gh q hq
      obtain ⟨a, b⟩ := pixel_offset_inj g.dst_bpl g.width q.1 q.2 p.1 p.2 hbpl ⟨q1, q2⟩
        ⟨p1, p2⟩ hpq
      exact Prod.ext a b
    have := foldl_update_nodup (g.pixelOrder.map g.callAt) ConvolveCall.dst
      (fun c => uniformConvolve (1 / ((ws.width : K) * (ws.height : K))) ws.width ws.height
        src.bits c.src_top_left src.bytesPerLine) hnodup
      (QImage.create src.width src.height uninit).bits (g.callAt (x, y))
      (List.mem_map.2 ⟨(x, y), hmem, rfl⟩)
    exact this

end OrderZeroFilter

/-! ## One bright pixel on a dark image -/

/-- The sum over a window of an image that is zero except at `(px, py)`. -/
theorem window_sum_single {K : Type} [LinearOrderedField K] (w h l t px py : Int) (c v : K) :
    ∑ y ∈ Finset.Ico 0 h, ∑ x ∈ Finset.Ico 0 w,
        c * (if l + x = px ∧ t + y = py then v else 0)
      = if (l ≤ px ∧ px < l + w) ∧ (t ≤ py ∧ py < t + h) then c * v else 0 := by
  have inner : ∀ y : Int, ∑ x ∈ Finset.Ico 0 w, c * (if l + x = px ∧ t + y = py then v else 0)
      = if (l ≤ px ∧ px < l + w) ∧ t + y = py then c * v else 0 := by
    intro y
    by_cases hy : t + y = py
    · by_cases hx : l ≤ px ∧ px < l + w
      · rw [if_pos ⟨hx, hy⟩, Finset.sum_eq_single (px - l)]
        · rw [if_pos ⟨by omega, hy⟩]
        · intro x _ hne
          rw [if_neg (fun hc => hne (by omega)), mul_zero]
        · intro hnot
          exact absurd (Finset.mem_Ico.2 ⟨by omega, by omega⟩) hnot
      · rw [if_neg (fun hc => hx hc.1)]
        apply Finset.sum_eq_zero
        intro x hx'
        have := Finset.mem_Ico.1 hx'
        rw [if_neg (fun hc => hx (by omega)), mul_zero]
    · rw [if_neg (fun hc => hy hc.2)]
      apply Finset.sum_eq_zero
      intro x _
      rw [if_neg (fun hc => hy hc.2), mul_zero]
  simp only [inner]
  by_cases hy : t ≤ py ∧ py < t + h
  · by_cases hx : l ≤ px ∧ px < l + w
    · rw [if_pos ⟨hx, hy⟩, Finset.sum_eq_single (py - t)]
      · rw [if_pos ⟨hx, by omega⟩]
      · intro y _ hne
        rw [if_neg (fun hc => hne (by omega))]
      · intro hnot
        exact absurd (Finset.mem_Ico.2 ⟨by omega, by omega⟩) hnot
    · rw [if_neg (fun hc => hx hc.1)]
      apply Finset.sum_eq_zero
      intro y _
      rw [if_neg (fun hc => hx hc.1)]
  · rw [if_neg (fun hc => hy hc.2)]
    apply Finset.sum_eq_zero
    intro y hy'
    have := Finset.mem_Ico.1 hy'
    rw [if_neg (fun hc => hy (by omega))]

/-- A 10x10 image that is 0 except for one pixel of value 255 at `(px, py)`,
filtered with the window (3, 3) and order 0 (assertions compiled out): the
output pixel `(x, y)` is 28 when `(px, py)` lies in its source window, whose
centre is `(x, y)` clamped to `[1, 8] x [1, 8]`, and 0 otherwise. -/
theorem bright_pixel_filter (uninit : Int → Nat) (src : QImage) (px py : Int)
    (hsw : src.width = 10) (hsh : src.height = 10)
    (hbits : ∀ x y : Int, 0 ≤ x → x < 10 → 0 ≤ y → y < 10 →
      src.bits (y * src.bytesPerLine + x) = if x = px ∧ y = py then 255 else 0) :
    ∃ dst : QImage, savGolFilterGrayToGray true Real.sqrt uninit src (QSize.mk 3 3) 0
        = some dst ∧ dst.width = 10 ∧ dst.height = 10 ∧
      ∀ x y : Int, 0 ≤ x → x < 10 → 0 ≤ y → y < 10 →
        dst.bits (y * dst.bytesPerLine + x)
          = if (px - 1 ≤ max 1 (min 8 x) ∧ max 1 (min 8 x) ≤ px + 1) ∧
              (py - 1 ≤ max 1 (min 8 y) ∧ max 1 (min 8 y) ≤ py + 1) then 28 else 0 := by
  obtain ⟨dst, hdst, hdw, hdh, _, hval⟩ := filter_order_zero Real.sqrt
    (fun x hx => Real.mul_self_sqrt hx) uninit src (QSize.mk 3 3)
    (by norm_num) (by rw [hsw]; norm_num) (by norm_num) (by rw [hsh]; norm_num)
  refine ⟨dst, hdst, by rw [hdw, hsw], by rw [hdh, hsh], ?_⟩
  intro x y hx1 hx2 hy1 hy2
  rw [hval x y hx1 (by rw [hsw]; exact hx2) hy1 (by rw [hsh]; exact hy2)]
  have hl : (Geometry.mk src.width src.height (QSize.mk 3 3).width (QSize.mk 3 3).height
      src.bytesPerLine (QImage.create src.width src.height uninit).bytesPerLine).left x
      = max 1 (min 8 x) - 1 := by
    simp only [Geometry.left, Geometry.k_left, hsw]
    rw [show (3 : Int).tdiv 2 = 1 by decide]
    omega
  have ht : (Geometry.mk src.width src.height (QSize.mk 3 3).width (QSize.mk 3 3).height
      src.bytesPerLine (QImage.create src.width src.height uninit).bytesPerLine).top y
      = max 1 (min 8 y) - 1 := by
    simp only [Geometry.top, Geometry.k_top, hsh]
    rw [show (3 : Int).tdiv 2 = 1 by decide]
    omega
  rw [hl, ht]
  set l := max 1 (min 8 x) - 1 with hl'
  set t := max 1 (min 8 y) - 1 with ht'
  have hlr : 0 ≤ l ∧ l ≤ 7 := by omega
  have htr : 0 ≤ t ∧ t ≤ 7 := by omega
  unfold uniformConvolve
  have hsum : ∑ y' ∈ Finset.Ico 0 (QSize.mk 3 3).height,
      ∑ x' ∈ Finset.Ico 0 (QSize.mk 3 3).width,
        1 / (((QSize.mk 3 3).width : ℝ) * ((QSize.mk 3 3).height : ℝ))
          * (src.bits (t * src.bytesPerLine + l + y' * src.bytesPerLine + x') : ℝ)
      = if (l ≤ px ∧ px < l + 3) ∧ (t ≤ py ∧ py < t + 3) then (1 / (3 * 3) : ℝ) * 255
        else 0 := by
    rw [← window_sum_single 3 3 l t px py (1 / (3 * 3) : ℝ) 255]
    apply Finset.sum_congr rfl
    intro y' hy'
    apply Finset.sum_congr rfl
    intro x' hx'
    have hy'' := Finset.mem_Ico.1 hy'
    have hx'' := Finset.mem_Ico.1 hx'
    simp only at hy'' hx''
    have e : t * src.bytesPerLine + l + y' * src.bytesPerLine + x'
        = (t + y') * src.bytesPerLine + (l + x') := by ring
    rw [e, hbits (l + x') (t + y') (by omega) (by omega) (by omega) (by omega)]
    push_cast
    split_ifs <;> norm_num
  rw [hsum]
  have hcond : ((l ≤ px ∧ px < l + 3) ∧ (t ≤ py ∧ py < t + 3))
      ↔ ((px - 1 ≤ max 1 (min 8 x) ∧ max 1 (min 8 x) ≤ px + 1) ∧
          (py - 1 ≤ max 1 (min 8 y) ∧ max 1 (min 8 y) ≤ py + 1)) := by
    omega
  by_cases hc : (l ≤ px ∧ px < l + 3) ∧ (t ≤ py ∧ py < t + 3)
  · rw [if_pos hc, if_pos (hcond.1 hc)]
    have hfl : truncToInt ((1 / (3 * 3) : ℝ) * 255) = 28 := by
      unfold truncToInt
      rw [if_pos (by norm_num), Int.floor_eq_iff]
      constructor <;> norm_num
    rw [hfl]
    decide
  · rw [if_neg hc, if_neg (fun h => hc (hcond.2 h))]
    have hfl : truncToInt (0 : ℝ) = 0 := by
      unfold truncToInt
      simp
    rw [hfl]
    decide

/-! ## The source bytes `convolve` reads -/

section Reads

variable {K : Type} [LinearOrderedField K] [FloorRing K]

/-- The byte stored by `convolve` depends on the source bytes of its window only. -/
theorem convolve_reads_window (k : SavGolKernel K) (src src' : Int → Nat)
    (src_top_left src_bpl : Int)
    (h : ∀ y x : Int, 0 ≤ y → y < k.m_height → 0 ≤ x → x < k.m_width →
      src (src_top_left + y * src_bpl + x) = src' (src_top_left + y * src_bpl + x)) :
    k.convolve src src_top_left src_bpl = k.convolve src' src_top_left src_bpl := by
  unfold SavGolKernel.convolve
  rw [convolveSum_eq, convolveSum_eq]
  have e : ∑ y ∈ Finset.Ico 0 k.m_height, ∑ x ∈ Finset.Ico 0 k.m_width,
        k.m_kernel (y * k.m_width + x) * (src (src_top_left + y * src_bpl + x) : K)
      = ∑ y ∈ Finset.Ico 0 k.m_height, ∑ x ∈ Finset.Ico 0 k.m_width,
        k.m_kernel (y * k.m_width + x) * (src' (src_top_left + y * src_bpl + x) : K) := by
    apply Finset.sum_congr rfl
    intro y hy
    apply Finset.sum_congr rfl
    intro x hx
    obtain ⟨y1, y2⟩ := Finset.mem_Ico.1 hy
    obtain ⟨x1, x2⟩ := Finset.mem_Ico.1 hx
    rw [h y x y1 y2 x1 x2]
  rw [e]

end Reads

/-- The source window of a pixel of the image lies inside the image. -/
theorem window_inside_image (g : Geometry) (hkw : 1 ≤ g.kw) (hw : g.kw ≤ g.width)
    (hkh : 1 ≤ g.kh) (hh : g.kh ≤ g.height) (x y : Int) :
    g.left x = max 0 (min (g.width - g.kw) (x - g.kw / 2)) ∧
    g.top y = max 0 (min (g.height - g.kh) (y - g.kh / 2)) ∧
    0 ≤ g.left x ∧ g.left x + g.kw ≤ g.width ∧ 0 ≤ g.top y ∧ g.top y + g.kh ≤ g.height := by
  have e1 : g.k_left = g.kw / 2 := by
    unfold Geometry.k_left
    exact Int.tdiv_eq_ediv (by omega) (by norm_num)
  have e2 : g.k_top = g.kh / 2 := by
    unfold Geometry.k_top
    exact Int.tdiv_eq_ediv (by omega) (by norm_num)
  unfold Geometry.left Geometry.top
  rw [e1, e2]
  refine ⟨rfl, rfl, ?_, ?_, ?_, ?_⟩ <;> omega

/-! ## The byte stored for a negative sum -/

section NegativeSum

variable {K : Type} [LinearOrderedField K] [FloorRing K]

/-- For a negative sum the truncation is the ceiling, the floor and the
nearest integer are at most the ceiling, and every integer up to the ceiling
is clamped to 0. -/
theorem negative_sum_clamped (S : K) (hS : S < 0) :
    truncToInt S = Int.ceil S ∧
    (∀ r : Int, r ≤ Int.ceil S → (qBound 0 r 255).toNat = 0) ∧
    Int.floor S ≤ Int.ceil S ∧ round S ≤ Int.ceil S := by
  have hc : Int.ceil S ≤ 0 := Int.ceil_le.2 (by exact_mod_cast le_of_lt hS)
  refine ⟨?_, ?_, Int.floor_le_ceil S, ?_⟩
  · unfold truncToInt
    rw [if_neg (not_le.2 hS)]
  · intro r hr
    unfold qBound
    omega
  · rw [round_eq]
    have h1 : S ≤ (Int.ceil S : K) := Int.le_ceil S
    have h2 : Int.floor (S + 1 / 2) < Int.ceil S + 1 := by
      rw [Int.floor_lt]
      push_cast
      linarith
    omega

end NegativeSum

/-! ## The kernel of the constructor and of a later `recalcForOrigin` -/

theorem new_leastSquares (ndebug : Bool) (order : Int) (size : QSize)
    (origin0 : QPoint) (k0 : SavGolKernel ℝ) (ho : 0 ≤ order)
    (hnew : SavGolKernel.new ndebug Real.sqrt order size origin0 = some k0) :
    Factored order size k0 ∧
    (0 ≤ origin0.x → origin0.x < size.width → 0 ≤ origin0.y → origin0.y < size.height →
      IsLeastSquaresKernel order size origin0 k0) ∧
    ∀ (origin : QPoint) (k : SavGolKernel ℝ),
      0 ≤ origin.x → origin.x < size.width → 0 ≤ origin.y → origin.y < size.height →
      k0.recalcForOrigin origin = some k → IsLeastSquaresKernel order size origin k := by
  obtain ⟨kq, hF, hre⟩ := build_factored Real.sqrt (fun x hx => Real.mul_self_sqrt hx) order
    size origin0 k0 (new_eq_build ndebug Real.sqrt order size origin0 k0 hnew)
  -- `recalcForOrigin` does not touch the factorization
  have hF0 : Factored order size k0 := by
    obtain ⟨fo, fw, fh, fm, fn, finv⟩ := hF
    unfold SavGolKernel.recalcForOrigin at hre
    simp only at hre
    cases hb : backSubstitute kq.m_numVars kq.m_equations
        (rotateDataPoints kq.m_numVars kq.m_numDataPoints
          (Function.update (fun _ => 0) (origin0.y * kq.m_width + origin0.x) 1)
          kq.m_rotations).1 kq.m_coeffs with
    | none => rw [hb] at hre; cases hre
    | some c =>
      rw [hb] at hre
      simp only [Option.map_some', Option.some.injEq] at hre
      subst hre
      exact ⟨fo, fw, fh, fm, fn, finv⟩
  refine ⟨hF0, ?_, ?_⟩
  · intro h1 h2 h3 h4
    exact (recalc_leastSquares order ho size kq k0 hF origin0 h1 h2 h3 h4 hre).2
  · intro origin k h1 h2 h3 h4 hk
    exact (recalc_leastSquares order ho size k0 k hF0 origin h1 h2 h3 h4 hk).2

/-! ## The claims -/

section Claims

variable {K : Type} [LinearOrderedField K] [FloorRing K]

/-- C1: `savGolFilter` throws `std::invalid_argument` exactly when the window is
empty (`width <= 0` or `height <= 0`) or `(order+1)^2 > width*height`, whatever
the source image and its grayscale conversion are; order 3 with a 3x3 window is
rejected. -/
theorem savGolFilter_invalid_argument_iff {Image : Type} (ndebug : Bool) (sqrt : K → K)
    (uninit : Int → Nat) (toGrayscale : Image → QImage) (src : Image)
    (window_size : QSize) (order : Int) :
    ((∃ msg, savGolFilter ndebug sqrt uninit toGrayscale src window_size order
        = Except.error msg) ↔
      (window_size.width ≤ 0 ∨ window_size.height ≤ 0 ∨
        (order + 1) ^ 2 > window_size.width * window_size.height)) ∧
    (∃ msg, savGolFilter ndebug sqrt uninit toGrayscale src (QSize.mk 3 3) 3
        = Except.error msg) := by
  constructor
  · unfold savGolFilter QSize.isEmpty
    rw [pow_two]
    by_cases hw : window_size.width < 1
    · simp only [hw, decide_True, Bool.true_or, if_true]
      exact ⟨fun _ => Or.inl (by omega), fun _ => ⟨_, rfl⟩⟩
    · by_cases hh : window_size.height < 1
      · simp only [hw, hh, decide_True, decide_False, Bool.false_or, if_true]
        exact ⟨fun _ => Or.inr (Or.inl (by omega)), fun _ => ⟨_, rfl⟩⟩
      · by_cases ho : (order + 1) * (order + 1) > window_size.width * window_size.height
        · simp only [hw, hh, ho, decide_False, Bool.false_or, if_true]
          simp
        · simp only [hw, hh, ho, decide_False, Bool.false_or, if_false]
          constructor
          · rintro ⟨msg, h⟩
            cases h
          · rintro (h | h | h)
            · omega
            · omega
            · exact h.elim
  · exact ⟨_, rfl⟩

/-- C2: when the window passed the configuration check and is wider or higher
than the grayscale image, `savGolFilterGrayToGray` returns that image itself
and `savGolFilter` returns the grayscale conversion of its source, for every
order and with or without assertions: no kernel is constructed. -/
theorem savGolFilter_window_larger_than_image {Image : Type} (ndebug : Bool) (sqrt : K → K)
    (uninit : Int → Nat) (toGrayscale : Image → QImage) (src : Image)
    (window_size : QSize) (order : Int)
    (hw : 0 < window_size.width) (hh : 0 < window_size.height)
    (ho : (order + 1) ^ 2 ≤ window_size.width * window_size.height)
    (hbig : window_size.width > (toGrayscale src).width ∨
      window_size.height > (toGrayscale src).height) :
    savGolFilterGrayToGray ndebug sqrt uninit (toGrayscale src) window_size order
        = some (toGrayscale src) ∧
    savGolFilter ndebug sqrt uninit toGrayscale src window_size order
        = Except.ok (some (toGrayscale src)) := by
  have h1 : savGolFilterGrayToGray ndebug sqrt uninit (toGrayscale src) window_size order
      = some (toGrayscale src) := by
    unfold savGolFilterGrayToGray
    simp only [hbig, if_true]
  refine ⟨h1, ?_⟩
  unfold savGolFilter QSize.isEmpty
  rw [pow_two] at ho
  have hw' : ¬ window_size.width < 1 := by omega
  have hh' : ¬ window_size.height < 1 := by omega
  have ho' : ¬ (order + 1) * (order + 1) > window_size.width * window_size.height := by omega
  simp only [hw', hh', ho', decide_False, Bool.false_or, if_false, h1]
  rfl

/-- The 5x5 image with a 7x7 window and order 2 is returned unchanged. -/
theorem savGolFilter_window_larger_than_image_witness :
    savGolFilterGrayToGray (K := ℚ) false id (fun _ => 0)
        (QImage.mk 5 5 8 (fun _ => 7)) (QSize.mk 7 7) 2
        = some (QImage.mk 5 5 8 (fun _ => 7)) ∧
    savGolFilter (K := ℚ) false id (fun _ => 0) (fun i : QImage => i)
        (QImage.mk 5 5 8 (fun _ => 7)) (QSize.mk 7 7) 2
        = Except.ok (some (QImage.mk 5 5 8 (fun _ => 7))) :=
  savGolFilter_window_larger_than_image false id (fun _ => 0) (fun i : QImage => i)
    (QImage.mk 5 5 8 (fun _ => 7)) (QSize.mk 7 7) 2 (by decide) (by decide) (by decide)
    (Or.inl (by decide))

/-- C3: in real arithmetic, whenever the constructor has a result (no Givens
radius and no diagonal entry of R is zero, and no assertion fails), its kernel
is the least-squares kernel for the constructor's origin, and every
`recalcForOrigin` that has a result leaves the least-squares kernel for its
origin: the coefficients solve the normal equations `AᵀA c = Aᵀe_o` of the
equation matrix with rows `[y^i * x^j]`, the weights are the values of the
fitted polynomial, and the weights reproduce every monomial at the origin. -/
theorem kernel_is_least_squares (ndebug : Bool) (order : Int) (size : QSize)
    (origin0 : QPoint) (k0 : SavGolKernel ℝ) (ho : 0 ≤ order)
    (hnew : SavGolKernel.new ndebug Real.sqrt order size origin0 = some k0) :
    (0 ≤ origin0.x → origin0.x < size.width → 0 ≤ origin0.y → origin0.y < size.height →
      IsLeastSquaresKernel order size origin0 k0) ∧
    ∀ (origin : QPoint) (k : SavGolKernel ℝ),
      0 ≤ origin.x → origin.x < size.width → 0 ≤ origin.y → origin.y < size.height →
      k0.recalcForOrigin origin = some k → IsLeastSquaresKernel order size origin k := by
  exact (new_leastSquares ndebug order size origin0 k0 ho hnew).2

/-- A 2x2 window with order 0 (assertions compiled out): the constructor has
a result, and its kernel is the least-squares kernel. -/
theorem kernel_is_least_squares_witness :
    ∃ k0 : SavGolKernel ℝ,
      SavGolKernel.new true Real.sqrt 0 (QSize.mk 2 2) (QPoint.mk 0 0) = some k0 ∧
      ((0 ≤ (QPoint.mk 0 0).x → (QPoint.mk 0 0).x < (QSize.mk 2 2).width →
          0 ≤ (QPoint.mk 0 0).y → (QPoint.mk 0 0).y < (QSize.mk 2 2).height →
        IsLeastSquaresKernel 0 (QSize.mk 2 2) (QPoint.mk 0 0) k0) ∧
      ∀ (origin : QPoint) (k : SavGolKernel ℝ),
        0 ≤ origin.x → origin.x < (QSize.mk 2 2).width → 0 ≤ origin.y →
        origin.y < (QSize.mk 2 2).height →
        k0.recalcForOrigin origin = some k →
        IsLeastSquaresKernel 0 (QSize.mk 2 2) origin k) := by
  obtain ⟨k0, hk0, _⟩ := build_order_zero Real.sqrt (fun x hx => Real.mul_self_sqrt hx)
    (QSize.mk 2 2) (by decide) (by decide) (QPoint.mk 0 0)
  have hnew : SavGolKernel.new true Real.sqrt 0 (QSize.mk 2 2) (QPoint.mk 0 0) = some k0 := by
    simpa [SavGolKernel.new] using hk0
  exact ⟨k0, hnew,
    kernel_is_least_squares true 0 (QSize.mk 2 2) (QPoint.mk 0 0) k0 (le_refl 0) hnew⟩

/-- C4 (the code at a failing input): the window (1, 4) with order 1 is a
valid pair (`width > 0`, `height > 0`, `order > 0`, `(order+1)^2 <= width*height`),
yet the constructor has no kernel for the origin `(width/2, height/2)`, with or
without assertions: `QR` divides by the radius `sqrt(0*0 + 0*0)`. -/
theorem kernel_undefined_for_window_1x4_order_1 (ndebug : Bool) :
    ((0 : Int) < 1 ∧ (0 : Int) < 4 ∧ (1 : Int) > 0 ∧ ((1 : Int) + 1) ^ 2 ≤ 1 * 4) ∧
    SavGolKernel.new ndebug Real.sqrt 1 (QSize.mk 1 4)
      (QPoint.mk ((1 : Int).tdiv 2) ((4 : Int).tdiv 2)) = none := by
  refine ⟨by decide, ?_⟩
  unfold SavGolKernel.new
  rw [build_1x4_order_1 Real.sqrt (fun x hx => Real.mul_self_sqrt hx)]
  simp

/-- C5 (counterexample): with assertions enabled the constructor has no
result for order 0, here for a 3x3 window: its assertion `order > 0` fails. -/
theorem order_zero_fails_constructor_assertion :
    SavGolKernel.new false Real.sqrt 0 (QSize.mk 3 3) (QPoint.mk 1 1) = none := by
  simp [SavGolKernel.new, ctorAsserts]

/-- C5 (amended): with assertions compiled out, for every window of size
`(w, h)` with `w, h > 0`, order 0 and all origins inside the window, the
constructor and a following `recalcForOrigin` have a result, and each leaves
`w*h` weights all equal to `1 / (w*h)`. -/
theorem order_zero_kernel_is_uniform (size : QSize) (origin0 origin : QPoint)
    (hw : 0 < size.width) (hh : 0 < size.height)
    (h0x : 0 ≤ origin0.x ∧ origin0.x < size.width)
    (h0y : 0 ≤ origin0.y ∧ origin0.y < size.height)
    (hx : 0 ≤ origin.x ∧ origin.x < size.width)
    (hy : 0 ≤ origin.y ∧ origin.y < size.height) :
    ∃ k0 k : SavGolKernel ℝ,
      SavGolKernel.new true Real.sqrt 0 size origin0 = some k0 ∧
      k0.recalcForOrigin origin = some k ∧
      ∀ p : Int, 0 ≤ p → p < size.width * size.height →
        k0.m_kernel p = 1 / ((size.width : ℝ) * (size.height : ℝ)) ∧
        k.m_kernel p = 1 / ((size.width : ℝ) * (size.height : ℝ)) := by
  obtain ⟨k0, hk0, hm, hd⟩ := build_order_zero Real.sqrt (fun x hx => Real.mul_self_sqrt hx)
    size hw hh origin0
  obtain ⟨k, hk, _, _⟩ := recalc_one_var k0 hm hd origin
  have hnew : SavGolKernel.new true Real.sqrt 0 size origin0 = some k0 := by
    simpa [SavGolKernel.new] using hk0
  obtain ⟨_, a, b⟩ := new_leastSquares true 0 size origin0 k0 (le_refl 0) hnew
  refine ⟨k0, k, hnew, hk, ?_⟩
  intro p hp1 hp2
  exact ⟨leastSquares_order_zero size hw hh origin0 k0 (a h0x.1 h0x.2 h0y.1 h0y.2) p hp1 hp2,
    leastSquares_order_zero size hw hh origin k (b origin k hx.1 hx.2 hy.1 hy.2 hk) p hp1 hp2⟩

/-- A 3x3 window with order 0: every weight is 1/(3*3). -/
theorem order_zero_kernel_is_uniform_witness :
    ∃ k0 k : SavGolKernel ℝ,
      SavGolKernel.new true Real.sqrt 0 (QSize.mk 3 3) (QPoint.mk 0 0) = some k0 ∧
      k0.recalcForOrigin (QPoint.mk 1 1) = some k ∧
      ∀ p : Int, 0 ≤ p → p < (QSize.mk 3 3).width * (QSize.mk 3 3).height →
        k0.m_kernel p = 1 / (((QSize.mk 3 3).width : ℝ) * ((QSize.mk 3 3).height : ℝ)) ∧
        k.m_kernel p = 1 / (((QSize.mk 3 3).width : ℝ) * ((QSize.mk 3 3).height : ℝ)) :=
  order_zero_kernel_is_uniform (QSize.mk 3 3) (QPoint.mk 0 0) (QPoint.mk 1 1) (by decide)
    (by decide) (by decide) (by decide) (by decide) (by decide)

/-- C6 (the code at a failing input): a flat image of width 1 and height 4
with the window (1, 4) and order 1 passes the configuration check and the
window fits the image, yet the filter has no result, whatever the pixel value:
the kernel construction divides by a zero radius. -/
theorem flat_image_1x4_order_1_has_no_result (ndebug : Bool) (uninit : Int → Nat)
    (v : Nat) (bytesPerLine : Int) :
    savGolFilter ndebug Real.sqrt uninit (fun i : QImage => i)
      (QImage.mk 1 4 bytesPerLine (fun _ => v)) (QSize.mk 1 4) 1 = Except.ok none := by
  have hk : SavGolKernel.new ndebug Real.sqrt 1 (QSize.mk 1 4) (QPoint.mk 0 0) = none := by
    unfold SavGolKernel.new
    rw [build_1x4_order_1 Real.sqrt (fun x hx => Real.mul_self_sqrt hx)]
    simp
  have hg : savGolFilterGrayToGray ndebug Real.sqrt uninit
      (QImage.mk 1 4 bytesPerLine (fun _ => v)) (QSize.mk 1 4) 1 = none := by
    unfold savGolFilterGrayToGray
    simp only [hk, Option.none_bind]
    simp
  unfold savGolFilter QSize.isEmpty
  simp only [hg]
  rfl

/-- C7: for a window with `1 <= kw <= W` and `1 <= kh <= H`, every output
pixel `(x, y)` of the image is the destination of exactly one `convolve` call
of the nine region loops, and every `convolve` call writes a pixel of the
image: the regions are pairwise disjoint and cover the image. -/
theorem every_pixel_convolved_once (g : Geometry) (hkw : 1 ≤ g.kw) (hw : g.kw ≤ g.width)
    (hkh : 1 ≤ g.kh) (hh : g.kh ≤ g.height) (hbpl : g.width ≤ g.dst_bpl) :
    (∀ x y : Int, 0 ≤ x → x < g.width → 0 ≤ y → y < g.height →
      (convolveCalls g).countP (fun c => decide (c.dst = y * g.dst_bpl + x)) = 1) ∧
    (∀ c ∈ convolveCalls g, ∃ x y : Int, 0 ≤ x ∧ x < g.width ∧ 0 ≤ y ∧ y < g.height ∧
      c.dst = y * g.dst_bpl + x) := by
  rw [convolveCalls_eq g hkw hw hkh hh]
  constructor
  · intro x y hx1 hx2 hy1 hy2
    rw [List.countP_map]
    have hc := count_pixelOrder g hkw hw hkh hh x y
    rw [if_pos ⟨hx1, hx2, hy1, hy2⟩] at hc
    rw [← hc, List.count]
    apply List.countP_congr
    intro p hp
    obtain ⟨p1, p2, _, _⟩ := pixelOrder_mem g hkw hw hkh hh p hp
    simp only [Function.comp, Geometry.callAt, decide_eq_true_eq, beq_iff_eq]
    constructor
    · intro h
      obtain ⟨a, b⟩ := pixel_offset_inj g.dst_bpl g.width x y p.1 p.2 hbpl ⟨hx1, hx2⟩
        ⟨p1, p2⟩ h
      exact Prod.ext a b
    · intro h
      rw [h]
  · intro c hc
    obtain ⟨p, hp, rfl⟩ := List.mem_map.1 hc
    obtain ⟨p1, p2, p3, p4⟩ := pixelOrder_mem g hkw hw hkh hh p hp
    exact ⟨p.1, p.2, p1, p2, p3, p4, rfl⟩

/-- A 10x10 image with a 5x3 window and lines of 12 bytes. -/
theorem every_pixel_convolved_once_witness :
    (∀ x y : Int, 0 ≤ x → x < (Geometry.mk 10 10 5 3 12 12).width → 0 ≤ y →
      y < (Geometry.mk 10 10 5 3 12 12).height →
      (convolveCalls (Geometry.mk 10 10 5 3 12 12)).countP
        (fun c => decide (c.dst = y * (Geometry.mk 10 10 5 3 12 12).dst_bpl + x)) = 1) ∧
    (∀ c ∈ convolveCalls (Geometry.mk 10 10 5 3 12 12), ∃ x y : Int,
      0 ≤ x ∧ x < (Geometry.mk 10 10 5 3 12 12).width ∧ 0 ≤ y ∧
      y < (Geometry.mk 10 10 5 3 12 12).height ∧
      c.dst = y * (Geometry.mk 10 10 5 3 12 12).dst_bpl + x) :=
  every_pixel_convolved_once (Geometry.mk 10 10 5 3 12 12) (by decide) (by decide)
    (by decide) (by decide) (by decide)

/-- C9: `convolve` stores `clamp(trunc(S), 0, 255)`, where `S` is the sum over
the rows `y` and columns `x` of the window of weight `y*width + x` times the
source byte at `(top+y)*stride + left + x`, and `trunc` rounds toward zero; the
stored byte is at most 255; and `y*width + x` is the place where the loops of
`recalcForOrigin` store the weight of the window point `(x+1, y+1)`, the value
there of the polynomial with the coefficients `coeffs`. -/
theorem convolve_stores_clamped_truncated_sum (k : SavGolKernel K) (src : Int → Nat)
    (top left stride : Int) :
    k.convolve src (top * stride + left) stride
      = (max 0 (min 255
          (if 0 ≤ ∑ y ∈ Finset.Ico 0 k.m_height, ∑ x ∈ Finset.Ico 0 k.m_width,
                k.m_kernel (y * k.m_width + x) * (src ((top + y) * stride + left + x) : K)
           then Int.floor (∑ y ∈ Finset.Ico 0 k.m_height, ∑ x ∈ Finset.Ico 0 k.m_width,
                k.m_kernel (y * k.m_width + x) * (src ((top + y) * stride + left + x) : K))
           else Int.ceil (∑ y ∈ Finset.Ico 0 k.m_height, ∑ x ∈ Finset.Ico 0 k.m_width,
                k.m_kernel (y * k.m_width + x)
                  * (src ((top + y) * stride + left + x) : K))))).toNat ∧
    k.convolve src (top * stride + left) stride ≤ 255 ∧
    (∀ (order : Int) (coeffs kernel0 : Int → K) (y x : Int), 0 ≤ order + 1 →
      0 ≤ y → y < k.m_height → 0 ≤ x → x < k.m_width →
      expandKernel order k.m_width k.m_height coeffs kernel0 (y * k.m_width + x)
        = ∑ i ∈ Finset.Ico 0 (order + 1), ∑ j ∈ Finset.Ico 0 (order + 1),
            ((y + 1 : Int) : K) ^ i.toNat * ((x + 1 : Int) : K) ^ j.toNat
              * coeffs (i * (order + 1) + j)) := by
  have hS : convolveSum k src (top * stride + left) stride
      = ∑ y ∈ Finset.Ico 0 k.m_height, ∑ x ∈ Finset.Ico 0 k.m_width,
          k.m_kernel (y * k.m_width + x) * (src ((top + y) * stride + left + x) : K) := by
    rw [convolveSum_eq]
    apply Finset.sum_congr rfl
    intro y _
    apply Finset.sum_congr rfl
    intro x _
    congr 3
    ring
  refine ⟨?_, ?_, ?_⟩
  · unfold SavGolKernel.convolve
    simp only [hS, truncToInt, qBound]
  · have := qBound_byte (truncToInt (convolveSum k src (top * stride + left) stride))
    show (qBound 0 (truncToInt (convolveSum k src (top * stride + left) stride)) 255).toNat
      ≤ 255
    omega
  · intro order coeffs kernel0 y x ho hy1 hy2 hx1 hx2
    have := expandKernel_spec order k.m_width k.m_height ho (by omega) (by omega) coeffs
      kernel0 (y + 1) (x + 1) (by omega) (by omega) (by omega) (by omega)
    rw [add_sub_cancel_right, add_sub_cancel_right] at this
    exact this

/-- A 2x2 kernel of weights 1/4 over the rationals on a source of bytes 8. -/
theorem convolve_stores_clamped_truncated_sum_witness :
    (SavGolKernel.mk (fun _ => 0) (fun _ => 0) (fun _ => 0) [] (fun _ => (1 / 4 : ℚ))
        0 2 2 1 4).convolve (fun _ => 8) (1 * 4 + 1) 4 ≤ 255 :=
  (convolve_stores_clamped_truncated_sum
    (SavGolKernel.mk (fun _ => 0) (fun _ => 0) (fun _ => 0) [] (fun _ => (1 / 4 : ℚ))
      0 2 2 1 4) (fun _ => 8) 1 1 4).2.1

/-- C8 (the code at a failing input): for a 5x5 image and a 5x5 window, the
source window of every pixel of the top line starts at offset 0, so the pixel
`(x, 0)` is at place `(x, 0)` of its window; the kernels applied to the
pixels `(3, 0)` and `(4, 0)` of the top-right corner are computed for the
origins `(4, 0)` and `(3, 0)`. -/
theorem topRightCorner_origin_mismatch :
    (convolveCalls (Geometry.mk 5 5 5 5 8 8)).filter (fun c => decide (c.dst < 5))
      = [ConvolveCall.mk 0 0 (QPoint.mk 0 0), ConvolveCall.mk 1 0 (QPoint.mk 1 0),
         ConvolveCall.mk 2 0 (QPoint.mk 2 0), ConvolveCall.mk 3 0 (QPoint.mk 4 0),
         ConvolveCall.mk 4 0 (QPoint.mk 3 0)] := by
  decide

/-- C10 (counterexample): the 10x10 image with lines of 12 bytes that is 0
except for the value 255 at `(2, 2)`, window (3, 3), order 0.  With assertions
enabled the filter has no result (`assert(order > 0)`); with assertions
compiled out the output pixel `(0, 0)` is 28, although it is not within
distance 1 of `(2, 2)`: its source window is clamped to the columns and
lines 0..2. -/
theorem bright_pixel_at_2_2_reaches_corner :
    savGolFilterGrayToGray false Real.sqrt (fun _ => 0)
        (QImage.mk 10 10 12 (fun i => if i = 2 * 12 + 2 then 255 else 0)) (QSize.mk 3 3) 0
      = none ∧
    (∃ dst : QImage, savGolFilterGrayToGray true Real.sqrt (fun _ => 0)
        (QImage.mk 10 10 12 (fun i => if i = 2 * 12 + 2 then 255 else 0)) (QSize.mk 3 3) 0
      = some dst ∧ dst.bits (0 * dst.bytesPerLine + 0) = 28) ∧
    ¬ ((2 - 1 ≤ (0 : Int) ∧ (0 : Int) ≤ 2 + 1) ∧ (2 - 1 ≤ (0 : Int) ∧ (0 : Int) ≤ 2 + 1)) := by
  refine ⟨?_, ?_, by decide⟩
  · simp [savGolFilterGrayToGray, SavGolKernel.new, ctorAsserts]
  · obtain ⟨dst, hdst, _, _, hval⟩ := bright_pixel_filter (fun _ => 0)
      (QImage.mk 10 10 12 (fun i => if i = 2 * 12 + 2 then 255 else 0)) 2 2 rfl rfl
      (by
        intro x y hx1 hx2 hy1 hy2
        simp only
        by_cases h : x = 2 ∧ y = 2
        · rw [if_pos h, if_pos (by omega)]
        · rw [if_neg h, if_neg (by omega)])
    refine ⟨dst, hdst, ?_⟩
    rw [hval 0 0 (by norm_num) (by norm_num) (by norm_num) (by norm_num)]
    decide

/-- C10 (amended): for a 10x10 image that is 0 except for one pixel of value
255 at `(px, py)` with `1 <= px, py <= 8`, the filter with window (3, 3) and
order 0 (assertions compiled out) has a result in which the pixel `(x, y)` is
28 when `(px, py)` is within distance 1 of `(x, y)` clamped to
`[1, 8] x [1, 8]` and 0 otherwise; when `px` and `py` are not 2 or 7 these
are exactly the 9 pixels within distance 1 of `(px, py)`. -/
theorem bright_pixel_spreads_over_clamped_windows (uninit : Int → Nat) (src : QImage)
    (px py : Int) (hsw : src.width = 10) (hsh : src.height = 10)
    (hpx : 1 ≤ px ∧ px ≤ 8) (hpy : 1 ≤ py ∧ py ≤ 8)
    (hbits : ∀ x y : Int, 0 ≤ x → x < 10 → 0 ≤ y → y < 10 →
      src.bits (y * src.bytesPerLine + x) = if x = px ∧ y = py then 255 else 0) :
    ∃ dst : QImage, savGolFilterGrayToGray true Real.sqrt uninit src (QSize.mk 3 3) 0
        = some dst ∧ dst.width = 10 ∧ dst.height = 10 ∧
      (∀ x y : Int, 0 ≤ x → x < 10 → 0 ≤ y → y < 10 →
        dst.bits (y * dst.bytesPerLine + x)
          = if (px - 1 ≤ max 1 (min 8 x) ∧ max 1 (min 8 x) ≤ px + 1) ∧
              (py - 1 ≤ max 1 (min 8 y) ∧ max 1 (min 8 y) ≤ py + 1) then 28 else 0) ∧
      (px ≠ 2 → px ≠ 7 → py ≠ 2 → py ≠ 7 →
        ∀ x y : Int, 0 ≤ x → x < 10 → 0 ≤ y → y < 10 →
          dst.bits (y * dst.bytesPerLine + x)
            = if (px - 1 ≤ x ∧ x ≤ px + 1) ∧ (py - 1 ≤ y ∧ y ≤ py + 1) then 28 else 0) := by
  obtain ⟨dst, hdst, hw, hh, hval⟩ := bright_pixel_filter uninit src px py hsw hsh hbits
  refine ⟨dst, hdst, hw, hh, hval, ?_⟩
  intro h1 h2 h3 h4 x y hx1 hx2 hy1 hy2
  rw [hval x y hx1 hx2 hy1 hy2]
  have hcond : ((px - 1 ≤ max 1 (min 8 x) ∧ max 1 (min 8 x) ≤ px + 1) ∧
      (py - 1 ≤ max 1 (min 8 y) ∧ max 1 (min 8 y) ≤ py + 1))
      ↔ ((px - 1 ≤ x ∧ x ≤ px + 1) ∧ (py - 1 ≤ y ∧ y ≤ py + 1)) := by
    omega
  by_cases hc : (px - 1 ≤ x ∧ x ≤ px + 1) ∧ (py - 1 ≤ y ∧ y ≤ py + 1)
  · rw [if_pos hc, if_pos (hcond.2 hc)]
  · rw [if_neg hc, if_neg (fun h => hc (hcond.1 h))]

/-- The bright pixel at `(4, 5)` of an image with lines of 12 bytes. -/
theorem bright_pixel_spreads_over_clamped_windows_witness :
    ∃ dst : QImage, savGolFilterGrayToGray true Real.sqrt (fun _ => 0)
        (QImage.mk 10 10 12 (fun i => if i = 5 * 12 + 4 then 255 else 0)) (QSize.mk 3 3) 0
        = some dst ∧ dst.width = 10 ∧ dst.height = 10 ∧
      (∀ x y : Int, 0 ≤ x → x < 10 → 0 ≤ y → y < 10 →
        dst.bits (y * dst.bytesPerLine + x)
          = if (4 - 1 ≤ max 1 (min 8 x) ∧ max 1 (min 8 x) ≤ 4 + 1) ∧
              (5 - 1 ≤ max 1 (min 8 y) ∧ max 1 (min 8 y) ≤ 5 + 1) then 28 else 0) ∧
      ((4 : Int) ≠ 2 → (4 : Int) ≠ 7 → (5 : Int) ≠ 2 → (5 : Int) ≠ 7 →
        ∀ x y : Int, 0 ≤ x → x < 10 → 0 ≤ y → y < 10 →
          dst.bits (y * dst.bytesPerLine + x)
            = if (4 - 1 ≤ x ∧ x ≤ 4 + 1) ∧ (5 - 1 ≤ y ∧ y ≤ 5 + 1) then 28 else 0) :=
  bright_pixel_spreads_over_clamped_windows (fun _ => 0)
    (QImage.mk 10 10 12 (fun i => if i = 5 * 12 + 4 then 255 else 0)) 4 5 rfl rfl
    (by decide) (by decide)
    (by
      intro x y hx1 hx2 hy1 hy2
      simp only
      by_cases h : x = 4 ∧ y = 5
      · rw [if_pos h, if_pos (by omega)]
      · rw [if_neg h, if_neg (by omega)])

/-- C11: what `recalcForOrigin(o)` leaves depends on the factorization and on
`o` only, not on an earlier origin `o'`: after `recalcForOrigin(o')` it has a
result and leaves the very state it leaves without that call, calling it a
second time changes nothing, a kernel the constructor makes for `o` is in the
same state, and so `convolve` stores the same byte with the reused kernel as
with a fresh one. -/
theorem recalcForOrigin_forgets_earlier_origin (k k1 : SavGolKernel K) (o' o : QPoint)
    (h : k.recalcForOrigin o' = some k1) :
    ∃ k2 : SavGolKernel K,
      k.recalcForOrigin o = some k2 ∧ k1.recalcForOrigin o = some k2 ∧
      k2.recalcForOrigin o = some k2 ∧
      (∀ (ndebug : Bool) (sqrt : K → K) (order : Int) (size : QSize) (o0 : QPoint),
        SavGolKernel.new ndebug sqrt order size o0 = some k →
        SavGolKernel.new ndebug sqrt order size o = some k2) ∧
      (∀ kr kf : SavGolKernel K, k1.recalcForOrigin o = some kr →
        k.recalcForOrigin o = some kf →
        (∀ p, kr.m_kernel p = kf.m_kernel p) ∧
        ∀ (src : Int → Nat) (src_top_left src_bpl : Int),
          kr.convolve src src_top_left src_bpl = kf.convolve src src_top_left src_bpl) := by
  have hs : (k.recalcForOrigin o).isSome = true := by
    rw [recalc_isSome k o' o, h]
    rfl
  obtain ⟨k2, hk2⟩ := Option.isSome_iff_exists.1 hs
  have h1 : k1.recalcForOrigin o = some k2 := by
    rw [recalc_forgets k k1 o' o h, hk2]
  refine ⟨k2, hk2, h1, ?_, ?_, ?_⟩
  · rw [recalc_forgets k k2 o o hk2, hk2]
  · intro ndebug sqrt order size o0 hnew
    rw [new_recalc ndebug sqrt order size o0 o k hnew, hk2]
  · intro kr kf hr hf
    rw [h1] at hr
    rw [hk2] at hf
    cases hr
    cases hf
    exact ⟨fun _ => rfl, fun _ _ _ => rfl⟩

/-- The kernel the constructor makes for a 2x2 window with order 1 and the
origin `(0, 0)`, assertions enabled, recalculated for `(1, 0)` and then for
`(1, 1)`. -/
theorem recalcForOrigin_forgets_earlier_origin_witness :
    ∃ k k1 : SavGolKernel ℝ,
      SavGolKernel.new false Real.sqrt 1 (QSize.mk 2 2) (QPoint.mk 0 0) = some k ∧
      k.recalcForOrigin (QPoint.mk 1 0) = some k1 ∧
      ∃ k2 : SavGolKernel ℝ,
        k.recalcForOrigin (QPoint.mk 1 1) = some k2 ∧
        k1.recalcForOrigin (QPoint.mk 1 1) = some k2 ∧
        k2.recalcForOrigin (QPoint.mk 1 1) = some k2 ∧
        (∀ (ndebug : Bool) (sqrt : ℝ → ℝ) (order : Int) (size : QSize) (o0 : QPoint),
          SavGolKernel.new ndebug sqrt order size o0 = some k →
          SavGolKernel.new ndebug sqrt order size (QPoint.mk 1 1) = some k2) ∧
        (∀ kr kf : SavGolKernel ℝ, k1.recalcForOrigin (QPoint.mk 1 1) = some kr →
          k.recalcForOrigin (QPoint.mk 1 1) = some kf →
          (∀ p, kr.m_kernel p = kf.m_kernel p) ∧
          ∀ (src : Int → Nat) (src_top_left src_bpl : Int),
            kr.convolve src src_top_left src_bpl
              = kf.convolve src src_top_left src_bpl) := by
  obtain ⟨_, k, _, _, hnew, _⟩ := build_2x2_order_1 Real.sqrt
    (fun x hx => Real.mul_self_sqrt hx) false (QPoint.mk 0 0)
  obtain ⟨_, k1, _, _, hnew1, _⟩ := build_2x2_order_1 Real.sqrt
    (fun x hx => Real.mul_self_sqrt hx) false (QPoint.mk 1 0)
  have hk1 : k.recalcForOrigin (QPoint.mk 1 0) = some k1 := by
    rw [← new_recalc false Real.sqrt 1 (QSize.mk 2 2) (QPoint.mk 0 0) (QPoint.mk 1 0) k hnew]
    exact hnew1
  exact ⟨k, k1, hnew, hk1,
    recalcForOrigin_forgets_earlier_origin k k1 (QPoint.mk 1 0) (QPoint.mk 1 1) hk1⟩

/-- C12 (the code at a failing input): the window (1, 4) with order 1 passes
the configuration check (`width > 0`, `height > 0`, `(order+1)^2 <= width*height`)
and both assertions of the constructor (`order > 0`), yet in real arithmetic
`QR` on the equations the constructor prepares has no result, because a Givens
radius is zero: the constructor has no kernel, for every origin and with or
without assertions. -/
theorem givens_radius_zero_for_window_1x4_order_1 (ndebug : Bool) (origin : QPoint) :
    (QSize.mk 1 4).isEmpty = false ∧
    ¬ ((1 : Int) + 1) * (1 + 1) > (QSize.mk 1 4).width * (QSize.mk 1 4).height ∧
    ctorAsserts 1 (QSize.mk 1 4) = true ∧
    QRloops Real.sqrt ((1 + 1) * (1 + 1)) (1 * 4) (prepareEquations (K := ℝ) 1 1 4).1 = none ∧
    (∀ k : SavGolKernel ℝ, k.m_numVars = (1 + 1) * (1 + 1) → k.m_numDataPoints = 1 * 4 →
      k.m_equations = (prepareEquations (K := ℝ) 1 1 4).1 → k.QR Real.sqrt = none) ∧
    SavGolKernel.new ndebug Real.sqrt 1 (QSize.mk 1 4) origin = none := by
  have hq : QRloops Real.sqrt ((1 + 1) * (1 + 1)) (1 * 4) (prepareEquations (K := ℝ) 1 1 4).1
      = none := by
    rw [show ((1 : Int) + 1) * (1 + 1) = 4 by norm_num, show (1 : Int) * 4 = 4 by norm_num]
    exact QRloops_1x4_order_1 Real.sqrt (fun x hx => Real.mul_self_sqrt hx)
  refine ⟨by decide, by decide, by decide, hq, ?_, ?_⟩
  · intro k h1 h2 h3
    unfold SavGolKernel.QR
    rw [h1, h2, h3, hq]
    rfl
  · unfold SavGolKernel.new
    rw [build_1x4_order_1 Real.sqrt (fun x hx => Real.mul_self_sqrt hx)]
    simp

/-- C13: for a window with `1 <= kw <= W` and `1 <= kh <= H`, every `convolve`
call of the region loops writes a pixel `(x, y)` of the image and is given the
source window with the top-left corner `(left, top)`, where
`left = clamp(x - kw/2, 0, W - kw)` and `top = clamp(y - kh/2, 0, H - kh)`;
every pixel of the image has such a call; the window lies inside the image;
and the byte the call stores depends on the source pixels of the image only. -/
theorem source_window_is_clamped (g : Geometry) (hkw : 1 ≤ g.kw) (hw : g.kw ≤ g.width)
    (hkh : 1 ≤ g.kh) (hh : g.kh ≤ g.height) :
    (∀ c ∈ convolveCalls g, ∃ x y : Int, 0 ≤ x ∧ x < g.width ∧ 0 ≤ y ∧ y < g.height ∧
      c.dst = y * g.dst_bpl + x ∧
      c.src_top_left = max 0 (min (g.height - g.kh) (y - g.kh / 2)) * g.src_bpl
        + max 0 (min (g.width - g.kw) (x - g.kw / 2))) ∧
    (∀ x y : Int, 0 ≤ x → x < g.width → 0 ≤ y → y < g.height →
      (∃ c ∈ convolveCalls g, c.dst = y * g.dst_bpl + x ∧
        c.src_top_left = max 0 (min (g.height - g.kh) (y - g.kh / 2)) * g.src_bpl
          + max 0 (min (g.width - g.kw) (x - g.kw / 2))) ∧
      0 ≤ max 0 (min (g.width - g.kw) (x - g.kw / 2)) ∧
      max 0 (min (g.width - g.kw) (x - g.kw / 2)) + g.kw ≤ g.width ∧
      0 ≤ max 0 (min (g.height - g.kh) (y - g.kh / 2)) ∧
      max 0 (min (g.height - g.kh) (y - g.kh / 2)) + g.kh ≤ g.height) ∧
    (∀ c ∈ convolveCalls g, ∀ (k : SavGolKernel K) (src src' : Int → Nat),
      k.m_width = g.kw → k.m_height = g.kh →
      (∀ row col : Int, 0 ≤ row → row < g.height → 0 ≤ col → col < g.width →
        src (row * g.src_bpl + col) = src' (row * g.src_bpl + col)) →
      k.convolve src c.src_top_left g.src_bpl = k.convolve src' c.src_top_left g.src_bpl) := by
  have hcall : ∀ c ∈ convolveCalls g, ∃ x y : Int, 0 ≤ x ∧ x < g.width ∧ 0 ≤ y ∧
      y < g.height ∧ c.dst = y * g.dst_bpl + x ∧
      c.src_top_left = g.top y * g.src_bpl + g.left x := by
    intro c hc
    rw [convolveCalls_eq g hkw hw hkh hh] at hc
    obtain ⟨p, hp, rfl⟩ := List.mem_map.1 hc
    obtain ⟨p1, p2, p3, p4⟩ := pixelOrder_mem g hkw hw hkh hh p hp
    exact ⟨p.1, p.2, p1, p2, p3, p4, rfl, rfl⟩
  refine ⟨?_, ?_, ?_⟩
  · intro c hc
    obtain ⟨x, y, h1, h2, h3, h4, h5, h6⟩ := hcall c hc
    obtain ⟨e1, e2, _⟩ := window_inside_image g hkw hw hkh hh x y
    exact ⟨x, y, h1, h2, h3, h4, h5, by rw [h6, e1, e2]⟩
  · intro x y hx1 hx2 hy1 hy2
    obtain ⟨e1, e2, b1, b2, b3, b4⟩ := window_inside_image g hkw hw hkh hh x y
    rw [← e1, ← e2]
    refine ⟨⟨g.callAt (x, y), ?_, rfl, rfl⟩, b1, b2, b3, b4⟩
    rw [convolveCalls_eq g hkw hw hkh hh]
    apply List.mem_map_of_mem
    have hc := count_pixelOrder g hkw hw hkh hh x y
    rw [if_pos ⟨hx1, hx2, hy1, hy2⟩] at hc
    exact List.count_pos_iff.1 (by omega)
  · intro c hc k src src' hkw' hkh' hagree
    obtain ⟨x, y, _, _, _, _, _, h6⟩ := hcall c hc
    obtain ⟨_, _, b1, b2, b3, b4⟩ := window_inside_image g hkw hw hkh hh x y
    apply convolve_reads_window
    intro yy xx y1 y2 x1 x2
    rw [hkh'] at y2
    rw [hkw'] at x2
    have e : c.src_top_left + yy * g.src_bpl + xx
        = (g.top y + yy) * g.src_bpl + (g.left x + xx) := by
      rw [h6]
      ring
    rw [e]
    exact hagree _ _ (by omega) (by omega) (by omega) (by omega)

/-- A 10x10 image with a 5x3 window and lines of 12 bytes (C13). -/
theorem source_window_is_clamped_witness :
    (∀ c ∈ convolveCalls (Geometry.mk 10 10 5 3 12 12), ∃ x y : Int,
      0 ≤ x ∧ x < 10 ∧ 0 ≤ y ∧ y < 10 ∧ c.dst = y * 12 + x ∧
      c.src_top_left = max 0 (min (10 - 3) (y - 3 / 2)) * 12
        + max 0 (min (10 - 5) (x - 5 / 2))) ∧
    (∃ c ∈ convolveCalls (Geometry.mk 10 10 5 3 12 12), c.dst = 0 * 12 + 9 ∧
      c.src_top_left = 0 * 12 + 5) := by
  have h := source_window_is_clamped (K := ℚ) (Geometry.mk 10 10 5 3 12 12) (by decide)
    (by decide) (by decide) (by decide)
  refine ⟨h.1, ?_⟩
  obtain ⟨c, hc, h1, h2⟩ := (h.2.1 9 0 (by decide) (by decide) (by decide) (by decide)).1
  exact ⟨c, hc, h1, by rw [h2]; decide⟩

/-- C14: for a window with `1 <= kw <= W` and `1 <= kh <= H`,
`savGolFilterGrayToGray` constructs the kernel for the origin `(0, 0)` and then
carries out the calls of the region loops; the constructor's origin and every
origin `o` given to `recalcForOrigin` by these loops satisfy `0 <= o.x < kw` and
`0 <= o.y < kh`, so the index `o.y * kw + o.x` of the right-hand side lies in
`[0, kw * kh)`. -/
theorem origins_inside_window (ndebug : Bool) (sqrt : K → K) (uninit : Int → Nat)
    (src : QImage) (window_size : QSize) (order : Int)
    (hkw : 1 ≤ window_size.width) (hw : window_size.width ≤ src.width)
    (hkh : 1 ≤ window_size.height) (hh : window_size.height ≤ src.height) :
    savGolFilterGrayToGray ndebug sqrt uninit src window_size order
      = (SavGolKernel.new ndebug sqrt order window_size (QPoint.mk 0 0)).bind (fun kernel =>
          (runCmds src.bits src.bytesPerLine
            (regionLoops (Geometry.mk src.width src.height window_size.width
              window_size.height src.bytesPerLine
              (QImage.create src.width src.height uninit).bytesPerLine)).cmds
            (kernel, uninit)).map
            (fun r => { QImage.create src.width src.height uninit with bits := r.2 })) ∧
    ((0 ≤ (QPoint.mk 0 0).x ∧ (QPoint.mk 0 0).x < window_size.width) ∧
      (0 ≤ (QPoint.mk 0 0).y ∧ (QPoint.mk 0 0).y < window_size.height)) ∧
    ∀ o : QPoint,
      Cmd.recalc o ∈ (regionLoops (Geometry.mk src.width src.height window_size.width
          window_size.height src.bytesPerLine
          (QImage.create src.width src.height uninit).bytesPerLine)).cmds →
      (0 ≤ o.x ∧ o.x < window_size.width) ∧ (0 ≤ o.y ∧ o.y < window_size.height) ∧
      0 ≤ o.y * window_size.width + o.x ∧
      o.y * window_size.width + o.x < window_size.width * window_size.height := by
  refine ⟨?_, ⟨⟨le_refl 0, by show (0 : Int) < window_size.width; omega⟩,
    ⟨le_refl 0, by show (0 : Int) < window_size.height; omega⟩⟩, ?_⟩
  · unfold savGolFilterGrayToGray
    have hfit : ¬ (window_size.width > src.width ∨ window_size.height > src.height) := by
      omega
    simp only [hfit, if_false]
    rfl
  · intro o ho
    obtain ⟨⟨x1, x2⟩, y1, y2⟩ := regionLoops_recalc_valid _ hkw hw hkh hh o ho
    simp only at x1 x2 y1 y2
    refine ⟨⟨x1, x2⟩, ⟨y1, y2⟩, ?_, ?_⟩
    · have := mul_nonneg y1 (show (0 : Int) ≤ window_size.width by omega)
      omega
    · have h1 : (o.y + 1) * window_size.width ≤ window_size.height * window_size.width :=
        mul_le_mul_of_nonneg_right (by omega) (by omega)
      have h2 : (o.y + 1) * window_size.width = o.y * window_size.width + window_size.width := by
        ring
      have h3 : window_size.height * window_size.width
          = window_size.width * window_size.height := mul_comm _ _
      omega

/-- A 10x10 image with lines of 12 bytes and a 5x3 window (C14). -/
theorem origins_inside_window_witness :
    ((0 ≤ (QPoint.mk 0 0).x ∧ (QPoint.mk 0 0).x < 5) ∧
      (0 ≤ (QPoint.mk 0 0).y ∧ (QPoint.mk 0 0).y < 3)) ∧
    ∀ o : QPoint,
      Cmd.recalc o ∈ (regionLoops (Geometry.mk 10 10 5 3 12
          (QImage.create 10 10 (fun _ => 0)).bytesPerLine)).cmds →
      (0 ≤ o.x ∧ o.x < 5) ∧ (0 ≤ o.y ∧ o.y < 3) ∧
      0 ≤ o.y * 5 + o.x ∧ o.y * 5 + o.x < 5 * 3 :=
  (origins_inside_window (K := ℚ) false id (fun _ => 0) (QImage.mk 10 10 12 (fun _ => 0))
    (QSize.mk 5 3) 2 (by decide) (by decide) (by decide) (by decide)).2

/-- C15: when `QR` has a result on a kernel with `numVars >= 0` columns (in
real arithmetic), the matrix it leaves in `m_equations` is upper triangular
with exact zeros: every entry `(i, j)` with `0 <= j < numVars` and
`j < i < numDataPoints` is 0; in particular every row `i >= numVars` is zero. -/
theorem QR_leaves_upper_triangular (k k' : SavGolKernel ℝ) (hm : 0 ≤ k.m_numVars)
    (h : k.QR Real.sqrt = some k') :
    (∀ i j : Int, 0 ≤ j → j < k.m_numVars → j < i → i < k.m_numDataPoints →
      k'.m_equations (i * k.m_numVars + j) = 0) ∧
    (∀ i j : Int, k.m_numVars ≤ i → i < k.m_numDataPoints → 0 ≤ j → j < k.m_numVars →
      k'.m_equations (i * k.m_numVars + j) = 0) ∧
    k'.m_numVars = k.m_numVars ∧ k'.m_numDataPoints = k.m_numDataPoints := by
  unfold SavGolKernel.QR at h
  simp only [Option.map_eq_some'] at h
  obtain ⟨res, hres, rfl⟩ := h
  obtain ⟨tr, _, _, _, _, hzero⟩ := QRloops_inv Real.sqrt (fun x hx => Real.mul_self_sqrt hx)
    k.m_numVars k.m_numDataPoints hm k.m_equations res hres
  have hz : ∀ i j : Int, 0 ≤ j → j < k.m_numVars → j < i → i < k.m_numDataPoints →
      res.1 (i * k.m_numVars + j) = 0 := by
    intro i j h1 h2 h3 h4
    exact hzero j i h1 h2 h3 h4 (Or.inl h2)
  refine ⟨hz, ?_, rfl, rfl⟩
  intro i j h1 h2 h3 h4
  exact hz i j h3 h4 (by omega) h2

/-- The kernel of the window 2x2 with order 1 as the constructor hands it to
`QR` (C15): 4 data points, 4 variables. -/
theorem QR_leaves_upper_triangular_witness :
    ∃ k' : SavGolKernel ℝ,
      (SavGolKernel.prepared 1 (QSize.mk 2 2)).QR Real.sqrt = some k' ∧
      ((∀ i j : Int, 0 ≤ j → j < (SavGolKernel.prepared (K := ℝ) 1 (QSize.mk 2 2)).m_numVars →
          j < i → i < (SavGolKernel.prepared (K := ℝ) 1 (QSize.mk 2 2)).m_numDataPoints →
        k'.m_equations
          (i * (SavGolKernel.prepared (K := ℝ) 1 (QSize.mk 2 2)).m_numVars + j) = 0) ∧
      (∀ i j : Int, (SavGolKernel.prepared (K := ℝ) 1 (QSize.mk 2 2)).m_numVars ≤ i →
          i < (SavGolKernel.prepared (K := ℝ) 1 (QSize.mk 2 2)).m_numDataPoints → 0 ≤ j →
          j < (SavGolKernel.prepared (K := ℝ) 1 (QSize.mk 2 2)).m_numVars →
        k'.m_equations
          (i * (SavGolKernel.prepared (K := ℝ) 1 (QSize.mk 2 2)).m_numVars + j) = 0) ∧
      k'.m_numVars = (SavGolKernel.prepared (K := ℝ) 1 (QSize.mk 2 2)).m_numVars ∧
      k'.m_numDataPoints
        = (SavGolKernel.prepared (K := ℝ) 1 (QSize.mk 2 2)).m_numDataPoints) := by
  obtain ⟨kq, _, hq, _⟩ := build_2x2_order_1 Real.sqrt
    (fun x hx => Real.mul_self_sqrt hx) false (QPoint.mk 0 0)
  exact ⟨kq, hq,
    QR_leaves_upper_triangular (SavGolKernel.prepared 1 (QSize.mk 2 2)) kq (by decide) hq⟩

/-- C16: when `QR` has a result (no Givens radius is zero) on a kernel with
`numVars >= 0` columns, in real arithmetic, every rotation it recorded has
`sin^2 + cos^2 = 1`, and the matrix `R` it leaves has the Gram matrix of the
matrix `A` it started from: for all columns `a`, `b` the scalar product of the
columns `a` and `b` of `R` over the rows `0 .. numDataPoints-1` is that of the
columns `a` and `b` of `A`, which is `RᵀR = AᵀA`. -/
theorem QR_keeps_gram_matrix (k k' : SavGolKernel ℝ) (hm : 0 ≤ k.m_numVars)
    (h : k.QR Real.sqrt = some k') :
    (∀ r ∈ k'.m_rotations, r.sin ^ 2 + r.cos ^ 2 = 1) ∧
    (∀ a b : Int, 0 ≤ a → a < k.m_numVars → 0 ≤ b → b < k.m_numVars →
      ∑ r ∈ Finset.Ico 0 k.m_numDataPoints,
          k'.m_equations (r * k.m_numVars + a) * k'.m_equations (r * k.m_numVars + b)
        = ∑ r ∈ Finset.Ico 0 k.m_numDataPoints,
          k.m_equations (r * k.m_numVars + a) * k.m_equations (r * k.m_numVars + b)) := by
  unfold SavGolKernel.QR at h
  simp only [Option.map_eq_some'] at h
  obtain ⟨res, hres, rfl⟩ := h
  obtain ⟨tr, hrots, _, hv, hcols, _⟩ := QRloops_inv Real.sqrt
    (fun x hx => Real.mul_self_sqrt hx) k.m_numVars k.m_numDataPoints hm k.m_equations res hres
  constructor
  · intro r hr
    simp only at hr
    rw [hrots] at hr
    obtain ⟨p, hp, rfl⟩ := List.mem_map.1 hr
    have := (hv p hp).2.2.2
    rw [pow_two, pow_two]
    linarith
  · intro a b ha1 ha2 hb1 hb2
    have e := dot_applyRots k.m_numDataPoints tr hv
      (fun r => k.m_equations (r * k.m_numVars + a))
      (fun r => k.m_equations (r * k.m_numVars + b))
    unfold dot at e
    rw [← e]
    apply Finset.sum_congr rfl
    intro r _
    simp only
    rw [hcols a ha1 ha2 r, hcols b hb1 hb2 r]

/-- The kernel of the window 2x2 with order 1 as the constructor hands it to
`QR` (C16). -/
theorem QR_keeps_gram_matrix_witness :
    ∃ k' : SavGolKernel ℝ,
      (SavGolKernel.prepared 1 (QSize.mk 2 2)).QR Real.sqrt = some k' ∧
      ((∀ r ∈ k'.m_rotations, r.sin ^ 2 + r.cos ^ 2 = 1) ∧
      (∀ a b : Int, 0 ≤ a → a < (SavGolKernel.prepared (K := ℝ) 1 (QSize.mk 2 2)).m_numVars →
          0 ≤ b → b < (SavGolKernel.prepared (K := ℝ) 1 (QSize.mk 2 2)).m_numVars →
        ∑ r ∈ Finset.Ico 0 (SavGolKernel.prepared (K := ℝ) 1 (QSize.mk 2 2)).m_numDataPoints,
            k'.m_equations
                (r * (SavGolKernel.prepared (K := ℝ) 1 (QSize.mk 2 2)).m_numVars + a)
              * k'.m_equations
                (r * (SavGolKernel.prepared (K := ℝ) 1 (QSize.mk 2 2)).m_numVars + b)
          = ∑ r ∈ Finset.Ico 0
              (SavGolKernel.prepared (K := ℝ) 1 (QSize.mk 2 2)).m_numDataPoints,
            (SavGolKernel.prepared (K := ℝ) 1 (QSize.mk 2 2)).m_equations
                (r * (SavGolKernel.prepared (K := ℝ) 1 (QSize.mk 2 2)).m_numVars + a)
              * (SavGolKernel.prepared (K := ℝ) 1 (QSize.mk 2 2)).m_equations
                (r * (SavGolKernel.prepared (K := ℝ) 1 (QSize.mk 2 2)).m_numVars + b))) := by
  obtain ⟨kq, _, hq, _⟩ := build_2x2_order_1 Real.sqrt
    (fun x hx => Real.mul_self_sqrt hx) false (QPoint.mk 0 0)
  exact ⟨kq, hq,
    QR_keeps_gram_matrix (SavGolKernel.prepared 1 (QSize.mk 2 2)) kq (by decide) hq⟩

/-- C17: `recalcForOrigin` leaves the factored equations, the recorded
rotations and `width`, `height`, `order`, `numVars`, `numDataPoints` as they
were (it writes the data points, the coefficients and the weights only) and
stores no pixel; `convolve` stores one pixel and leaves the kernel as it was. -/
theorem recalcForOrigin_keeps_factorization (k k' : SavGolKernel K) (origin : QPoint)
    (h : k.recalcForOrigin origin = some k') :
    (k'.m_equations = k.m_equations ∧ k'.m_rotations = k.m_rotations ∧
      k'.m_width = k.m_width ∧ k'.m_height = k.m_height ∧ k'.m_order = k.m_order ∧
      k'.m_numVars = k.m_numVars ∧ k'.m_numDataPoints = k.m_numDataPoints) ∧
    (∀ (src : Int → Nat) (src_bpl : Int) (pixels : Int → Nat),
      runCmd src src_bpl (k, pixels) (Cmd.recalc origin) = some (k', pixels)) ∧
    (∀ (src : Int → Nat) (src_bpl : Int) (pixels : Int → Nat) (dst src_top_left : Int),
      runCmd src src_bpl (k', pixels) (Cmd.convolve dst src_top_left)
        = some (k', Function.update pixels dst (k'.convolve src src_top_left src_bpl))) := by
  obtain ⟨a, b, c, d, e, f, g⟩ := recalc_frame k k' origin h
  refine ⟨⟨a, b, d, e, c, f, g⟩, ?_, ?_⟩
  · intro src src_bpl pixels
    simp only [runCmd, h, Option.map_some']
  · intro src src_bpl pixels dst src_top_left
    rfl

/-- The kernel the constructor makes for a 2x2 window with order 1 and the
origin `(0, 0)`, assertions enabled, recalculated for `(1, 1)`. -/
theorem recalcForOrigin_keeps_factorization_witness :
    ∃ k k' : SavGolKernel ℝ,
      SavGolKernel.new false Real.sqrt 1 (QSize.mk 2 2) (QPoint.mk 0 0) = some k ∧
      k.recalcForOrigin (QPoint.mk 1 1) = some k' ∧
      (k'.m_equations = k.m_equations ∧ k'.m_rotations = k.m_rotations ∧
        k'.m_width = k.m_width ∧ k'.m_height = k.m_height ∧ k'.m_order = k.m_order ∧
        k'.m_numVars = k.m_numVars ∧ k'.m_numDataPoints = k.m_numDataPoints) ∧
      (∀ (src : Int → Nat) (src_bpl : Int) (pixels : Int → Nat),
        runCmd src src_bpl (k, pixels) (Cmd.recalc (QPoint.mk 1 1)) = some (k', pixels)) ∧
      (∀ (src : Int → Nat) (src_bpl : Int) (pixels : Int → Nat) (dst src_top_left : Int),
        runCmd src src_bpl (k', pixels) (Cmd.convolve dst src_top_left)
          = some (k', Function.update pixels dst
              (k'.convolve src src_top_left src_bpl))) := by
  obtain ⟨_, k, _, _, hnew, _⟩ := build_2x2_order_1 Real.sqrt
    (fun x hx => Real.mul_self_sqrt hx) false (QPoint.mk 0 0)
  obtain ⟨_, k', _, _, hnew', _⟩ := build_2x2_order_1 Real.sqrt
    (fun x hx => Real.mul_self_sqrt hx) false (QPoint.mk 1 1)
  have hk' : k.recalcForOrigin (QPoint.mk 1 1) = some k' := by
    rw [← new_recalc false Real.sqrt 1 (QSize.mk 2 2) (QPoint.mk 0 0) (QPoint.mk 1 1) k hnew]
    exact hnew'
  exact ⟨k, k', hnew, hk',
    recalcForOrigin_keeps_factorization k k' (QPoint.mk 1 1) hk'⟩

/-- C18: for a window with `1 <= kw <= W` and `1 <= kh <= H` and destination
lines of at least `W` bytes, every output pixel `(x, y)` of the top-right
corner (`0 <= y < k_top`, `W - k_right <= x < W`) has a `convolve` call, and the
kernel of every call that writes it is recalculated for the origin
`(kw - 1 - (x - (W - k_right)), y)`: the column of the origin is `kw - 1` at the
first pixel of the line and goes down by one per pixel, its line is `y`. -/
theorem topRightCorner_origin_runs_down (g : Geometry) (hkw : 1 ≤ g.kw)
    (hw : g.kw ≤ g.width) (hkh : 1 ≤ g.kh) (hh : g.kh ≤ g.height)
    (hbpl : g.width ≤ g.dst_bpl) (x y : Int) (hy1 : 0 ≤ y) (hy2 : y < g.k_top)
    (hx1 : g.width - g.k_right ≤ x) (hx2 : x < g.width) :
    (∃ c ∈ convolveCalls g, c.dst = y * g.dst_bpl + x) ∧
    ∀ c ∈ convolveCalls g, c.dst = y * g.dst_bpl + x →
      c.origin = QPoint.mk (g.kw - 1 - (x - (g.width - g.k_right))) y := by
  obtain ⟨_, _, b1, b2, b3, b4, b5, b6, _⟩ := geometry_bounds g hkw hkh
  have hx0 : 0 ≤ x := by omega
  have hyH : y < g.height := by omega
  have horigin : g.originAt x y = QPoint.mk (g.kw - 1 - (x - (g.width - g.k_right))) y := by
    unfold Geometry.originAt Geometry.top
    rw [if_pos ⟨hy2, hx1⟩]
    congr 1
    omega
  rw [convolveCalls_eq g hkw hw hkh hh]
  constructor
  · refine ⟨g.callAt (x, y), ?_, rfl⟩
    apply List.mem_map_of_mem
    have hc := count_pixelOrder g hkw hw hkh hh x y
    rw [if_pos ⟨hx0, hx2, hy1, hyH⟩] at hc
    exact List.count_pos_iff.1 (by omega)
  · intro c hc hdst
    obtain ⟨p, hp, rfl⟩ := List.mem_map.1 hc
    obtain ⟨p1, p2, _, _⟩ := pixelOrder_mem g hkw hw hkh hh p hp
    obtain ⟨e1, e2⟩ := pixel_offset_inj g.dst_bpl g.width x y p.1 p.2 hbpl ⟨hx0, hx2⟩
      ⟨p1, p2⟩ hdst
    show g.originAt p.1 p.2 = _
    rw [e1, e2, horigin]

/-- The pixel `(9, 1)` of a 10x10 image with a 7x5 window: the origin is
`(5, 1)`. -/
theorem topRightCorner_origin_runs_down_witness :
    (∃ c ∈ convolveCalls (Geometry.mk 10 10 7 5 12 12), c.dst = 1 * 12 + 9) ∧
    ∀ c ∈ convolveCalls (Geometry.mk 10 10 7 5 12 12), c.dst = 1 * 12 + 9 →
      c.origin = QPoint.mk (7 - 1 - (9 - (10 - 3))) 1 :=
  topRightCorner_origin_runs_down (Geometry.mk 10 10 7 5 12 12) (by decide) (by decide)
    (by decide) (by decide) (by decide) 9 1 (by decide) (by decide) (by decide) (by decide)

/-- C19 (counterexample): there is no kernel and source whose sum is negative
and for which `convolve`, which truncates, stores another byte than it would
with the floor or with the nearest integer of the sum: the clamp to `[0, 255]`
gives 0 in all three cases. -/
theorem negative_sum_truncation_makes_no_difference :
    ¬ ∃ (k : SavGolKernel ℝ) (src : Int → Nat) (src_top_left src_bpl : Int),
      convolveSum k src src_top_left src_bpl < 0 ∧
      (k.convolve src src_top_left src_bpl
          ≠ (qBound 0 (Int.floor (convolveSum k src src_top_left src_bpl)) 255).toNat ∨
        k.convolve src src_top_left src_bpl
          ≠ (qBound 0 (round (convolveSum k src src_top_left src_bpl)) 255).toNat) := by
  rintro ⟨k, src, src_top_left, src_bpl, hneg, hdiff⟩
  obtain ⟨ht, hz, hf, hr⟩ := negative_sum_clamped _ hneg
  have h0 : k.convolve src src_top_left src_bpl = 0 := by
    unfold SavGolKernel.convolve
    simp only
    rw [ht]
    exact hz _ (le_refl _)
  rcases hdiff with h | h
  · exact h (by rw [h0, hz _ hf])
  · exact h (by rw [h0, hz _ hr])

/-- C19 (amended): when the sum is negative, `convolve` stores 0, and so would
it with any rounding of the sum to an integer between its floor and its
ceiling (flooring, rounding to nearest); the truncation toward zero is then
the ceiling.  Truncation and rounding to nearest differ for positive sums:
the sum 1/2 is stored as 0, its nearest integer is 1. -/
theorem negative_sum_stores_zero (k : SavGolKernel K) (src : Int → Nat)
    (src_top_left src_bpl : Int) (hneg : convolveSum k src src_top_left src_bpl < 0) :
    k.convolve src src_top_left src_bpl = 0 ∧
    (qBound 0 (Int.floor (convolveSum k src src_top_left src_bpl)) 255).toNat = 0 ∧
    (qBound 0 (round (convolveSum k src src_top_left src_bpl)) 255).toNat = 0 ∧
    (∀ r : Int, Int.floor (convolveSum k src src_top_left src_bpl) ≤ r →
      r ≤ Int.ceil (convolveSum k src src_top_left src_bpl) → (qBound 0 r 255).toNat = 0) ∧
    ((qBound 0 (truncToInt (1 / 2 : K)) 255).toNat = 0 ∧
      (qBound 0 (round (1 / 2 : K)) 255).toNat = 1) := by
  obtain ⟨ht, hz, hf, hr⟩ := negative_sum_clamped _ hneg
  refine ⟨?_, hz _ hf, hz _ hr, fun r _ h2 => hz r h2, ?_, ?_⟩
  · unfold SavGolKernel.convolve
    simp only
    rw [ht]
    exact hz _ (le_refl _)
  · have h1 : Int.floor (1 / 2 : K) = 0 := by
      rw [Int.floor_eq_iff]
      constructor <;> norm_num
    unfold truncToInt
    rw [if_pos (by norm_num), h1]
    rfl
  · rw [one_div, round_two_inv]
    rfl

/-- A kernel with the single weight -1/2 on a source of bytes 3: the sum is
-3/2, and the byte stored is 0. -/
theorem negative_sum_stores_zero_witness :
    (SavGolKernel.mk (fun _ => 0) (fun _ => 0) (fun _ => 0) [] (fun _ => (-1 / 2 : ℚ))
        0 1 1 1 1).convolve (fun _ => 3) 0 4 = 0 :=
  (negative_sum_stores_zero
    (SavGolKernel.mk (fun _ => 0) (fun _ => 0) (fun _ => 0) [] (fun _ => (-1 / 2 : ℚ))
      0 1 1 1 1) (fun _ => 3) 0 4
    (by
      rw [convolveSum_eq]
      simp only
      rw [show Finset.Ico (0 : Int) 1 = {0} by decide]
      norm_num)).1

/-- C20 (the code at a failing input): a 5x5 image with the window (3, 3) and
order 0 passes the configuration check of `savGolFilter` and the window fits
the image, so the kernel is constructed, and the constructor's assertion
`order > 0` fails: with assertions enabled the filter has no result.  The same
holds for the order -3.  The other assertion, `numVars <= numDataPoints`, holds
for every accepted configuration. -/
theorem accepted_order_zero_fails_assertion :
    ((QSize.mk 3 3).isEmpty = false ∧
      ¬ ((0 : Int) + 1) * (0 + 1) > (QSize.mk 3 3).width * (QSize.mk 3 3).height ∧
      ¬ ((QSize.mk 3 3).width > 5 ∨ (QSize.mk 3 3).height > 5)) ∧
    ctorAsserts 0 (QSize.mk 3 3) = false ∧
    savGolFilter false Real.sqrt (fun _ => 0) (fun i : QImage => i)
      (QImage.mk 5 5 8 (fun _ => 0)) (QSize.mk 3 3) 0 = Except.ok none ∧
    (¬ ((-3 : Int) + 1) * (-3 + 1) > (QSize.mk 3 3).width * (QSize.mk 3 3).height ∧
      ctorAsserts (-3) (QSize.mk 3 3) = false ∧
      savGolFilter false Real.sqrt (fun _ => 0) (fun i : QImage => i)
        (QImage.mk 5 5 8 (fun _ => 0)) (QSize.mk 3 3) (-3) = Except.ok none) ∧
    (∀ (order : Int) (size : QSize),
      ¬ (order + 1) * (order + 1) > size.width * size.height →
      (ctorAsserts order size = true ↔ order > 0)) := by
  refine ⟨by decide, by decide, ?_, ⟨by decide, by decide, ?_⟩, ?_⟩
  · have hk : savGolFilterGrayToGray false Real.sqrt (fun _ => 0)
        (QImage.mk 5 5 8 (fun _ => 0)) (QSize.mk 3 3) 0 = none := by
      simp [savGolFilterGrayToGray, SavGolKernel.new, ctorAsserts]
    unfold savGolFilter
    rw [hk]
    rfl
  · have hk : savGolFilterGrayToGray false Real.sqrt (fun _ => 0)
        (QImage.mk 5 5 8 (fun _ => 0)) (QSize.mk 3 3) (-3) = none := by
      simp [savGolFilterGrayToGray, SavGolKernel.new, ctorAsserts]
    unfold savGolFilter
    rw [hk]
    rfl
  · intro order size h
    unfold ctorAsserts
    simp only [Bool.and_eq_true, decide_eq_true_eq]
    constructor
    · intro h'
      exact h'.1
    · intro h'
      exact ⟨h', by omega⟩

end Claims

end SavGol
